import Mathlib

/-!
Verification development for the Reed-Solomon erasure-coding engine of this
repository (file `reedsolomon.go`).

The GF(2^8) arithmetic layer, the dense matrix layer and the inversion cache
are external collaborators whose sources are not part of this repository
snapshot; they are modelled from the specification (sections 3, 4.1, 4.2 and
4.4).  All driver logic (`Encode`, `Update`, `reconstruct`,
`PartialReconstruct`, `GetSurvivalShards`, `Split`, `checkShards`,
`codeSomeShards`, the matrix builders) is embedded directly from
`reedsolomon.go`.  Goroutine-split code paths (`codeSomeShardsP` etc.) write
the same bytes as the sequential kernels over disjoint ranges (spec section
4.5); the embedding uses the sequential kernels.  The inversion cache is
modelled as semantically transparent (spec sections 4.4 and 8.5: a cached
matrix is exactly the inverse that would be recomputed), i.e. every lookup
recomputes.
-/

namespace RS

/-- Modelled from the spec (section 3): packed exponentiation table for
GF(2^8) with irreducible polynomial x^8+x^4+x^3+x^2+1 (0x11d) and generator
2.  Byte `i` of this number is `2^i` in the field, for `0 ≤ i < 255`. -/
def EXPN : Nat := 0x8e47add86c361b83cfe9fa7db0582c160b8bcbebfbf3f7f5f47a3d90482412098a45ac562b9bc3eff9f279b259a251a653a7dde070381c0e078dc86432198241ae57a5dc6e3795c46231964babdbe3fff1f67bb3d7e5fc7e3f91c663bfd1e673b7d5e472399249aa55a452299a4da8542a158442219e4fa9da6db85c2e1785cc663397c5ec763b93c7edf87c3e1f81ce67bdd068341a0d884422118643afd9e271b65ba3dfe1fe7fb1d66bbbd3e7fdf0783c1e0f89ca65bc5e2f99c261be5fa1de6fb9d269ba5da05028140a058c46239fc1ee77b5d46a35944a259c4e279dc06030180c06038fc9ea75b45a2d984c261387cde8743a1d8040201008040201

/-- Modelled from the spec (section 3): packed logarithm table, the inverse
of `EXPN`.  Byte `a` of this number is `log a` for `1 ≤ a < 256`; byte 0 is
unused (the spec says `log[0]` must never be consulted). -/
def LOGN : Nat := 0xaf5850a8eaf4d674e8ade7e6e9d5ae4fd72c757aeb16f50b51a0a99cb05f59cb5a3eccbbb18660fbaa559d29523ba16cf66f0c7fec4917c476a47bb7d8432d1fa2416d4753393c849e5d2a14abd356f261befcdcb2978790cdcfbc955bd13f372e892023d99244117cb4b8267799a5e318fec531edde4a670d63808cf7c0700757a7f373ace5d44e2b79150a9f9b5eca3dba85fa54283a6b6e7e48c3a3b6421e404638835c13d2f1bddb968fce94d03688229110b32598e2fd30dd66628bbf06a672e44d78099ac9b9f9276a7dc2b51d458212f0da8e9335210f24e12f658a05714c08c8f869c11c81ef8d340ee064044bc7681bee33df03c61a320219010000

/-- Table lookup `exp[i]`. -/
def expF (i : Nat) : Nat := (EXPN >>> (8 * i)) &&& 255

/-- Table lookup `log[a]`. -/
def logF (a : Nat) : Nat := (LOGN >>> (8 * a)) &&& 255

/-- Modelled from the spec (section 4.1): byte multiplication in GF(2^8),
`mul(a,b) = 0 if a==0 or b==0 else exp[(log[a]+log[b]) mod 255]`. -/
def galMultiply (a b : Nat) : Nat :=
  if a = 0 ∨ b = 0 then 0 else expF ((logF a + logF b) % 255)

/-- Modelled from the spec (section 4.1): byte addition in GF(2^8) is XOR. -/
def galAdd (a b : Nat) : Nat := a ^^^ b

/-- Modelled from the spec (section 4.1): `div(a,b)` over the log/exp
tables; the failure on `b == 0` is modelled as the (never consulted on
verified paths) result 0. -/
def galDivide (a b : Nat) : Nat :=
  if a = 0 then 0 else if b = 0 then 0 else expF ((logF a + 255 - logF b) % 255)

/-- Multiplication by the generator 2, written as a shift-and-reduce step on
the byte's polynomial representation. -/
def xtime (x : Nat) : Nat := (x <<< 1) ^^^ (if x.testBit 7 then 285 else 0)

/-- Iterated multiplication by the generator. -/
def mulPow : Nat → Nat → Nat
  | 0, x => x
  | k + 1, x => xtime (mulPow k x)

set_option maxRecDepth 8000

theorem expF_ne_zero : ∀ i < 255, expF i ≠ 0 := by decide

theorem expF_le : expF i ≤ 255 := Nat.and_le_right

theorem expF_lt : expF i < 256 := Nat.lt_succ_of_le expF_le

theorem logF_expF : ∀ i < 255, logF (expF i) = i := by decide

theorem expF_logF : ∀ a < 256, a ≠ 0 → expF (logF a) = a := by decide

theorem logF_lt : ∀ a < 256, a ≠ 0 → logF a < 255 := by decide

theorem expF_zero : expF 0 = 1 := by decide

theorem galMultiply_two : ∀ x < 256, galMultiply 2 x = xtime x := by decide

theorem xtime_lt : ∀ x < 256, xtime x < 256 := by decide

theorem expF_step : ∀ i < 255, expF ((i + 1) % 255) = xtime (expF i) := by decide

theorem galMultiply_lt (a b : Nat) : galMultiply a b < 256 := by
  unfold galMultiply
  split
  · omega
  · exact expF_lt

theorem galDivide_lt (a b : Nat) : galDivide a b < 256 := by
  unfold galDivide
  split
  · omega
  · split
    · omega
    · exact expF_lt

theorem galMultiply_zero (a : Nat) : galMultiply a 0 = 0 := by simp [galMultiply]

theorem zero_galMultiply (a : Nat) : galMultiply 0 a = 0 := by simp [galMultiply]

theorem galMultiply_comm (a b : Nat) : galMultiply a b = galMultiply b a := by
  unfold galMultiply
  rw [Nat.add_comm (logF a)]
  exact if_congr or_comm rfl rfl

theorem galMultiply_ne_zero {a b : Nat} (ha : a ≠ 0) (hb : b ≠ 0) :
    galMultiply a b ≠ 0 := by
  unfold galMultiply
  rw [if_neg (by tauto)]
  exact expF_ne_zero _ (Nat.mod_lt _ (by omega))

theorem galMultiply_def' {a b : Nat} (ha : a ≠ 0) (hb : b ≠ 0) :
    galMultiply a b = expF ((logF a + logF b) % 255) := by
  unfold galMultiply
  rw [if_neg (by tauto)]

theorem galMultiply_assoc (a b c : Nat) (ha : a < 256) (hb : b < 256)
    (hc : c < 256) :
    galMultiply (galMultiply a b) c = galMultiply a (galMultiply b c) := by
  by_cases h0 : a = 0 ∨ b = 0 ∨ c = 0
  · rcases h0 with h | h | h <;> subst h <;>
      simp [galMultiply_zero, zero_galMultiply]
  · push_neg at h0
    obtain ⟨ha0, hb0, hc0⟩ := h0
    have hab := galMultiply_ne_zero ha0 hb0
    have hbc := galMultiply_ne_zero hb0 hc0
    rw [galMultiply_def' ha0 hb0, galMultiply_def' hb0 hc0,
      galMultiply_def' (by rw [← galMultiply_def' ha0 hb0]; exact hab) hc0,
      galMultiply_def' ha0 (by rw [← galMultiply_def' hb0 hc0]; exact hbc),
      logF_expF _ (Nat.mod_lt _ (by omega)), logF_expF _ (Nat.mod_lt _ (by omega))]
    congr 1
    omega

theorem galMultiply_one {a : Nat} (ha : a < 256) : galMultiply a 1 = a := by
  by_cases ha0 : a = 0
  · subst ha0; simp [galMultiply]
  · have h1 : logF 1 = 0 := by decide
    rw [galMultiply_def' ha0 (by omega), h1, Nat.add_zero,
      Nat.mod_eq_of_lt (logF_lt a ha ha0), expF_logF a ha ha0]

theorem xor_swap_right (a b c : Nat) : (a ^^^ b) ^^^ c = (a ^^^ c) ^^^ b := by
  rw [Nat.xor_assoc, Nat.xor_comm b c, ← Nat.xor_assoc]

theorem xor_cancel_pair (a b c : Nat) : (a ^^^ c) ^^^ (b ^^^ c) = a ^^^ b := by
  rw [Nat.xor_assoc, Nat.xor_comm b c, ← Nat.xor_assoc c c b, Nat.xor_self,
    Nat.zero_xor]

theorem xtime_xor (x y : Nat) : xtime (x ^^^ y) = xtime x ^^^ xtime y := by
  unfold xtime
  have hs : (x ^^^ y) <<< 1 = x <<< 1 ^^^ y <<< 1 := by
    apply Nat.eq_of_testBit_eq
    intro i
    simp only [Nat.testBit_shiftLeft, Nat.testBit_xor]
    cases Nat.decLe 1 i <;> simp_all
  rw [Nat.testBit_xor, hs]
  cases hx : x.testBit 7 <;> cases hy : y.testBit 7
  · simp
  · simpa using Nat.xor_assoc (x <<< 1) (y <<< 1) 285
  · simpa using xor_swap_right (x <<< 1) (y <<< 1) 285
  · simpa using (xor_cancel_pair (x <<< 1) (y <<< 1) 285).symm

theorem mulPow_zero (k : Nat) : mulPow k 0 = 0 := by
  induction k with
  | zero => rfl
  | succ k ih => show xtime (mulPow k 0) = 0; rw [ih]; decide

theorem mulPow_expF {k x : Nat} (hk : k ≤ 254) (hx : x < 256) (hx0 : x ≠ 0) :
    mulPow k x = expF ((k + logF x) % 255) := by
  induction k with
  | zero =>
    show x = _
    rw [Nat.zero_add, Nat.mod_eq_of_lt (logF_lt x hx hx0), expF_logF x hx hx0]
  | succ k ih =>
    show xtime (mulPow k x) = _
    rw [ih (by omega), ← expF_step _ (Nat.mod_lt _ (by omega))]
    congr 1
    omega

theorem galMultiply_eq_mulPow {a x : Nat} (ha : a < 256) (ha0 : a ≠ 0)
    (hx : x < 256) : galMultiply a x = mulPow (logF a) x := by
  by_cases hx0 : x = 0
  · subst hx0; rw [galMultiply_zero, mulPow_zero]
  · rw [galMultiply_def' ha0 hx0,
      mulPow_expF (by have := logF_lt a ha ha0; omega) hx hx0]

theorem mulPow_xor (k x y : Nat) :
    mulPow k (x ^^^ y) = mulPow k x ^^^ mulPow k y := by
  induction k with
  | zero => rfl
  | succ k ih =>
    show xtime (mulPow k (x ^^^ y)) = xtime (mulPow k x) ^^^ xtime (mulPow k y)
    rw [ih, xtime_xor]

theorem galMultiply_xor (a x y : Nat) (ha : a < 256) (hx : x < 256)
    (hy : y < 256) :
    galMultiply a (x ^^^ y) = galMultiply a x ^^^ galMultiply a y := by
  by_cases ha0 : a = 0
  · subst ha0; simp [zero_galMultiply]
  · rw [galMultiply_eq_mulPow ha ha0 hx, galMultiply_eq_mulPow ha ha0 hy,
      galMultiply_eq_mulPow ha ha0 (@Nat.xor_lt_two_pow x y 8 hx hy),
      mulPow_xor]

theorem galMultiply_galDivide_one {a : Nat} (ha : a < 256) (ha0 : a ≠ 0) :
    galMultiply a (galDivide 1 a) = 1 := by
  have hlog := logF_lt a ha ha0
  have h1 : logF 1 = 0 := by decide
  have hd : galDivide 1 a = expF ((255 - logF a) % 255) := by
    unfold galDivide
    rw [if_neg (by omega), if_neg ha0, h1]
  have hne : galDivide 1 a ≠ 0 := by
    rw [hd]; exact expF_ne_zero _ (Nat.mod_lt _ (by omega))
  rw [galMultiply_def' ha0 hne, hd, logF_expF _ (Nat.mod_lt _ (by omega))]
  rcases Nat.eq_zero_or_pos (logF a) with h | h
  · rw [h]; simpa using expF_zero
  · have : (logF a + (255 - logF a) % 255) % 255 = 0 := by omega
    rw [this, expF_zero]


/-- A byte viewed as an element of GF(2^8). -/
structure GF where
  val : Nat
  lt : val < 256

theorem GF.val_inj : ∀ {a b : GF}, a.val = b.val → a = b
  | ⟨_, _⟩, ⟨_, _⟩, rfl => rfl

instance : DecidableEq GF := fun a b =>
  if h : a.val = b.val then .isTrue (GF.val_inj h)
  else .isFalse (fun he => h (congrArg GF.val he))

instance : Zero GF := ⟨⟨0, by omega⟩⟩

instance : One GF := ⟨⟨1, by omega⟩⟩

theorem xor_byte_lt {a b : Nat} (ha : a < 256) (hb : b < 256) :
    a ^^^ b < 256 :=
  @Nat.xor_lt_two_pow a b 8 ha hb

instance : Add GF := ⟨fun a b => ⟨a.val ^^^ b.val, xor_byte_lt a.lt b.lt⟩⟩

instance : Mul GF := ⟨fun a b => ⟨galMultiply a.val b.val, galMultiply_lt _ _⟩⟩

instance : Neg GF := ⟨fun a => a⟩

instance : Inv GF := ⟨fun a => ⟨galDivide 1 a.val, galDivide_lt _ _⟩⟩

theorem GF.add_val (a b : GF) : (a + b).val = a.val ^^^ b.val := rfl

theorem GF.mul_val (a b : GF) : (a * b).val = galMultiply a.val b.val := rfl

theorem GF.zero_val : (0 : GF).val = 0 := rfl

theorem GF.one_val : (1 : GF).val = 1 := rfl

theorem GF.neg_val (a : GF) : (-a).val = a.val := rfl

theorem GF.inv_val (a : GF) : (a⁻¹).val = galDivide 1 a.val := rfl

instance : CommRing GF where
  nsmul := nsmulRec
  zsmul := zsmulRec
  add_assoc a b c := by
    apply GF.val_inj; show (a.val ^^^ b.val) ^^^ c.val = a.val ^^^ (b.val ^^^ c.val)
    exact Nat.xor_assoc _ _ _
  add_comm a b := by
    apply GF.val_inj; show a.val ^^^ b.val = b.val ^^^ a.val
    exact Nat.xor_comm _ _
  zero_add a := by
    apply GF.val_inj; show 0 ^^^ a.val = a.val
    exact Nat.zero_xor _
  add_zero a := by
    apply GF.val_inj; show a.val ^^^ 0 = a.val
    exact Nat.xor_zero _
  neg_add_cancel a := by
    apply GF.val_inj; show a.val ^^^ a.val = 0
    exact Nat.xor_self _
  mul_assoc a b c := by
    apply GF.val_inj
    show galMultiply (galMultiply a.val b.val) c.val
      = galMultiply a.val (galMultiply b.val c.val)
    exact galMultiply_assoc _ _ _ a.lt b.lt c.lt
  mul_comm a b := by
    apply GF.val_inj; show galMultiply a.val b.val = galMultiply b.val a.val
    exact galMultiply_comm _ _
  one_mul a := by
    apply GF.val_inj; show galMultiply 1 a.val = a.val
    rw [galMultiply_comm]; exact galMultiply_one a.lt
  mul_one a := by
    apply GF.val_inj; show galMultiply a.val 1 = a.val
    exact galMultiply_one a.lt
  zero_mul a := by
    apply GF.val_inj; show galMultiply 0 a.val = 0
    exact zero_galMultiply _
  mul_zero a := by
    apply GF.val_inj; show galMultiply a.val 0 = 0
    exact galMultiply_zero _
  left_distrib a b c := by
    apply GF.val_inj
    show galMultiply a.val (b.val ^^^ c.val)
      = galMultiply a.val b.val ^^^ galMultiply a.val c.val
    exact galMultiply_xor _ _ _ a.lt b.lt c.lt
  right_distrib a b c := by
    apply GF.val_inj
    show galMultiply (a.val ^^^ b.val) c.val
      = galMultiply a.val c.val ^^^ galMultiply b.val c.val
    rw [galMultiply_comm, galMultiply_xor _ _ _ c.lt a.lt b.lt,
      galMultiply_comm c.val a.val, galMultiply_comm c.val b.val]

instance : Field GF where
  exists_pair_ne := ⟨0, 1, fun h => by
    have h2 : (0 : Nat) = 1 := congrArg GF.val h
    omega⟩
  mul_inv_cancel a ha := by
    apply GF.val_inj
    show galMultiply a.val (galDivide 1 a.val) = 1
    exact galMultiply_galDivide_one a.lt (fun h => ha (GF.val_inj h))
  inv_zero := by
    apply GF.val_inj
    show galDivide 1 0 = 0
    rfl
  nnqsmul := _
  qsmul := _

/-- Matrices (spec section 4.2), modelled like Go's `[][]byte`: a list of
rows. -/
abbrev Mat := List (List GF)

/-- Entry access `m[r][c]` (out-of-range reads, which panic in Go, read 0;
verified paths stay in range). -/
def entry (A : Mat) (r c : Nat) : GF := (A.getD r []).getD c 0

/-- Modelled from the spec (section 4.2): `newMatrix(r,c)` is zero-filled. -/
def newMatrix (r c : Nat) : Mat := List.replicate r (List.replicate c 0)

/-- Modelled from the spec (section 4.2): `identity(n)` has 1 on the
diagonal. -/
def identityM (n : Nat) : Mat :=
  (List.range n).map fun i => (List.range n).map fun j => if i = j then 1 else 0

/-- The column count `len(m[0])` of a matrix. -/
def matCols (A : Mat) : Nat := (A.getD 0 []).length

/-- Sum of a list of field elements. -/
def gfSum (l : List GF) : GF := l.sum

/-- Errors of the engine (spec section 7). -/
inductive RSError where
  | invShardNum
  | maxShardNum
  | tooFewShards
  | shardNoData
  | shardSize
  | invalidInput
  | shortData
  | reconstructRequired
  | shardsNotSurvival
  | indexNotIncremental
  | singular
  | matrixDimension
  deriving DecidableEq

/-- Modelled from the spec (section 4.2): `multiply(A,B)` is the standard
triple loop over GF(2^8) and fails if `A.cols != B.rows`. -/
def matMultiply (A B : Mat) : Except RSError Mat :=
  if matCols A ≠ B.length then .error .matrixDimension
  else .ok (A.map fun arow =>
    (List.range (matCols B)).map fun c =>
      gfSum ((List.range B.length).map fun k => arow.getD k 0 * entry B k c))

/-- Modelled from the spec (section 4.2): `submatrix(r0,c0,r1,c1)` is a
materialized copy. -/
def SubMatrix (A : Mat) (rmin cmin rmax cmax : Nat) : Mat :=
  ((A.drop rmin).take (rmax - rmin)).map fun row => (row.drop cmin).take (cmax - cmin)

/-- Swap rows `i` and `j`. -/
def swapRows (A : Mat) (i j : Nat) : Mat :=
  (A.set i (A.getD j [])).set j (A.getD i [])

/-- Multiply every element of a row by a constant. -/
def scaleRow (c : GF) (row : List GF) : List GF := row.map (fun a => c * a)

/-- Gauss-Jordan elimination applied to every row other than the pivot row
`k`: row `i` becomes `row i + (factor i) * pivot row`.  In GF(2^8)
subtracting and adding coincide. -/
def elimOthers (k : Nat) (P : Mat) (factors : Nat → GF) (pivotRow : List GF) : Mat :=
  (List.range P.length).map fun i =>
    if i = k then P.getD i []
    else List.zipWith (fun a b => a + factors i * b) (P.getD i []) pivotRow

/-- Modelled from the spec (section 4.2): one Gauss-Jordan column step on
the augmented pair `(L, R)` (left and right halves of `[A | I]`).  Pivot
selection: the first row `r ≥ k` with a nonzero entry in column `k`
(equivalently, the diagonal if nonzero, else a row below); `none` when no
pivot exists (the "singular" failure).  The pivot row is scaled so the
pivot becomes 1 and column `k` is eliminated both below and above. -/
def gjStep (k : Nat) (L R : Mat) : Option (Mat × Mat) :=
  match (List.range' k (L.length - k)).find? (fun r => decide (entry L r k ≠ 0)) with
  | none => none
  | some r =>
    let L1 := swapRows L k r
    let R1 := swapRows R k r
    let pinv := (entry L1 k k)⁻¹
    let L2 := L1.set k (scaleRow pinv (L1.getD k []))
    let R2 := R1.set k (scaleRow pinv (R1.getD k []))
    some (elimOthers k L2 (fun i => entry L2 i k) (L2.getD k []),
          elimOthers k R2 (fun i => entry L2 i k) (R2.getD k []))

/-- Run Gauss-Jordan steps for columns `k, k+1, ...` with `fuel` steps
remaining. -/
def gjRun : Nat → Nat → Mat → Mat → Option Mat
  | 0, _, _, R => some R
  | fuel + 1, k, L, R =>
    match gjStep k L R with
    | none => none
    | some (L2, R2) => gjRun fuel (k + 1) L2 R2

/-- Modelled from the spec (section 4.2): `invert(A)` by Gauss-Jordan on the
augmented matrix `[A | I]`; fails with "singular" when some column has no
pivot. -/
def matInvert (A : Mat) : Except RSError Mat :=
  match gjRun A.length 0 A (identityM A.length) with
  | none => .error .singular
  | some R => .ok R

/-- A byte element built from a row index (row indices are below 256 for
every encoder, since `Shards ≤ 256`). -/
def gfByte (n : Nat) : GF := ⟨n % 256, Nat.mod_lt _ (by omega)⟩

/-- Modelled from the spec (section 4.3): the Vandermonde matrix
`V[r][c] = exp_pow(r, c)`. -/
def vandermonde (rows cols : Nat) : Mat :=
  (List.range rows).map fun r => (List.range cols).map fun c => gfByte r ^ c

/-- Modelled from the spec (section 4.1): the byte inversion table used by
the Cauchy builder. -/
def invTable (x : Nat) : GF := (gfByte x)⁻¹


/-- Embedded from `reedsolomon.go` (`buildMatrixPAR1`): identity on top and
a transposed Vandermonde matrix starting at 1 below. -/
def buildMatrixPAR1 (dataShards totalShards : Nat) : Mat :=
  (List.range totalShards).map fun r =>
    (List.range dataShards).map fun c =>
      if r < dataShards then (if r = c then 1 else 0)
      else gfByte (c + 1) ^ (r - dataShards)

/-- Embedded from `reedsolomon.go` (`buildMatrixCauchy`): identity on top
and a transposed Cauchy matrix `invTable[byte(r ^ c)]` below. -/
def buildMatrixCauchy (dataShards totalShards : Nat) : Mat :=
  (List.range totalShards).map fun r =>
    (List.range dataShards).map fun c =>
      if r < dataShards then (if r = c then 1 else 0)
      else invTable (r ^^^ c)

/-- Embedded from `reedsolomon.go` (`buildMatrix`): Vandermonde matrix
right-multiplied by the inverse of its top square. -/
def buildMatrix (dataShards totalShards : Nat) : Except RSError Mat := do
  let vm := vandermonde totalShards dataShards
  let top := SubMatrix vm 0 0 dataShards dataShards
  let topInv ← matInvert top
  matMultiply vm topInv

/-- Embedded from `reedsolomon.go` (`buildMatrixJerasure`, main loop body
for column `i`): find the pivot row `r ≥ i` with a nonzero entry in column
`i` and swap it into place (the `none` case is an out-of-range access, a
panic, in Go; it is unreachable for the parameters accepted by `New`);
scale column `i` so that the diagonal becomes 1; then, for every other
column `j`, add `vm[i][j]` times column `i` so that row `i` becomes a unit
row. -/
def jerasureStep (totalShards : Nat) (vm : Mat) (i : Nat) : Mat :=
  match (List.range' i (totalShards - i)).find? (fun r => decide (entry vm r i ≠ 0)) with
  | none => vm
  | some r =>
    let vm1 := if r ≠ i then swapRows vm i r else vm
    let vm2 :=
      if entry vm1 i i ≠ 1 then
        vm1.map fun row => row.set i ((entry vm1 i i)⁻¹ * row.getD i 0)
      else vm1
    vm2.map fun row =>
      (List.range row.length).map fun j =>
        if j ≠ i ∧ entry vm2 i j ≠ 0 then
          row.getD j 0 + entry vm2 i j * row.getD i 0
        else row.getD j 0

/-- Embedded from `reedsolomon.go` (`buildMatrixJerasure`): Vandermonde
matrix with the first row forced to `1 0 ... 0` and the last row forced to
`0 ... 0 1`, column-reduced so the top square becomes the identity, then
normalized so row `dataShards` is all ones and column 0 of the remaining
parity rows is all ones. -/
def buildMatrixJerasure (dataShards totalShards : Nat) : Mat :=
  let vm0 := vandermonde totalShards dataShards
  let vm1 := vm0.set 0 ((List.range dataShards).map fun i => if i = 0 then 1 else 0)
  let vm2 := vm1.set (totalShards - 1)
    ((List.range dataShards).map fun i => if i = dataShards - 1 then 1 else 0)
  let vm3 := (List.range dataShards).foldl (jerasureStep totalShards) vm2
  let vm4 := (List.range vm3.length).map fun r =>
    if r < dataShards then vm3.getD r []
    else (List.range (vm3.getD r []).length).map fun j =>
      if entry vm3 dataShards j = 1 then entry vm3 r j
      else entry vm3 r j * (entry vm3 dataShards j)⁻¹
  (List.range vm4.length).map fun r =>
    if dataShards + 1 ≤ r then
      (if entry vm4 r 0 = 1 then vm4.getD r []
       else (vm4.getD r []).map fun a => a * (entry vm4 r 0)⁻¹)
    else vm4.getD r []

/-- Embedded from `reedsolomon.go` (`buildMatrixSpecialJerasure`): a
Jerasure matrix with one extra row, with the all-ones XOR row at index
`dataShards` deleted. -/
def buildMatrixSpecialJerasure (dataShards totalShards : Nat) : Mat :=
  let vm := buildMatrixJerasure dataShards (totalShards + 1)
  vm.take dataShards ++ vm.drop (dataShards + 1)

/-- Embedded from `reedsolomon.go` (`buildMatrixAzureLrcP1`): global parity
rows from `buildMatrixSpecialJerasure`, then the 0-1 indicator rows of the
DATA-AZ local parities, then the PARITY-AZ local parity row, which is the
sum of the global parity rows. -/
def buildMatrixAzureLrcP1 (dataShards globalParityShards localParityShards : Nat) : Mat :=
  let vm := buildMatrixSpecialJerasure dataShards (globalParityShards + dataShards)
  let localDataNum := dataShards / (localParityShards - 1)
  let locals := (List.range localParityShards).map fun row =>
    if row < localParityShards - 1 then
      (List.range dataShards).map fun col =>
        if col / localDataNum = row then (1 : GF) else 0
    else
      (List.range dataShards).map fun col =>
        gfSum ((List.range globalParityShards).map fun gi =>
          entry vm (dataShards + gi) col)
  vm ++ locals

/-- The matrix family selected by the construction options of `New`. -/
inductive MatrixKind where
  | defaultMatrix
  | cauchy
  | par1
  | jerasure
  | azureLrcP1
  deriving DecidableEq

/-- Embedded from `reedsolomon.go`: the encoder state (`reedSolomon`).  The
`parity` field of the Go struct is row `DataShards + i` of `m` and is
modelled by the function `reedSolomon.parity`; the inversion tree is
modelled as semantically transparent (spec sections 4.4 and 8.5). -/
structure reedSolomon where
  DataShards : Nat
  ParityShards : Nat
  m : Mat
  kind : MatrixKind

def reedSolomon.Shards (r : reedSolomon) : Nat := r.DataShards + r.ParityShards

def reedSolomon.parity (r : reedSolomon) : Mat := r.m.drop r.DataShards

/-- Embedded from `reedsolomon.go` (`New`): validates the shard counts and
builds the code matrix for the selected option (`l = 3` is hard-coded on
the AzureLRC+1 path). -/
def New (dataShards parityShards : Nat) (kind : MatrixKind) : Except RSError reedSolomon :=
  if dataShards = 0 ∨ parityShards = 0 then .error .invShardNum
  else if 256 < dataShards + parityShards then .error .maxShardNum
  else
    let total := dataShards + parityShards
    match kind with
    | .cauchy => .ok ⟨dataShards, parityShards, buildMatrixCauchy dataShards total, kind⟩
    | .par1 => .ok ⟨dataShards, parityShards, buildMatrixPAR1 dataShards total, kind⟩
    | .jerasure => .ok ⟨dataShards, parityShards, buildMatrixJerasure dataShards total, kind⟩
    | .azureLrcP1 =>
      .ok ⟨dataShards, parityShards,
        buildMatrixAzureLrcP1 dataShards (total - dataShards - 3) 3, kind⟩
    | .defaultMatrix =>
      (buildMatrix dataShards total).map fun mm =>
        ⟨dataShards, parityShards, mm, kind⟩

/-- A Go byte slice: a length and the backing buffer from the slice start
(so the buffer length is the capacity). -/
structure Slice where
  len : Nat
  buf : List GF

/-- A shard entry of a `[][]byte` vector: `none` is Go `nil`. -/
def Shard := Option Slice

/-- Go `len(shard)`. -/
def slen : Shard → Nat
  | none => 0
  | some s => s.len

/-- Go `cap(shard)`. -/
def scap : Shard → Nat
  | none => 0
  | some s => s.buf.length

/-- The visible bytes of a shard, `shard[0:len]`. -/
def sview : Shard → List GF
  | none => []
  | some s => s.buf.take s.len

/-- Writing the byte list `v` through a slice: the first `v.length` bytes
of the backing buffer are replaced, the slice length and the tail of the
buffer are kept. -/
def writeBack (s : Shard) (v : List GF) : Shard :=
  match s with
  | none => some ⟨v.length, v⟩
  | some sl => some ⟨sl.len, v ++ sl.buf.drop v.length⟩

/-- Go `make([]byte, size)`. -/
def mkShard (size : Nat) : Shard := some ⟨size, List.replicate size 0⟩

/-- Embedded from `reedsolomon.go` (`reconstruct`, `PartialReconstruct`):
reuse a zero-length shard's buffer when its capacity suffices
(`shards[i] = shards[i][0:size]`), otherwise allocate
(`make([]byte, size)`). -/
def allocShard (s : Shard) (size : Nat) : Shard :=
  if size ≤ scap s then
    match s with
    | none => some ⟨size, []⟩
    | some sl => some ⟨size, sl.buf⟩
  else mkShard size

/-- Embedded from `reedsolomon.go` (`shardSize`): the first non-zero shard
length, or 0. -/
def shardSize (shards : List Shard) : Nat :=
  match shards.find? (fun s => decide (slen s ≠ 0)) with
  | some s => slen s
  | none => 0

/-- Embedded from `reedsolomon.go` (`checkShards`): every shard must have
the common size; zero-length shards are tolerated iff `nilok`; all-empty
input is `ErrShardNoData`. -/
def checkShards (shards : List Shard) (nilok : Bool) : Option RSError :=
  let size := shardSize shards
  if size = 0 then some .shardNoData
  else if shards.any (fun s => decide (slen s ≠ size) && (decide (slen s ≠ 0) || !nilok)) then
    some .shardSize
  else none

/-- Whether a shard is Go `nil`. -/
def isNil : Shard → Bool
  | none => true
  | some _ => false

/-- Modelled from the spec (section 4.1): multiply a slice by a constant
into the output ("overwrite" primitive, Go `galMulSlice`); bytes of the
output beyond the input length are untouched. -/
def galMulSlice (c : GF) (inp out : List GF) : List GF :=
  inp.map (fun a => c * a) ++ out.drop inp.length

/-- Modelled from the spec (section 4.1): multiply-and-XOR-into-output
primitive (Go `galMulSliceXor`). -/
def galMulSliceXor (c : GF) (inp out : List GF) : List GF :=
  List.zipWith (fun a b => c * a + b) inp out ++ out.drop inp.length

/-- Modelled from the spec (section 4.1): XOR a slice into the output
(Go `sliceXor`): `out[n] ^= in[n]`. -/
def sliceXor (inp out : List GF) : List GF :=
  List.zipWith (fun a b => a + b) inp out ++ out.drop inp.length

/-- Embedded from `reedsolomon.go` (`codeSomeShards`, sequential kernel):
for each input column `c` and each output row, column 0 overwrites the
output with `matrixRows[iRow][0] * inputs[0]` and every later column XORs
`matrixRows[iRow][c] * inputs[c]` in.  The output count is the length of
`outputs` (call sites pass the slice `outputs[:outputCount]`). -/
def codeSomeShards (dataShards : Nat) (matrixRows : Mat)
    (inputs outputs : List (List GF)) : List (List GF) :=
  (List.range dataShards).foldl
    (fun outs c =>
      let inp := inputs.getD c []
      (List.range outs.length).map fun iRow =>
        if c = 0 then galMulSlice (entry matrixRows iRow c) inp (outs.getD iRow [])
        else galMulSliceXor (entry matrixRows iRow c) inp (outs.getD iRow []))
    outputs

/-- Embedded from `reedsolomon.go` (`Encode`): check the shard count and
shapes, then code the parity shards from the data shards. -/
def Encode (r : reedSolomon) (shards : List Shard) : Option RSError × List Shard :=
  if shards.length ≠ r.Shards then (some .tooFewShards, shards)
  else match checkShards shards false with
    | some e => (some e, shards)
    | none =>
      let inputs := (shards.take r.DataShards).map sview
      let outputs := (shards.drop r.DataShards).map sview
      let newOut := codeSomeShards r.DataShards r.parity inputs outputs
      (none, shards.take r.DataShards ++
        List.zipWith writeBack (shards.drop r.DataShards) newOut)

/-- Embedded from `reedsolomon.go` (`updateParityShards`, sequential path):
for each changed data column `c`, XOR the new data into the old data shard
in place (the old buffer then holds the delta), and XOR
`parity[iRow][c] * delta` into every parity shard. -/
def updStep (r : reedSolomon) (newinputs : List Shard)
    (st : List Shard × List (List GF)) (c : Nat) : List Shard × List (List GF) :=
  match newinputs.getD c none with
  | none => st
  | some nsl =>
    let inview := nsl.buf.take nsl.len
    let old := st.1.getD c none
    let delta := sliceXor inview (sview old)
    let olds2 := st.1.set c (writeBack old delta)
    let outs2 := (List.range st.2.length).map fun iRow =>
      galMulSliceXor (entry r.parity iRow c) delta (st.2.getD iRow [])
    (olds2, outs2)

def updateParityShards (r : reedSolomon) (oldinputs newinputs : List Shard)
    (outputs : List (List GF)) : List Shard × List (List GF) :=
  (List.range r.DataShards).foldl (updStep r newinputs) (oldinputs, outputs)

/-- Embedded from `reedsolomon.go` (`Update`): validates counts, shapes and
presence (changed columns need their old data shard, all old parities must
be present), then updates the parity shards incrementally. -/
def Update (r : reedSolomon) (shards newDatashards : List Shard) :
    Option RSError × List Shard :=
  if shards.length ≠ r.Shards then (some .tooFewShards, shards)
  else if newDatashards.length ≠ r.DataShards then (some .tooFewShards, shards)
  else match checkShards shards true with
    | some e => (some e, shards)
    | none => match checkShards newDatashards true with
      | some e => (some e, shards)
      | none =>
        if (List.range newDatashards.length).any (fun i =>
            !(isNil (newDatashards.getD i none)) && isNil (shards.getD i none)) then
          (some .invalidInput, shards)
        else if (shards.drop r.DataShards).any (fun p => isNil p) then
          (some .invalidInput, shards)
        else
          let outputs := (shards.drop r.DataShards).map sview
          let upd := updateParityShards r (shards.take r.DataShards)
            (newDatashards.take r.DataShards) outputs
          (none, upd.1 ++ List.zipWith writeBack (shards.drop r.DataShards) upd.2)

/-- The number of shards with non-zero length. -/
def numberPresent (shards : List Shard) : Nat :=
  (shards.filter fun s => decide (slen s ≠ 0)).length

/-- Embedded from `reedsolomon.go` (`reconstruct`): the scan that collects
the first `DataShards` present indices as `validIndices` and the absent
indices seen before that point as `invalidIndices`. -/
def scanValid (shards : List Shard) (total d : Nat) : List Nat × List Nat :=
  (List.range total).foldl
    (fun st i =>
      if st.1.length < d then
        (if slen (shards.getD i none) ≠ 0 then (st.1 ++ [i], st.2)
         else (st.1, st.2 ++ [i]))
      else st)
    ([], [])

/-- Write computed output slices back into the shard vector at the listed
indices. -/
def writeBackAt (shards : List Shard) (idxs : List Nat) (outs : List (List GF)) :
    List Shard :=
  (idxs.zip outs).foldl
    (fun sh p => sh.set p.1 (writeBack (sh.getD p.1 none) p.2)) shards

/-- Embedded from `reedsolomon.go` (`reconstruct`): checks, early return
when everything is present, `ErrTooFewShards` when fewer than `DataShards`
survive, then decode the missing data shards with the inverted submatrix of
the first `DataShards` surviving rows, and (unless `dataOnly`) re-encode
the missing parity shards.  The inversion-tree lookup is modelled as
transparent: the decode matrix is always recomputed (spec sections 4.4 and
8.5). -/
def reconstruct (r : reedSolomon) (shards : List Shard) (dataOnly : Bool) :
    Option RSError × List Shard :=
  if shards.length ≠ r.Shards then (some .tooFewShards, shards)
  else match checkShards shards true with
  | some e => (some e, shards)
  | none =>
    let size := shardSize shards
    if numberPresent shards = r.Shards then (none, shards)
    else if numberPresent shards < r.DataShards then (some .tooFewShards, shards)
    else
      let validIndices := (scanValid shards r.Shards r.DataShards).1
      let subShards := validIndices.map fun vi => sview (shards.getD vi none)
      let subMatrix := validIndices.map fun vi =>
        (List.range r.DataShards).map fun c => entry r.m vi c
      match matInvert subMatrix with
      | .error e => (some e, shards)
      | .ok dataDecodeMatrix =>
        let missingData := (List.range r.DataShards).filter fun i =>
          decide (slen (shards.getD i none) = 0)
        let shards1 := (List.range r.Shards).map fun i =>
          let s := shards.getD i none
          if i < r.DataShards ∧ slen s = 0 then allocShard s size else s
        let outputs := missingData.map fun i => sview (shards1.getD i none)
        let matrixRows := missingData.map fun i => dataDecodeMatrix.getD i []
        let newOuts := codeSomeShards r.DataShards matrixRows subShards outputs
        let shards2 := writeBackAt shards1 missingData newOuts
        if dataOnly then (none, shards2)
        else
          let missingParity := (List.range r.Shards).filter fun i =>
            decide (r.DataShards ≤ i ∧ slen (shards.getD i none) = 0)
          let shards3 := missingParity.foldl
            (fun sh i => sh.set i (allocShard (sh.getD i none) size)) shards2
          let outputsP := missingParity.map fun i => sview (shards3.getD i none)
          let matrixRowsP := missingParity.map fun i => r.parity.getD (i - r.DataShards) []
          let newOutsP := codeSomeShards r.DataShards matrixRowsP
            ((shards3.take r.DataShards).map sview) outputsP
          (none, writeBackAt shards3 missingParity newOutsP)

/-- Embedded from `reedsolomon.go` (`Reconstruct`). -/
def Reconstruct (r : reedSolomon) (shards : List Shard) : Option RSError × List Shard :=
  reconstruct r shards false

/-- Embedded from `reedsolomon.go` (`ReconstructData`). -/
def ReconstructData (r : reedSolomon) (shards : List Shard) : Option RSError × List Shard :=
  reconstruct r shards true

/-- The strictly-increasing check of `PartialReconstruct`: every adjacent
pair must increase (`badIdx[i] <= badIdx[i-1]` is rejected). -/
def isIncremental : List Nat → Bool
  | a :: b :: t => decide (a < b) && isIncremental (b :: t)
  | _ => true

/-- Embedded from `reedsolomon.go` (`PartialReconstruct`): the square
matrix filled from the code-matrix rows listed in `survivalIdx` (rows
beyond the survivor count stay zero; survivor lists longer than
`DataShards` would panic in Go and their extra entries are ignored here). -/
def partialSubMatrix (r : reedSolomon) (survivalIdx : List Nat) : Mat :=
  (List.range r.DataShards).map fun j =>
    if j < survivalIdx.length then
      (List.range r.DataShards).map fun c => entry r.m (survivalIdx.getD j 0) c
    else List.replicate r.DataShards 0

/-- Embedded from `reedsolomon.go` (`PartialReconstruct`): the bad rows'
encode matrix, `|badIdx| × DataShards`. -/
def invalidEncodeMat (r : reedSolomon) (badIdx : List Nat) : Mat :=
  badIdx.map fun bi => (List.range r.DataShards).map fun c => entry r.m bi c

/-- Embedded from `reedsolomon.go` (`PartialReconstruct`): checks, early
return when everything is present, the survivor-membership check, then
multiply the bad rows' encode matrix with the decode matrix of the
(hypothetical full) survivor set and XOR each contribution of the present
survivors into the bad shards' buffers.  Absent survivors are zero-filled.
A failing matrix multiplication returns success without touching the
shards (the swallowed-error branch of the source).  The inversion tree is
modelled as transparent. -/
def PartialReconstruct (r : reedSolomon) (shards : List Shard)
    (survivalIdx badIdx : List Nat) : Option RSError × List Shard :=
  if shards.length ≠ r.Shards then (some .tooFewShards, shards)
  else if !(isIncremental survivalIdx) then (some .indexNotIncremental, shards)
  else if !(isIncremental badIdx) then (some .indexNotIncremental, shards)
  else if numberPresent shards = r.Shards then (none, shards)
  else if (List.range r.Shards).any (fun i =>
      decide (slen (shards.getD i none) ≠ 0) && !(survivalIdx.contains i)) then
    (some .shardsNotSurvival, shards)
  else
    match matInvert (partialSubMatrix r survivalIdx) with
    | .error e => (some e, shards)
    | .ok dataDecodeMatrix =>
      match matMultiply (invalidEncodeMat r badIdx) dataDecodeMatrix with
      | .error _ => (none, shards)
      | .ok finalDecodeMatrix =>
        let size := shardSize shards
        let shards1 := survivalIdx.foldl
          (fun sh idx =>
            if slen (sh.getD idx none) = 0 then sh.set idx (mkShard size) else sh)
          shards
        let subsList := ((List.range r.Shards).filter fun i =>
          survivalIdx.contains i).map fun i => sview (shards1.getD i none)
        let subShards := subsList.take r.DataShards ++
          List.replicate (r.DataShards - subsList.length) []
        let badList := (List.range r.Shards).filter fun i => badIdx.contains i
        let shards2 := badList.foldl
          (fun sh i => sh.set i (allocShard (sh.getD i none) size)) shards1
        let outputs := badList.map fun i => sview (shards2.getD i none)
        let newOuts := codeSomeShards r.DataShards finalDecodeMatrix subShards outputs
        (none, writeBackAt shards2 badList newOuts)

/-- Embedded from `reedsolomon.go` (the `isContainedIn` closure of
`GetSurvivalShards`). -/
def isContainedIn (shortList longList : List Nat) : Bool :=
  shortList.all fun s => longList.contains s

/-- Embedded from `reedsolomon.go` (`GetSurvivalShards`, the combination
stepping code): find the greatest position `j` whose entry is not maximal
(`comb[j] != n-k+j`), increment it and make the following entries
consecutive.  When every entry is maximal (the last combination; the Go
loop guard `i < combinationCnt-1` keeps this from being executed there),
the combination is returned unchanged. -/
def combStep (n k : Nat) (comb : List Nat) : List Nat :=
  match ((List.range k).filter fun j => decide (comb.getD j 0 ≠ n - k + j)).getLast? with
  | none => comb
  | some j => (List.range k).map fun t =>
      if t < j then comb.getD t 0 else comb.getD j 0 + 1 + (t - j)

/-- Embedded from `reedsolomon.go` (`GetSurvivalShards`, the enumeration
loop): try each combination of `k` survivor positions in turn; on an
invertible submatrix accept it, unless local repair requires the selection
to contain the failed AZ's survivors and it does not.  `lastErr` carries
the error of the most recent inversion attempt, which is what the source
returns when the enumeration is exhausted. -/
def survLoop (k : Nat) (mm : Mat) (needContain : List Nat) (requireContain : Bool)
    (survivalIndices : List Nat) (n : Nat) :
    Nat → List Nat → Option RSError → Option RSError × Option (List Nat)
  | 0, _, lastErr => (lastErr, none)
  | fuel + 1, comb, _lastErr =>
    let selectShards := comb.map fun sel => survivalIndices.getD sel 0
    let sub := selectShards.map fun si => (List.range k).map fun c => entry mm si c
    match matInvert sub with
    | .ok _ =>
      if !requireContain || isContainedIn needContain selectShards then
        (none, some selectShards)
      else
        survLoop k mm needContain requireContain survivalIndices n fuel
          (combStep n k comb) none
    | .error e =>
      survLoop k mm needContain requireContain survivalIndices n fuel
        (combStep n k comb) (some e)

/-- Embedded from `reedsolomon.go` (`GetSurvivalShards`): on a single
failure of an AzureLRC+1 encoder the other members of the failed shard's AZ
become the read set and the chosen combination must contain them; otherwise
the first invertible combination is both selected and read.  The Go
combination count (computed through float log-gamma) is modelled as the
exact binomial coefficient, which the float computation rounds to for the
parameter sizes where the Go loop is meaningful. -/
def GetSurvivalShards (r : reedSolomon) (badIndex : List Nat)
    (azLayout : List (List Nat)) : Option RSError × List Nat × List Nat :=
  if badIndex.length = 0 then (none, [], [])
  else if r.Shards - badIndex.length < r.DataShards then (some .tooFewShards, [], [])
  else
    let forComputationShards :=
      if badIndex.length = 1 ∧ r.kind = .azureLrcP1 then
        let badAzId := (azLayout.findIdx? fun layout =>
          layout.contains (badIndex.getD 0 0)).getD 0
        (azLayout.getD badAzId []).filter fun s => decide (s ≠ badIndex.getD 0 0)
      else []
    let survivalIndices := (List.range r.Shards).filter fun i => !(badIndex.contains i)
    let n := survivalIndices.length
    let k := r.DataShards
    let requireContain :=
      decide (badIndex.length = 1) && decide (r.kind = MatrixKind.azureLrcP1)
    match survLoop k r.m forComputationShards requireContain survivalIndices n
        (Nat.choose n k) (List.range k) none with
    | (_, some sel) =>
      if badIndex.length = 1 then (none, sel, forComputationShards)
      else (none, sel, sel)
    | (lastErr, none) => (lastErr, [], [])

/-- Embedded from `reedsolomon.go` (`Split`): pad to `Shards * perShard`
bytes and slice into equal shards (buffer sharing between the returned
shards is not modelled; the byte contents are as in the source). -/
def Split (r : reedSolomon) (data : List GF) : Except RSError (List Shard) :=
  if data.length = 0 then .error .shortData
  else
    let perShard := (data.length + r.DataShards - 1) / r.DataShards
    let padded := data ++ List.replicate (r.Shards * perShard - data.length) 0
    .ok ((List.range r.Shards).map fun i =>
      some ⟨perShard, (padded.drop (i * perShard)).take perShard⟩)

/-- The mathematical value of output row `i` of `codeSomeShards`: byte `t`
is the GF(2^8) dot product of matrix row `i` with byte `t` of each input
(spec section 4.5). -/
def codedView (M : Mat) (inputs : List (List GF)) (d size i : Nat) : List GF :=
  (List.range size).map fun t =>
    gfSum ((List.range d).map fun c => entry M i c * (inputs.getD c []).getD t 0)

/-- The Go slice invariant: the length never exceeds the capacity. -/
def wfShard (s : Shard) : Prop := slen s ≤ scap s

/-- The delta written into a changed data column by `Update`: the XOR of the
new data with the old data shard (empty when the column is unchanged). -/
def updDelta (oldinputs newinputs : List Shard) (c : Nat) : List GF :=
  match newinputs.getD c none with
  | none => []
  | some nsl => sliceXor (nsl.buf.take nsl.len) (sview (oldinputs.getD c none))

/-- The claim's `newShards`: the shard vector with every changed data
column replaced by its new data and everything else taken from the old
shards. -/
def mergedShards (r : reedSolomon) (shards newDatashards : List Shard) : List Shard :=
  (List.range r.Shards).map fun i =>
    if i < r.DataShards ∧ isNil (newDatashards.getD i none) = false then
      newDatashards.getD i none
    else shards.getD i none

/-- The claim's partial-presence vectors: survivors outside `keep` are
made nil, every other position is taken from `shards` unchanged. -/
def maskShards (survivalIdx : List Nat) (keep : Nat → Bool)
    (shards : List Shard) : List Shard :=
  (List.range shards.length).map fun i =>
    if survivalIdx.contains i && !(keep i) then none else shards.getD i none

/-- The caller-side buffer reset between two partial calls: the slice is
truncated to length zero (`shard = shard[:0]`), keeping its backing
buffer. -/
def truncShard : Shard → Shard
  | none => none
  | some sl => some ⟨0, sl.buf⟩

/-- The shard indices selected by a combination: `comb` holds positions
into the survivor list. -/
def selShards (surv comb : List Nat) : List Nat :=
  comb.map fun sel => surv.getD sel 0

/-- Whether the enumeration loop of `GetSurvivalShards` accepts a
combination: its submatrix inverts and, when local repair demands it, the
selection contains the needed shards. -/
def comboOk (k : Nat) (mm : Mat) (need : List Nat) (req : Bool)
    (surv comb : List Nat) : Bool :=
  match matInvert ((selShards surv comb).map fun si =>
      (List.range k).map fun c => entry mm si c) with
  | .ok _ => !req || isContainedIn need (selShards surv comb)
  | .error _ => false

/-- The sequence of combinations visited by the enumeration loop: start at
`comb` and apply `combStep` once per remaining iteration. -/
def combOrbit (n k : Nat) : Nat → List Nat → List (List Nat)
  | 0, _ => []
  | fuel + 1, comb => comb :: combOrbit n k fuel (combStep n k comb)

/-- The `i`-th entry of the matrix-vector product `A·x` over the first `n`
columns (spec section 4.2: matrices act by GF(2^8) dot products). -/
def matVec (A : Mat) (x : Nat → GF) (n i : Nat) : GF :=
  gfSum ((List.range n).map fun j => entry A i j * x j)

/-- A square shape predicate: `n` rows, each of length `n`. -/
def matDims (A : Mat) (n : Nat) : Prop :=
  A.length = n ∧ ∀ i, i < n → (A.getD i []).length = n

/-- The Gauss-Jordan loop invariant after the columns below `k` have been
processed: shapes are square, the left half equals the right half times
the original matrix, and the processed columns are identity columns. -/
def GJInv (n : Nat) (A L R : Mat) (k : Nat) : Prop :=
  matDims L n ∧ matDims R n ∧
  (∀ i j, i < n → j < n → entry L i j =
    gfSum ((List.range n).map fun t => entry R i t * entry A t j)) ∧
  (∀ j, j < k → ∀ i, i < n → entry L i j = if i = j then 1 else 0)

/-- The square `Matrix` over `Fin n` read off a list matrix, for relating
the Gauss-Jordan development to standard linear algebra. -/
def toSq (A : Mat) (n : Nat) : Matrix (Fin n) (Fin n) GF :=
  Matrix.of fun i j => entry A i.val j.val

-- ==================== theorems ====================

theorem length_map_range {α : Type} (f : Nat → α) (n : Nat) :
    ((List.range n).map f).length = n := by simp

theorem getD_map_range {α : Type} (f : Nat → α) {n i : Nat} (d : α) (h : i < n) :
    ((List.range n).map f).getD i d = f i := by
  simp [List.getD_eq_getElem?_getD, List.getElem?_map, List.getElem?_range h]

theorem getD_map_range_ge {α : Type} (f : Nat → α) {n i : Nat} (d : α) (h : n ≤ i) :
    ((List.range n).map f).getD i d = d := by
  rw [List.getD_eq_getElem?_getD, List.getElem?_eq_none (by simpa using h)]
  rfl

theorem getD_eq_getElem {α : Type} (l : List α) (d : α) {i : Nat} (h : i < l.length) :
    l.getD i d = l[i] := by
  rw [List.getD_eq_getElem?_getD, List.getElem?_eq_getElem h]
  rfl

theorem getD_zipWith {α β γ : Type} (f : α → β → γ) (l1 : List α) (l2 : List β)
    {i : Nat} (d1 : α) (d2 : β) (d3 : γ) (h1 : i < l1.length) (h2 : i < l2.length) :
    (List.zipWith f l1 l2).getD i d3 = f (l1.getD i d1) (l2.getD i d2) := by
  rw [List.getD_eq_getElem?_getD, List.getElem?_zipWith,
    List.getElem?_eq_getElem h1, List.getElem?_eq_getElem h2,
    getD_eq_getElem _ _ h1, getD_eq_getElem _ _ h2]
  rfl

theorem getD_append_left {α : Type} (l1 l2 : List α) {i : Nat} (d : α)
    (h : i < l1.length) : (l1 ++ l2).getD i d = l1.getD i d := by
  rw [List.getD_eq_getElem?_getD, List.getD_eq_getElem?_getD,
    List.getElem?_append_left h]

theorem getD_append_right {α : Type} (l1 l2 : List α) {i : Nat} (d : α)
    (h : l1.length ≤ i) : (l1 ++ l2).getD i d = l2.getD (i - l1.length) d := by
  rw [List.getD_eq_getElem?_getD, List.getD_eq_getElem?_getD,
    List.getElem?_append_right h]

theorem getD_set_self {α : Type} (l : List α) {i : Nat} (a d : α)
    (h : i < l.length) : (l.set i a).getD i d = a := by
  rw [List.getD_eq_getElem?_getD, List.getElem?_set_self h]
  rfl

theorem getD_set_ne {α : Type} (l : List α) {i j : Nat} (a d : α) (h : i ≠ j) :
    (l.set i a).getD j d = l.getD j d := by
  rw [List.getD_eq_getElem?_getD, List.getD_eq_getElem?_getD,
    List.getElem?_set_ne h]

theorem getD_replicate {α : Type} {n i : Nat} (a d : α) (h : i < n) :
    (List.replicate n a).getD i d = a := by
  rw [List.getD_eq_getElem?_getD, List.getElem?_replicate_of_lt h]
  rfl

theorem getD_drop {α : Type} (l : List α) {n i : Nat} (d : α) :
    (l.drop n).getD i d = l.getD (n + i) d := by
  rw [List.getD_eq_getElem?_getD, List.getD_eq_getElem?_getD, List.getElem?_drop]

theorem getD_take {α : Type} (l : List α) {n i : Nat} (d : α) (h : i < n) :
    (l.take n).getD i d = l.getD i d := by
  rw [List.getD_eq_getElem?_getD, List.getD_eq_getElem?_getD,
    List.getElem?_take_of_lt h]

theorem gfSum_append (l1 l2 : List GF) : gfSum (l1 ++ l2) = gfSum l1 + gfSum l2 :=
  List.sum_append

theorem gfSum_nil : gfSum [] = 0 := rfl

theorem gfSum_singleton (a : GF) : gfSum [a] = a := by
  show a + 0 = a
  exact add_zero a

theorem codeSomeShards_zero (M : Mat) (inputs outputs : List (List GF)) :
    codeSomeShards 0 M inputs outputs = outputs := rfl

theorem codeSomeShards_succ (d : Nat) (M : Mat) (inputs outputs : List (List GF)) :
    codeSomeShards (d + 1) M inputs outputs =
      (List.range (codeSomeShards d M inputs outputs).length).map fun iRow =>
        if d = 0 then
          galMulSlice (entry M iRow d) (inputs.getD d [])
            ((codeSomeShards d M inputs outputs).getD iRow [])
        else
          galMulSliceXor (entry M iRow d) (inputs.getD d [])
            ((codeSomeShards d M inputs outputs).getD iRow []) := by
  unfold codeSomeShards
  rw [List.range_succ, List.foldl_append]
  rfl

theorem codeSomeShards_length (d : Nat) (M : Mat) (inputs outputs : List (List GF)) :
    (codeSomeShards d M inputs outputs).length = outputs.length := by
  induction d with
  | zero => rfl
  | succ k ih => rw [codeSomeShards_succ]; simp [ih]

theorem galMulSlice_full (c : GF) (inp out : List GF) (h : out.length = inp.length) :
    galMulSlice c inp out = inp.map (fun a => c * a) := by
  unfold galMulSlice
  rw [List.drop_eq_nil_of_le (by omega), List.append_nil]

theorem galMulSliceXor_full (c : GF) (inp out : List GF) (h : out.length = inp.length) :
    galMulSliceXor c inp out = List.zipWith (fun a b => c * a + b) inp out := by
  unfold galMulSliceXor
  rw [List.drop_eq_nil_of_le (by omega), List.append_nil]

theorem sliceXor_full (inp out : List GF) (h : out.length = inp.length) :
    sliceXor inp out = List.zipWith (fun a b => a + b) inp out := by
  unfold sliceXor
  rw [List.drop_eq_nil_of_le (by omega), List.append_nil]

theorem codedView_length (M : Mat) (inputs : List (List GF)) (d size i : Nat) :
    (codedView M inputs d size i).length = size := by simp [codedView]

theorem codedView_getD (M : Mat) (inputs : List (List GF)) (d size i t : Nat)
    (ht : t < size) :
    (codedView M inputs d size i).getD t 0 =
      gfSum ((List.range d).map fun c => entry M i c * (inputs.getD c []).getD t 0) := by
  unfold codedView
  rw [getD_map_range _ _ ht]

theorem codeSomeShards_eq (d : Nat) (M : Mat) (inputs outputs : List (List GF))
    (size : Nat) (hd : 0 < d)
    (hin : ∀ c < d, (inputs.getD c []).length = size)
    (hout : ∀ o ∈ outputs, o.length = size) :
    codeSomeShards d M inputs outputs =
      (List.range outputs.length).map fun i => codedView M inputs d size i := by
  induction d with
  | zero => omega
  | succ k ih =>
    rcases Nat.eq_zero_or_pos k with hk | hk
    · subst hk
      rw [codeSomeShards_succ]
      simp only [codeSomeShards_zero]
      apply List.map_congr_left
      intro i hmem
      have hi : i < outputs.length := List.mem_range.mp hmem
      have houti : (outputs.getD i []).length = size := by
        rw [getD_eq_getElem _ _ hi]
        exact hout _ (List.getElem_mem hi)
      rw [if_true, galMulSlice_full _ _ _ (by rw [houti, hin 0 (by omega)])]
      apply List.ext_getElem
      · rw [List.length_map, codedView_length, hin 0 (by omega)]
      · intro t ht1 ht2
        have hti : t < (inputs.getD 0 []).length := by simpa using ht1
        have hts : t < size := by rw [← hin 0 (by omega)]; exact hti
        simp only [List.getElem_map]
        rw [← getD_eq_getElem _ 0 ht2, codedView_getD _ _ _ _ _ _ hts]
        have hone : (List.range 1).map
            (fun c => entry M i c * (inputs.getD c []).getD t 0) =
            [entry M i 0 * (inputs.getD 0 []).getD t 0] := rfl
        rw [hone, gfSum_singleton, getD_eq_getElem _ 0 hti]
    · rw [codeSomeShards_succ, codeSomeShards_length,
        ih hk (fun c hc => hin c (by omega))]
      apply List.map_congr_left
      intro i hmem
      have hi : i < outputs.length := List.mem_range.mp hmem
      rw [if_neg (by omega),
        getD_map_range _ ([] : List GF) (by simpa using hi),
        galMulSliceXor_full _ _ _ (by rw [codedView_length, hin k (by omega)])]
      apply List.ext_getElem
      · rw [List.length_zipWith, codedView_length, codedView_length,
          hin k (by omega), Nat.min_self]
      · intro t ht1 ht2
        have hts : t < size := by
          have h2 := ht2
          rw [codedView_length] at h2
          exact h2
        have hti : t < (inputs.getD k []).length := by
          rw [hin k (by omega)]
          exact hts
        rw [← getD_eq_getElem _ 0 ht1, ← getD_eq_getElem _ 0 ht2,
          getD_zipWith _ _ _ 0 0 0 hti (by rw [codedView_length]; exact hts),
          codedView_getD _ _ _ _ _ _ hts, codedView_getD _ _ _ _ _ _ hts,
          List.range_succ, List.map_append, gfSum_append]
        have hone : (List.map (fun c => entry M i c * (inputs.getD c []).getD t 0) [k]) =
            [entry M i k * (inputs.getD k []).getD t 0] := rfl
        rw [hone, gfSum_singleton]
        exact add_comm _ _

/-- C7: for every encoder and every shard vector of length `Shards` passing
the shape check, `Reconstruct` returns success without modifying any shard
when every shard is present, and fails with `TooFewShards` without
modifying any shard when fewer than `DataShards` shards are present. -/
theorem reconstruct_presence (r : reedSolomon) (shards : List Shard)
    (hlen : shards.length = r.Shards)
    (hshape : checkShards shards true = none) :
    (numberPresent shards = r.Shards → Reconstruct r shards = (none, shards)) ∧
    (numberPresent shards < r.DataShards →
      Reconstruct r shards = (some RSError.tooFewShards, shards)) := by
  have hS : r.Shards = r.DataShards + r.ParityShards := rfl
  constructor
  · intro hp
    unfold Reconstruct reconstruct
    rw [if_neg (by omega), hshape]
    simp only
    rw [if_pos hp]
  · intro hp
    unfold Reconstruct reconstruct
    rw [if_neg (by omega), hshape]
    simp only
    rw [if_neg (by omega), if_pos hp]

/-- Witness for `reconstruct_presence` at a concrete encoder and a fully
present shard vector. -/
theorem reconstruct_presence_witness :
    Reconstruct ⟨1, 1, [[1], [1]], .defaultMatrix⟩
        [some ⟨1, [1]⟩, some ⟨1, [0]⟩] =
      (none, [some ⟨1, [1]⟩, some ⟨1, [0]⟩]) :=
  (reconstruct_presence ⟨1, 1, [[1], [1]], .defaultMatrix⟩
    [some ⟨1, [1]⟩, some ⟨1, [0]⟩] (by rfl) (by rfl)).1 (by rfl)

theorem getD_map {α β : Type} (f : α → β) (l : List α) {i : Nat} (da : α)
    (db : β) (h : i < l.length) : (l.map f).getD i db = f (l.getD i da) := by
  rw [getD_eq_getElem _ _ (by simpa using h), List.getElem_map,
    getD_eq_getElem _ _ h]

theorem getD_mem {α : Type} (l : List α) {i : Nat} (d : α) (h : i < l.length) :
    l.getD i d ∈ l := by
  rw [getD_eq_getElem _ _ h]
  exact List.getElem_mem h

theorem sview_length (s : Shard) (h : wfShard s) : (sview s).length = slen s := by
  cases s with
  | none => rfl
  | some sl =>
    show (sl.buf.take sl.len).length = sl.len
    simp only [List.length_take]
    exact Nat.min_eq_left (h : sl.len ≤ sl.buf.length)

theorem sview_writeBack (s : Shard) (v : List GF) (h : v.length = slen s) :
    sview (writeBack s v) = v := by
  cases s with
  | none => show v.take v.length = v; simp
  | some sl =>
    have h2 : v.length = sl.len := h
    show (v ++ sl.buf.drop v.length).take sl.len = v
    rw [← h2, List.take_left]

theorem shardSize_eq_zero (shards : List Shard) (h : ∀ s ∈ shards, slen s = 0) :
    shardSize shards = 0 := by
  unfold shardSize
  rw [List.find?_eq_none.mpr (by intro x hx; simpa using h x hx)]

theorem shardSize_uniform (shards : List Shard) (size : Nat)
    (hne : shards ≠ []) (hsz : 0 < size) (h : ∀ s ∈ shards, slen s = size) :
    shardSize shards = size := by
  cases shards with
  | nil => exact absurd rfl hne
  | cons a t =>
    unfold shardSize
    rw [List.find?_cons_of_pos _ (by
      simp only [decide_eq_true_eq]
      rw [h a (List.mem_cons_self a t)]
      omega)]
    exact h a (List.mem_cons_self a t)

theorem checkShards_uniform (shards : List Shard) (size : Nat) (nilok : Bool)
    (hne : shards ≠ []) (hsz : 0 < size) (h : ∀ s ∈ shards, slen s = size) :
    checkShards shards nilok = none := by
  unfold checkShards
  rw [shardSize_uniform shards size hne hsz h]
  simp only
  rw [if_neg (by omega), if_neg]
  simp only [List.any_eq_true, not_exists]
  intro s hs
  rw [h s hs.1] at hs
  simp at hs

theorem codedView_parity (r : reedSolomon) (inputs : List (List GF))
    (size j : Nat) :
    codedView r.parity inputs r.DataShards size j =
      codedView r.m inputs r.DataShards size (r.DataShards + j) := by
  simp only [codedView, entry, reedSolomon.parity, getD_drop]

/-- C6: `Encode` fails with `TooFewShards` on a shard-count mismatch, with
`ShardNoData` when all shards are empty, with `ShardSize` when two present
shards have unequal lengths; and on well-shaped input (all shards non-empty
of a common size) it writes the parity rows of `m` multiplied by the data
shards into `shards[DataShards:]` while leaving every data shard untouched. -/
theorem Encode_contract (r : reedSolomon) (shards : List Shard) :
    (shards.length ≠ r.Shards → Encode r shards = (some .tooFewShards, shards)) ∧
    (shards.length = r.Shards → (∀ s ∈ shards, slen s = 0) →
      Encode r shards = (some .shardNoData, shards)) ∧
    (shards.length = r.Shards →
      (∃ s1 ∈ shards, ∃ s2 ∈ shards, slen s1 ≠ 0 ∧ slen s2 ≠ 0 ∧ slen s1 ≠ slen s2) →
      Encode r shards = (some .shardSize, shards)) ∧
    (∀ size, 0 < size → 0 < r.DataShards → shards.length = r.Shards →
      (∀ s ∈ shards, slen s = size) → (∀ s ∈ shards, wfShard s) →
      ∃ out, Encode r shards = (none, out) ∧ out.length = r.Shards ∧
        (∀ i < r.DataShards, out.getD i none = shards.getD i none) ∧
        (∀ j < r.ParityShards,
          sview (out.getD (r.DataShards + j) none) =
            codedView r.m ((shards.take r.DataShards).map sview)
              r.DataShards size (r.DataShards + j))) := by
  have hS : r.Shards = r.DataShards + r.ParityShards := rfl
  refine ⟨fun h => ?_, fun hlen hempty => ?_, fun hlen hneq => ?_,
    fun size hsz hd hlen huni hwf => ?_⟩
  · unfold Encode
    rw [if_pos h]
  · unfold Encode
    rw [if_neg (by omega)]
    unfold checkShards
    rw [shardSize_eq_zero shards hempty]
    simp
  · obtain ⟨s1, hs1, s2, hs2, h1, h2, hne⟩ := hneq
    have hsz0 : shardSize shards ≠ 0 := by
      intro h0
      unfold shardSize at h0
      cases hf : shards.find? (fun s => decide (slen s ≠ 0)) with
      | none =>
        have := List.find?_eq_none.mp hf s1 hs1
        simp only [decide_eq_true_eq, Decidable.not_not] at this
        exact h1 this
      | some s =>
        rw [hf] at h0
        have hp := List.find?_some hf
        simp only [decide_eq_true_eq] at hp
        exact hp h0
    unfold Encode
    rw [if_neg (by omega)]
    unfold checkShards
    simp only
    rw [if_neg hsz0, if_pos]
    rw [List.any_eq_true]
    by_cases hc : slen s1 = shardSize shards
    · exact ⟨s2, hs2, by
        simp only [Bool.and_eq_true, Bool.or_eq_true, decide_eq_true_eq]
        exact ⟨by omega, Or.inl h2⟩⟩
    · exact ⟨s1, hs1, by
        simp only [Bool.and_eq_true, Bool.or_eq_true, decide_eq_true_eq]
        exact ⟨hc, Or.inl h1⟩⟩
  · have hne : shards ≠ [] := by
      intro h0
      rw [h0] at hlen
      simp at hlen
      omega
    have hmemD : ∀ (i : Nat), i < shards.length → shards.getD i none ∈ shards :=
      fun i hi => getD_mem shards none hi
    unfold Encode
    rw [if_neg (by omega), checkShards_uniform shards size false hne hsz huni]
    simp only
    have hcs := codeSomeShards_eq r.DataShards r.parity
      ((shards.take r.DataShards).map sview) ((shards.drop r.DataShards).map sview)
      size hd
      (by
        intro c hc
        rw [getD_map sview _ none _ (by rw [List.length_take]; omega),
          getD_take _ _ hc,
          sview_length _ (hwf _ (hmemD c (by omega))),
          huni _ (hmemD c (by omega))])
      (by
        intro o ho
        obtain ⟨s, hsmem, rfl⟩ := List.mem_map.mp ho
        have hsm : s ∈ shards := List.mem_of_mem_drop hsmem
        rw [sview_length _ (hwf _ hsm)]
        exact huni _ hsm)
    rw [hcs]
    have htl : (shards.take r.DataShards).length = r.DataShards := by
      rw [List.length_take]; omega
    have hdroplen : (shards.drop r.DataShards).length = r.ParityShards := by
      rw [List.length_drop]; omega
    refine ⟨_, rfl, ?_, ?_, ?_⟩
    · rw [List.length_append, htl, List.length_zipWith]
      simp only [List.length_map, List.length_range, List.length_drop]
      omega
    · intro i hi
      rw [getD_append_left _ _ _ (by rw [htl]; omega), getD_take _ _ hi]
    · intro j hj
      rw [getD_append_right _ _ _ (by rw [htl]; omega), htl]
      have hsub : r.DataShards + j - r.DataShards = j := by omega
      rw [hsub]
      have hdj : j < (shards.drop r.DataShards).length := by omega
      have hnj : j < (((List.range ((shards.drop r.DataShards).map sview).length)).map
          (fun i => codedView r.parity ((shards.take r.DataShards).map sview)
            r.DataShards size i)).length := by
        simp only [List.length_map, List.length_range]
        omega
      rw [getD_zipWith writeBack _ _ none [] none hdj hnj,
        getD_map_range _ _ (by simp only [List.length_map]; omega),
        codedView_parity]
      apply sview_writeBack
      rw [codedView_length, getD_drop]
      exact (huni _ (hmemD _ (by omega))).symm

/-- Witness for `Encode_contract` at a concrete encoder and a well-shaped
shard vector. -/
theorem Encode_contract_witness :
    ∃ out, Encode ⟨1, 1, [[1], [1]], .defaultMatrix⟩
        [some ⟨1, [1]⟩, some ⟨1, [0]⟩] = (none, out) ∧ out.length = 2 ∧
      (∀ i < 1, out.getD i none =
        [some ⟨1, [(1 : GF)]⟩, some ⟨1, [0]⟩].getD i none) ∧
      (∀ j < 1, sview (out.getD (1 + j) none) =
        codedView [[1], [1]]
          (([some ⟨1, [(1 : GF)]⟩, some ⟨1, [0]⟩].take 1).map sview) 1 1 (1 + j)) :=
  (Encode_contract ⟨1, 1, [[1], [1]], .defaultMatrix⟩
    [some ⟨1, [1]⟩, some ⟨1, [0]⟩]).2.2.2 1 (by omega) (by decide) (by rfl)
    (by decide) (by intro s hs; unfold wfShard; fin_cases hs <;> decide)

/-- C10: the all-present fast path of `PartialReconstruct` returns before
the survivor-membership check: for every shard vector of length `Shards`
whose shards are all non-empty, with strictly increasing index lists, the
call succeeds and modifies nothing — `ShardsNotSurvival` is not returned
even when present shards lie outside `survivalIdx`. -/
theorem PartialReconstruct_allPresent (r : reedSolomon) (shards : List Shard)
    (survivalIdx badIdx : List Nat)
    (hlen : shards.length = r.Shards)
    (hpres : ∀ s ∈ shards, slen s ≠ 0)
    (hs : isIncremental survivalIdx = true)
    (hb : isIncremental badIdx = true) :
    PartialReconstruct r shards survivalIdx badIdx = (none, shards) := by
  have hnp : numberPresent shards = r.Shards := by
    unfold numberPresent
    rw [List.filter_eq_self.mpr (by intro a ha; simpa using hpres a ha), hlen]
  unfold PartialReconstruct
  rw [if_neg (by omega), hs, hb]
  simp only [Bool.not_true, Bool.false_eq_true, if_false]
  rw [if_pos hnp]

/-- Witness for `PartialReconstruct_allPresent`: every shard is present and
none of them is in the (empty) survivor list, yet the call succeeds. -/
theorem PartialReconstruct_allPresent_witness :
    PartialReconstruct ⟨1, 1, [[1], [1]], .defaultMatrix⟩
        [some ⟨1, [1]⟩, some ⟨1, [0]⟩] [] [0] =
      (none, [some ⟨1, [1]⟩, some ⟨1, [0]⟩]) :=
  PartialReconstruct_allPresent ⟨1, 1, [[1], [1]], .defaultMatrix⟩
    [some ⟨1, [1]⟩, some ⟨1, [0]⟩] [] [0] (by rfl) (by decide) (by decide) (by decide)

theorem sliceXor_length (inp out : List GF) : (sliceXor inp out).length = out.length := by
  simp only [sliceXor, List.length_append, List.length_zipWith, List.length_drop]
  omega

theorem updStep_of_none {newinputs : List Shard} {c : Nat}
    (r : reedSolomon) (st : List Shard × List (List GF))
    (h : newinputs.getD c none = none) : updStep r newinputs st c = st := by
  unfold updStep
  rw [h]

theorem updStep_of_some {newinputs : List Shard} {c : Nat} {nsl : Slice}
    (r : reedSolomon) (st : List Shard × List (List GF))
    (h : newinputs.getD c none = some nsl) :
    updStep r newinputs st c =
      (st.1.set c (writeBack (st.1.getD c none)
         (sliceXor (nsl.buf.take nsl.len) (sview (st.1.getD c none)))),
       (List.range st.2.length).map fun iRow =>
         galMulSliceXor (entry r.parity iRow c)
           (sliceXor (nsl.buf.take nsl.len) (sview (st.1.getD c none)))
           (st.2.getD iRow [])) := by
  unfold updStep
  rw [h]

theorem updFold_lengths (r : reedSolomon) (newinputs : List Shard)
    (l : List Nat) (st : List Shard × List (List GF)) :
    (l.foldl (updStep r newinputs) st).1.length = st.1.length ∧
    (l.foldl (updStep r newinputs) st).2.length = st.2.length := by
  induction l generalizing st with
  | nil => exact ⟨rfl, rfl⟩
  | cons c t ih =>
    rw [List.foldl_cons]
    refine ⟨(ih _).1.trans ?_, (ih _).2.trans ?_⟩ <;>
      (cases hnd : newinputs.getD c none with
        | none => rw [updStep_of_none r st hnd]
        | some nsl => rw [updStep_of_some r st hnd]; simp)

theorem updFold_fst (r : reedSolomon) (newinputs oldinputs : List Shard)
    (outputs : List (List GF)) :
    ∀ d, d ≤ oldinputs.length → ∀ c,
    ((List.range d).foldl (updStep r newinputs) (oldinputs, outputs)).1.getD c none =
      if c < d ∧ isNil (newinputs.getD c none) = false then
        writeBack (oldinputs.getD c none) (updDelta oldinputs newinputs c)
      else oldinputs.getD c none := by
  intro d
  induction d with
  | zero =>
    intro _ c
    rw [if_neg (fun h => Nat.not_lt_zero c h.1)]
    rfl
  | succ k ih =>
    intro hd c
    rw [List.range_succ, List.foldl_append, List.foldl_cons, List.foldl_nil]
    have hfl := (updFold_lengths r newinputs (List.range k) (oldinputs, outputs)).1
    cases hnd : newinputs.getD k none with
    | none =>
      rw [updStep_of_none r _ hnd, ih (by omega) c]
      by_cases hck : c = k
      · subst hck
        rw [if_neg (by omega), if_neg (by rw [hnd]; intro h; simp [isNil] at h)]
      · by_cases hlt : c < k ∧ isNil (newinputs.getD c none) = false
        · rw [if_pos hlt, if_pos ⟨by omega, hlt.2⟩]
        · rw [if_neg hlt, if_neg (fun hcon => hlt ⟨by omega, hcon.2⟩)]
    | some nsl =>
      rw [updStep_of_some r _ hnd]
      have hold : ((List.range k).foldl (updStep r newinputs)
          (oldinputs, outputs)).1.getD k none = oldinputs.getD k none := by
        rw [ih (by omega) k, if_neg (by omega)]
      by_cases hck : c = k
      · subst hck
        rw [getD_set_self _ _ _ (by rw [hfl]; exact hd), hold,
          if_pos ⟨by omega, by rw [hnd]; rfl⟩]
        unfold updDelta
        rw [hnd]
      · rw [getD_set_ne _ _ _ (fun h => hck h.symm), ih (by omega) c]
        by_cases hlt : c < k ∧ isNil (newinputs.getD c none) = false
        · rw [if_pos hlt, if_pos ⟨by omega, hlt.2⟩]
        · rw [if_neg hlt, if_neg (fun hcon => hlt ⟨by omega, hcon.2⟩)]

/-- C9: a successful `Update` destroys the old data in place: for every
changed data column `c`, the caller's buffer `shards[c]` ends up holding
`shards[c] XOR newDatashards[c]` byte for byte, even though only the parity
shards are documented as outputs. -/
theorem Update_overwrites_data (r : reedSolomon) (shards newDatashards : List Shard)
    (size : Nat)
    (hlen1 : shards.length = r.Shards)
    (hlen2 : newDatashards.length = r.DataShards)
    (hcheck1 : checkShards shards true = none)
    (hcheck2 : checkShards newDatashards true = none)
    (hguard1 : ∀ i < r.DataShards, isNil (newDatashards.getD i none) = false →
      isNil (shards.getD i none) = false)
    (hguard2 : ∀ p ∈ shards.drop r.DataShards, isNil p = false)
    (hchanged : ∀ c < r.DataShards, isNil (newDatashards.getD c none) = false →
      slen (shards.getD c none) = size ∧ wfShard (shards.getD c none) ∧
      slen (newDatashards.getD c none) = size ∧ wfShard (newDatashards.getD c none)) :
    ∃ out, Update r shards newDatashards = (none, out) ∧
      ∀ c < r.DataShards, isNil (newDatashards.getD c none) = false →
        sview (out.getD c none) =
          List.zipWith (fun a b => a + b)
            (sview (shards.getD c none)) (sview (newDatashards.getD c none)) := by
  have hS : r.Shards = r.DataShards + r.ParityShards := rfl
  unfold Update
  rw [if_neg (by omega), if_neg (by omega), hcheck1, hcheck2]
  simp only
  rw [if_neg (by
    simp only [List.any_eq_true, not_exists]
    intro i hi
    obtain ⟨him, hcon⟩ := hi
    rw [List.mem_range, hlen2] at him
    rw [Bool.and_eq_true, Bool.not_eq_true'] at hcon
    exact absurd hcon.2 (by rw [hguard1 i him hcon.1]; simp))]
  rw [if_neg (by
    simp only [List.any_eq_true, not_exists]
    intro p hp
    rw [hguard2 p hp.1] at hp
    simp at hp)]
  refine ⟨_, rfl, ?_⟩
  intro c hc hnn
  unfold updateParityShards
  have htl : (shards.take r.DataShards).length = r.DataShards := by
    rw [List.length_take]; omega
  rw [getD_append_left _ _ _ (by
    rw [(updFold_lengths r (newDatashards.take r.DataShards)
      (List.range r.DataShards) (shards.take r.DataShards, _)).1, htl]
    omega)]
  have hgetnew : (newDatashards.take r.DataShards).getD c none =
      newDatashards.getD c none := getD_take _ _ hc
  rw [updFold_fst r _ _ _ r.DataShards (by omega) c,
    if_pos ⟨hc, by rw [hgetnew]; exact hnn⟩]

  obtain ⟨hso, hwo, hsn, hwn⟩ := hchanged c hc hnn
  have hgetold : (shards.take r.DataShards).getD c none = shards.getD c none :=
    getD_take _ _ hc
  cases hn : newDatashards.getD c none with
  | none => rw [hn] at hnn; simp [isNil] at hnn
  | some nsl =>
    unfold updDelta
    rw [hgetnew, hn]
    simp only
    have hviewn : nsl.buf.take nsl.len = sview (newDatashards.getD c none) := by
      rw [hn]; rfl
    rw [hgetold, hviewn, hn]
    have hlo : (sview (some nsl : Shard)).length = size := by
      rw [← hn, sview_length _ hwn, hsn]
    have hlv : (sview (shards.getD c none)).length = size := by
      rw [sview_length _ hwo, hso]
    rw [sview_writeBack _ _ (by rw [sliceXor_length, hlv, hso])]
    rw [sliceXor_full _ _ (by rw [hlo, hlv])]
    rw [List.zipWith_comm_of_comm _ (fun a b => add_comm a b)]

/-- Witness for `Update_overwrites_data`: one data and one parity shard,
data changed from 3 to 5; the data buffer ends as 3 XOR 5 = 6. -/
theorem Update_overwrites_data_witness :
    ∃ out, Update ⟨1, 1, [[1], [1]], .defaultMatrix⟩
        [some ⟨1, [⟨3, by omega⟩]⟩, some ⟨1, [⟨3, by omega⟩]⟩]
        [some ⟨1, [⟨5, by omega⟩]⟩] = (none, out) ∧
      ∀ c < 1, isNil (([some ⟨1, [(⟨5, by omega⟩ : GF)]⟩] : List Shard).getD c none) = false →
        sview (out.getD c none) =
          List.zipWith (fun a b => a + b)
            (sview (([some ⟨1, [(⟨3, by omega⟩ : GF)]⟩,
              some ⟨1, [⟨3, by omega⟩]⟩] : List Shard).getD c none))
            (sview (([some ⟨1, [(⟨5, by omega⟩ : GF)]⟩] : List Shard).getD c none)) :=
  Update_overwrites_data ⟨1, 1, [[1], [1]], .defaultMatrix⟩
    [some ⟨1, [⟨3, by omega⟩]⟩, some ⟨1, [⟨3, by omega⟩]⟩]
    [some ⟨1, [⟨5, by omega⟩]⟩] 1 (by rfl) (by rfl) (by rfl) (by rfl)
    (by decide) (by decide)
    (by intro c hc hnn
        interval_cases c
        exact ⟨rfl, by unfold wfShard; decide, rfl, by unfold wfShard; decide⟩)

theorem swapRows_length (A : Mat) (i j : Nat) : (swapRows A i j).length = A.length := by
  simp [swapRows]

theorem elimOthers_length (k : Nat) (P : Mat) (f : Nat → GF) (pr : List GF) :
    (elimOthers k P f pr).length = P.length := by
  simp [elimOthers]

theorem identityM_length (n : Nat) : (identityM n).length = n := by simp [identityM]

theorem gjStep_lengths {k : Nat} {L R L2 R2 : Mat}
    (h : gjStep k L R = some (L2, R2)) :
    L2.length = L.length ∧ R2.length = R.length := by
  unfold gjStep at h
  cases hf : (List.range' k (L.length - k)).find? (fun r => decide (entry L r k ≠ 0)) with
  | none => rw [hf] at h; cases h
  | some p =>
    rw [hf] at h
    simp only [Option.some.injEq, Prod.mk.injEq] at h
    obtain ⟨h1, h2⟩ := h
    constructor
    · rw [← h1, elimOthers_length, List.length_set, swapRows_length]
    · rw [← h2, elimOthers_length, List.length_set, swapRows_length]

theorem gjRun_length : ∀ (fuel k : Nat) (L R R' : Mat),
    gjRun fuel k L R = some R' → R'.length = R.length := by
  intro fuel
  induction fuel with
  | zero =>
    intro k L R R' h
    cases h
    rfl
  | succ f ih =>
    intro k L R R' h
    unfold gjRun at h
    cases hst : gjStep k L R with
    | none => rw [hst] at h; cases h
    | some p =>
      rw [hst] at h
      have := ih (k + 1) p.1 p.2 R' h
      rw [this, (gjStep_lengths (by rw [hst])).2]

theorem matInvert_ok_length {A R : Mat} (h : matInvert A = .ok R) :
    R.length = A.length := by
  unfold matInvert at h
  cases hg : gjRun A.length 0 A (identityM A.length) with
  | none => rw [hg] at h; cases h
  | some R2 =>
    rw [hg] at h
    cases h
    rw [gjRun_length _ _ _ _ _ hg, identityM_length]

theorem matMultiply_ok_of_dims (A B : Mat) (h : matCols A = B.length) :
    ∃ F, matMultiply A B = .ok F := by
  unfold matMultiply
  rw [if_neg (by simp [h])]
  exact ⟨_, rfl⟩

theorem partialSubMatrix_length (r : reedSolomon) (survivalIdx : List Nat) :
    (partialSubMatrix r survivalIdx).length = r.DataShards := by
  simp [partialSubMatrix]

theorem invalidEncodeMat_cols (r : reedSolomon) (b : Nat) (t : List Nat) :
    matCols (invalidEncodeMat r (b :: t)) = r.DataShards := by
  simp [invalidEncodeMat, matCols]

/-- C8 counterexample (the claim is proved false by proving its negation):
there is no input to `PartialReconstruct` — preconditions satisfied, at
least one bad index so that output bytes exist — on which the internal
matrix multiplication fails while the call still returns success.  The bad
rows' encode matrix always has `DataShards` columns and the decode matrix
always has `DataShards` rows, so the multiplication never fails. -/
theorem partialMultiply_never_fails :
    ¬ ∃ (r : reedSolomon) (shards : List Shard) (survivalIdx badIdx : List Nat)
        (dd : Mat),
      isIncremental survivalIdx = true ∧ isIncremental badIdx = true ∧
      (∀ i < r.Shards, slen (shards.getD i none) ≠ 0 → survivalIdx.contains i = true) ∧
      badIdx ≠ [] ∧
      matInvert (partialSubMatrix r survivalIdx) = .ok dd ∧
      (∀ F, matMultiply (invalidEncodeMat r badIdx) dd ≠ .ok F) ∧
      (PartialReconstruct r shards survivalIdx badIdx).1 = none := by
  rintro ⟨r, shards, survivalIdx, badIdx, dd, _, _, _, hbad, hinv, hmul, _⟩
  have hdd : dd.length = r.DataShards := by
    rw [matInvert_ok_length hinv, partialSubMatrix_length]
  have hcols : matCols (invalidEncodeMat r badIdx) = dd.length := by
    cases badIdx with
    | nil => exact absurd rfl hbad
    | cons b t => rw [invalidEncodeMat_cols, hdd]
  obtain ⟨F, hF⟩ := matMultiply_ok_of_dims _ _ hcols
  exact hmul F hF

/-- C8 amended: the error-swallowing branch of `PartialReconstruct` is
unreachable — whenever the decode-matrix inversion succeeds and `badIdx` is
nonempty, the internal multiplication of the bad-row encode matrix by the
data-decode matrix succeeds, so no input yields a swallowed failure. -/
theorem PartialReconstruct_multiply_ok (r : reedSolomon)
    (survivalIdx badIdx : List Nat) (dd : Mat) (hbad : badIdx ≠ [])
    (hinv : matInvert (partialSubMatrix r survivalIdx) = .ok dd) :
    ∃ F, matMultiply (invalidEncodeMat r badIdx) dd = .ok F := by
  apply matMultiply_ok_of_dims
  have hdd : dd.length = r.DataShards := by
    rw [matInvert_ok_length hinv, partialSubMatrix_length]
  cases badIdx with
  | nil => exact absurd rfl hbad
  | cons b t => rw [invalidEncodeMat_cols, hdd]

/-- Witness for `PartialReconstruct_multiply_ok` at a concrete encoder. -/
theorem PartialReconstruct_multiply_ok_witness :
    ∃ F, matMultiply
        (invalidEncodeMat ⟨1, 1, [[1], [1]], .defaultMatrix⟩ [0])
        [[1]] = .ok F :=
  PartialReconstruct_multiply_ok ⟨1, 1, [[1], [1]], .defaultMatrix⟩ [1] [0] [[1]]
    (by decide) (by rfl)

theorem gfSum_map_add {α : Type} (l : List α) (f g : α → GF) :
    gfSum (l.map fun x => f x + g x) = gfSum (l.map f) + gfSum (l.map g) := by
  induction l with
  | nil => show (0 : GF) = 0 + 0; rw [add_zero]
  | cons a t ih =>
    show f a + g a + gfSum (t.map fun x => f x + g x) = _
    rw [ih]
    show _ = f a + gfSum (t.map f) + (g a + gfSum (t.map g))
    ring

theorem galMulSliceXor_length (c : GF) (inp out : List GF) :
    (galMulSliceXor c inp out).length = out.length := by
  simp only [galMulSliceXor, List.length_append, List.length_zipWith, List.length_drop]
  omega

theorem updDelta_some {oldinputs newinputs : List Shard} {c : Nat} {nsl : Slice}
    (h : newinputs.getD c none = some nsl) :
    updDelta oldinputs newinputs c =
      sliceXor (nsl.buf.take nsl.len) (sview (oldinputs.getD c none)) := by
  unfold updDelta
  rw [h]

theorem updFold_snd (r : reedSolomon) (newinputs oldinputs : List Shard)
    (outputs : List (List GF)) (size : Nat)
    (hdelta : ∀ c, isNil (newinputs.getD c none) = false →
      (sview (oldinputs.getD c none)).length = size)
    (hout : ∀ j, j < outputs.length → (outputs.getD j []).length = size) :
    ∀ d, d ≤ oldinputs.length → ∀ j, j < outputs.length →
    ((List.range d).foldl (updStep r newinputs) (oldinputs, outputs)).2.getD j [] =
      (List.range size).map fun t =>
        (outputs.getD j []).getD t 0 +
          gfSum ((List.range d).map fun c =>
            if isNil (newinputs.getD c none) = false then
              entry r.parity j c * (updDelta oldinputs newinputs c).getD t 0
            else 0) := by
  intro d
  induction d with
  | zero =>
    intro _ j hj
    show outputs.getD j [] = _
    apply List.ext_getElem
    · rw [hout j hj]; simp
    · intro t ht1 ht2
      rw [← getD_eq_getElem _ 0 ht1, ← getD_eq_getElem _ 0 ht2,
        getD_map_range _ _ (by simpa using ht2)]
      show _ = _ + gfSum []
      rw [gfSum_nil, add_zero]
  | succ k ih =>
    intro hd j hj
    rw [List.range_succ, List.foldl_append, List.foldl_cons, List.foldl_nil]
    have hprev := ih (by omega) j hj
    have hprevlen : (((List.range k).foldl (updStep r newinputs)
        (oldinputs, outputs)).2.getD j []).length = size := by
      rw [hprev]; simp
    have hfoldlen := updFold_lengths r newinputs (List.range k) (oldinputs, outputs)
    cases hnd : newinputs.getD k none with
    | none =>
      rw [updStep_of_none r _ hnd, hprev]
      apply List.map_congr_left
      intro t _
      congr 1
      rw [List.map_append, gfSum_append]
      have hz : (List.map (fun c =>
          if isNil (newinputs.getD c none) = false then
            entry r.parity j c * (updDelta oldinputs newinputs c).getD t 0
          else 0) [k]) = [0] := by
        simp only [List.map_cons, List.map_nil]
        rw [if_neg (by rw [hnd]; simp [isNil])]
      rw [hz, gfSum_singleton, add_zero]
    | some nsl =>
      rw [updStep_of_some r _ hnd]
      simp only
      have hfst : ((List.range k).foldl (updStep r newinputs)
          (oldinputs, outputs)).1.getD k none = oldinputs.getD k none := by
        rw [updFold_fst r newinputs oldinputs outputs k (by omega) k,
          if_neg (by omega)]
      rw [getD_map_range _ _ (by rw [hfoldlen.2]; exact hj), hfst]
      have hnilf : isNil (newinputs.getD k none) = false := by rw [hnd]; rfl
      have hdl : (sliceXor (nsl.buf.take nsl.len)
          (sview (oldinputs.getD k none))).length = size := by
        rw [sliceXor_length]
        exact hdelta k hnilf
      rw [hprev]
      apply List.ext_getElem
      · rw [galMulSliceXor_length]
        simp
      · intro t ht1 ht2
        have hts : t < size := by simpa using ht2
        rw [← getD_eq_getElem _ 0 ht1, ← getD_eq_getElem _ 0 ht2]
        unfold galMulSliceXor
        rw [getD_append_left _ _ _ (by
            rw [List.length_zipWith, hdl]
            simp only [List.length_map, List.length_range]
            omega),
          getD_zipWith _ _ _ 0 0 0 (by rw [hdl]; exact hts)
            (by simp only [List.length_map, List.length_range]; exact hts),
          getD_map_range _ _ hts, getD_map_range _ _ hts]
        rw [List.map_append, gfSum_append]
        have hlast : (List.map (fun c =>
            if isNil (newinputs.getD c none) = false then
              entry r.parity j c * (updDelta oldinputs newinputs c).getD t 0
            else 0) [k]) =
            [entry r.parity j k * (updDelta oldinputs newinputs k).getD t 0] := by
          simp only [List.map_cons, List.map_nil]
          rw [if_pos hnilf]
        rw [hlast, gfSum_singleton, updDelta_some hnd]
        ring

theorem zipWith_eq_map_range {α β γ : Type} (f : α → β → γ) (d1 : α) (d2 : β)
    (l1 : List α) (l2 : List β) :
    List.zipWith f l1 l2 = (List.range (min l1.length l2.length)).map
      (fun i => f (l1.getD i d1) (l2.getD i d2)) := by
  apply List.ext_getElem
  · simp
  · intro i h1 h2
    have hi1 : i < l1.length := by simp at h1; omega
    have hi2 : i < l2.length := by simp at h1; omega
    rw [← getD_eq_getElem _ (f d1 d2) h1, ← getD_eq_getElem _ (f d1 d2) h2,
      getD_zipWith f l1 l2 d1 d2 (f d1 d2) hi1 hi2,
      getD_map_range _ _ (by simpa using h2)]

theorem Encode_happy (r : reedSolomon) (shards : List Shard) (size : Nat)
    (hsz : 0 < size) (hd : 0 < r.DataShards) (hlen : shards.length = r.Shards)
    (huni : ∀ s ∈ shards, slen s = size) (hwf : ∀ s ∈ shards, wfShard s) :
    Encode r shards =
      (none, shards.take r.DataShards ++
        (List.range r.ParityShards).map fun j =>
          writeBack (shards.getD (r.DataShards + j) none)
            (codedView r.m ((shards.take r.DataShards).map sview)
              r.DataShards size (r.DataShards + j))) := by
  have hS : r.Shards = r.DataShards + r.ParityShards := rfl
  have hne : shards ≠ [] := by
    intro h0
    rw [h0] at hlen
    simp at hlen
    omega
  have hmemD : ∀ (i : Nat), i < shards.length → shards.getD i none ∈ shards :=
    fun i hi => getD_mem shards none hi
  unfold Encode
  rw [if_neg (by omega), checkShards_uniform shards size false hne hsz huni]
  simp only
  have hcs := codeSomeShards_eq r.DataShards r.parity
    ((shards.take r.DataShards).map sview) ((shards.drop r.DataShards).map sview)
    size hd
    (by
      intro c hc
      rw [getD_map sview _ none _ (by rw [List.length_take]; omega),
        getD_take _ _ hc,
        sview_length _ (hwf _ (hmemD c (by omega))),
        huni _ (hmemD c (by omega))])
    (by
      intro o ho
      obtain ⟨s, hsmem, rfl⟩ := List.mem_map.mp ho
      have hsm : s ∈ shards := List.mem_of_mem_drop hsmem
      rw [sview_length _ (hwf _ hsm)]
      exact huni _ hsm)
  rw [hcs]
  have hdroplen : (shards.drop r.DataShards).length = r.ParityShards := by
    rw [List.length_drop]; omega
  have hL : ((shards.drop r.DataShards).map sview).length = r.ParityShards := by
    rw [List.length_map, hdroplen]
  rw [hL, zipWith_eq_map_range writeBack none []]
  have hmin : min (shards.drop r.DataShards).length
      (((List.range r.ParityShards)).map fun i =>
        codedView r.parity ((shards.take r.DataShards).map sview)
          r.DataShards size i).length = r.ParityShards := by
    simp only [List.length_map, List.length_range, hdroplen, Nat.min_self]
  rw [hmin]
  congr 1
  congr 1
  apply List.map_congr_left
  intro i hi
  have hip : i < r.ParityShards := List.mem_range.mp hi
  rw [getD_drop, getD_map_range _ _ hip, codedView_parity]

theorem shardSize_mixed (l : List Shard) (size : Nat)
    (h : ∀ s ∈ l, slen s = size ∨ slen s = 0) (hex : ∃ s ∈ l, slen s ≠ 0) :
    shardSize l = size := by
  induction l with
  | nil => obtain ⟨s, hs, _⟩ := hex; cases hs
  | cons a t ih =>
    unfold shardSize
    by_cases ha : slen a = 0
    · rw [List.find?_cons_of_neg _ (by simp [ha])]
      have hex2 : ∃ s ∈ t, slen s ≠ 0 := by
        obtain ⟨s, hs, hne⟩ := hex
        rcases List.mem_cons.mp hs with h0 | h0
        · exact absurd (h0 ▸ ha) hne
        · exact ⟨s, h0, hne⟩
      have ht := ih (fun s hs => h s (List.mem_cons_of_mem a hs)) hex2
      unfold shardSize at ht
      exact ht
    · rw [List.find?_cons_of_pos _ (by simpa using ha)]
      rcases h a (List.mem_cons_self a t) with h1 | h1
      · exact h1
      · exact absurd h1 ha

theorem checkShards_mixed (l : List Shard) (size : Nat) (hsz : 0 < size)
    (h : ∀ s ∈ l, slen s = size ∨ slen s = 0) (hex : ∃ s ∈ l, slen s ≠ 0) :
    checkShards l true = none := by
  unfold checkShards
  rw [shardSize_mixed l size h hex, if_neg (by omega), if_neg]
  simp only [List.any_eq_true, not_exists]
  intro s hs
  obtain ⟨hmem, hcond⟩ := hs
  rcases h s hmem with h1 | h1 <;>
    rw [h1] at hcond <;> simp at hcond

theorem mergedShards_length (r : reedSolomon) (shards newDatashards : List Shard) :
    (mergedShards r shards newDatashards).length = r.Shards := by
  simp [mergedShards]

theorem mergedShards_getD (r : reedSolomon) (shards newDatashards : List Shard)
    {i : Nat} (hi : i < r.Shards) :
    (mergedShards r shards newDatashards).getD i none =
      if i < r.DataShards ∧ isNil (newDatashards.getD i none) = false then
        newDatashards.getD i none
      else shards.getD i none := by
  unfold mergedShards
  rw [getD_map_range _ _ hi]

theorem getD_of_le {α : Type} (l : List α) {i : Nat} (d : α) (h : l.length ≤ i) :
    l.getD i d = d := by
  rw [List.getD_eq_getElem?_getD, List.getElem?_eq_none h]
  rfl

theorem isNil_false_of_slen {s : Shard} (h : slen s ≠ 0) : isNil s = false := by
  cases s with
  | none => exact absurd rfl h
  | some sl => rfl

theorem GF_add_self (a : GF) : a + a = 0 := by
  show -a + a = 0
  exact neg_add_cancel a

theorem entry_parity (r : reedSolomon) (j c : Nat) :
    entry r.parity j c = entry r.m (r.DataShards + j) c := by
  simp only [entry, reedSolomon.parity, getD_drop]

/-- C5 (amended): when the old shard vector is fully present, well shaped
and its parity shards are consistent with `m` (each equals the matching
parity row of `m` applied to the old data), `Update` leaves exactly the
parity bytes that `Encode` produces on the merged shard vector
(`newShards[i] = newDatashards[i]` when changed, `oldShards[i]` otherwise). -/
theorem Update_eq_reencode (r : reedSolomon) (shards newDatashards : List Shard)
    (size : Nat) (hsz : 0 < size) (hd : 0 < r.DataShards)
    (hlen1 : shards.length = r.Shards)
    (hlen2 : newDatashards.length = r.DataShards)
    (huni : ∀ s ∈ shards, slen s = size)
    (hwf : ∀ s ∈ shards, wfShard s)
    (hex : ∃ c, c < r.DataShards ∧ isNil (newDatashards.getD c none) = false)
    (hnew : ∀ c < r.DataShards, isNil (newDatashards.getD c none) = false →
      slen (newDatashards.getD c none) = size ∧ wfShard (newDatashards.getD c none))
    (hconsist : ∀ j < r.ParityShards,
      sview (shards.getD (r.DataShards + j) none) =
        codedView r.m ((shards.take r.DataShards).map sview)
          r.DataShards size (r.DataShards + j)) :
    ∃ out outE,
      Update r shards newDatashards = (none, out) ∧
      Encode r (mergedShards r shards newDatashards) = (none, outE) ∧
      ∀ j < r.ParityShards,
        sview (out.getD (r.DataShards + j) none) =
          sview (outE.getD (r.DataShards + j) none) := by
  have hS : r.Shards = r.DataShards + r.ParityShards := rfl
  have hne : shards ≠ [] := by
    intro h0
    rw [h0] at hlen1
    simp at hlen1
    omega
  have hmemD : ∀ (i : Nat), i < shards.length → shards.getD i none ∈ shards :=
    fun i hi => getD_mem shards none hi
  have hmergeGetD : ∀ i, i < r.Shards →
      slen ((mergedShards r shards newDatashards).getD i none) = size ∧
      wfShard ((mergedShards r shards newDatashards).getD i none) := by
    intro i hi
    rw [mergedShards_getD r shards newDatashards hi]
    by_cases hcase : i < r.DataShards ∧ isNil (newDatashards.getD i none) = false
    · rw [if_pos hcase]
      exact hnew i hcase.1 hcase.2
    · rw [if_neg hcase]
      exact ⟨huni _ (hmemD i (by omega)), hwf _ (hmemD i (by omega))⟩
  have hmergeUni : ∀ s ∈ mergedShards r shards newDatashards, slen s = size := by
    intro s hs
    obtain ⟨i, hil, hieq⟩ := List.mem_iff_getElem.mp hs
    rw [← hieq, ← getD_eq_getElem (mergedShards r shards newDatashards) none hil]
    exact (hmergeGetD i (mergedShards_length r shards newDatashards ▸ hil)).1
  have hmergeWf : ∀ s ∈ mergedShards r shards newDatashards, wfShard s := by
    intro s hs
    obtain ⟨i, hil, hieq⟩ := List.mem_iff_getElem.mp hs
    rw [← hieq, ← getD_eq_getElem (mergedShards r shards newDatashards) none hil]
    exact (hmergeGetD i (mergedShards_length r shards newDatashards ▸ hil)).2
  have hEnc := Encode_happy r (mergedShards r shards newDatashards) size hsz hd
    (mergedShards_length r shards newDatashards) hmergeUni hmergeWf
  have hUpd : Update r shards newDatashards =
      (none, (updateParityShards r (shards.take r.DataShards)
          (newDatashards.take r.DataShards)
          ((shards.drop r.DataShards).map sview)).1 ++
        List.zipWith writeBack (shards.drop r.DataShards)
          (updateParityShards r (shards.take r.DataShards)
            (newDatashards.take r.DataShards)
            ((shards.drop r.DataShards).map sview)).2) := by
    unfold Update
    rw [if_neg (by omega), if_neg (by omega),
      checkShards_uniform shards size true hne hsz huni,
      checkShards_mixed newDatashards size hsz
        (by
          intro s hs
          obtain ⟨i, hil, hieq⟩ := List.mem_iff_getElem.mp hs
          rw [← hieq, ← getD_eq_getElem newDatashards none hil]
          cases hcase : newDatashards.getD i none with
          | none => right; rfl
          | some nsl =>
            left
            rw [← hcase]
            exact (hnew i (by omega) (by rw [hcase]; rfl)).1)
        (by
          obtain ⟨c, hc, hni⟩ := hex
          refine ⟨newDatashards.getD c none, getD_mem newDatashards none (by omega), ?_⟩
          rw [(hnew c hc hni).1]
          omega)]
    simp only
    rw [if_neg (by
      simp only [List.any_eq_true, not_exists]
      intro i hi
      obtain ⟨him, hcon⟩ := hi
      rw [List.mem_range, hlen2] at him
      rw [Bool.and_eq_true, Bool.not_eq_true'] at hcon
      have hnz : isNil (shards.getD i none) = false :=
        isNil_false_of_slen (by rw [huni _ (hmemD i (by omega))]; omega)
      rw [hnz] at hcon
      simp at hcon)]
    rw [if_neg (by
      simp only [List.any_eq_true, not_exists]
      intro q hq
      obtain ⟨hqm, hcond⟩ := hq
      have hnz : isNil q = false :=
        isNil_false_of_slen (by rw [huni _ (List.mem_of_mem_drop hqm)]; omega)
      rw [hnz] at hcond
      simp at hcond)]
  refine ⟨_, _, hUpd, hEnc, ?_⟩
  intro j hj
  have htl : (shards.take r.DataShards).length = r.DataShards := by
    rw [List.length_take]; omega
  have hdropl : (shards.drop r.DataShards).length = r.ParityShards := by
    rw [List.length_drop]; omega
  have houtl : ((shards.drop r.DataShards).map sview).length = r.ParityShards := by
    rw [List.length_map, hdropl]
  have hfoldlen := updFold_lengths r (newDatashards.take r.DataShards)
    (List.range r.DataShards)
    (shards.take r.DataShards, (shards.drop r.DataShards).map sview)
  unfold updateParityShards
  rw [getD_append_right _ _ _ (by rw [hfoldlen.1, htl]; omega), hfoldlen.1, htl]
  have hsub : r.DataShards + j - r.DataShards = j := by omega
  rw [hsub,
    getD_zipWith writeBack (shards.drop r.DataShards) _ none [] none
      (by omega) (by rw [hfoldlen.2, houtl]; omega),
    getD_drop shards none]
  have hdeltaP : ∀ c, isNil ((newDatashards.take r.DataShards).getD c none) = false →
      (sview ((shards.take r.DataShards).getD c none)).length = size := by
    intro c hni
    by_cases hc : c < r.DataShards
    · rw [getD_take shards none hc, sview_length _ (hwf _ (hmemD c (by omega))),
        huni _ (hmemD c (by omega))]
    · rw [getD_of_le _ none (by rw [List.length_take]; omega)] at hni
      simp [isNil] at hni
  have houtP : ∀ j2, j2 < ((shards.drop r.DataShards).map sview).length →
      (((shards.drop r.DataShards).map sview).getD j2 []).length = size := by
    intro j2 hj2
    rw [getD_map sview (shards.drop r.DataShards) none []
        (by rw [List.length_map] at hj2; exact hj2),
      getD_drop shards none, sview_length _ (hwf _ (hmemD _ (by omega))),
      huni _ (hmemD _ (by omega))]
  have hsnd := updFold_snd r (newDatashards.take r.DataShards)
    (shards.take r.DataShards) ((shards.drop r.DataShards).map sview) size
    hdeltaP houtP r.DataShards (by rw [htl]) j (by rw [houtl]; exact hj)
  rw [hsnd]
  have hparlen : slen (shards.getD (r.DataShards + j) none) = size :=
    huni _ (hmemD _ (by omega))
  rw [sview_writeBack _ _ (by rw [List.length_map, List.length_range]; exact hparlen.symm)]
  have hmtl : ((mergedShards r shards newDatashards).take r.DataShards).length
      = r.DataShards := by
    rw [List.length_take, mergedShards_length]; omega
  rw [getD_append_right _ _ _ (by rw [hmtl]; omega), hmtl, hsub,
    getD_map_range _ _ hj]
  have hmergePar : (mergedShards r shards newDatashards).getD (r.DataShards + j) none =
      shards.getD (r.DataShards + j) none := by
    rw [mergedShards_getD r shards newDatashards (by omega),
      if_neg (fun hcc => absurd hcc.1 (by omega))]
  rw [hmergePar, sview_writeBack _ _ (by rw [codedView_length]; exact hparlen.symm)]
  have hout0 : ((shards.drop r.DataShards).map sview).getD j [] =
      sview (shards.getD (r.DataShards + j) none) := by
    rw [getD_map sview (shards.drop r.DataShards) none [] (by omega),
      getD_drop shards none]
  rw [hout0, hconsist j hj]
  show _ = (List.range size).map fun t =>
    gfSum ((List.range r.DataShards).map fun c =>
      entry r.m (r.DataShards + j) c *
        ((((mergedShards r shards newDatashards).take r.DataShards).map sview).getD c
          []).getD t 0)
  apply List.map_congr_left
  intro t htm
  have hts : t < size := List.mem_range.mp htm
  rw [codedView_getD _ _ _ _ _ _ hts, ← gfSum_map_add]
  apply congrArg gfSum
  apply List.map_congr_left
  intro c hcm
  have hcd : c < r.DataShards := List.mem_range.mp hcm
  have holdIn : ((shards.take r.DataShards).map sview).getD c [] =
      sview (shards.getD c none) := by
    rw [getD_map sview (shards.take r.DataShards) none [] (by rw [htl]; omega),
      getD_take shards none hcd]
  have hmergeIn : (((mergedShards r shards newDatashards).take r.DataShards).map
        sview).getD c [] =
      sview ((mergedShards r shards newDatashards).getD c none) := by
    rw [getD_map sview ((mergedShards r shards newDatashards).take r.DataShards) none []
        (by rw [hmtl]; omega),
      getD_take (mergedShards r shards newDatashards) none hcd]
  have hgetnew : (newDatashards.take r.DataShards).getD c none =
      newDatashards.getD c none := getD_take newDatashards none hcd
  rw [holdIn, hmergeIn, hgetnew, entry_parity r j c]
  cases hni : isNil (newDatashards.getD c none) with
  | true =>
    rw [if_neg (by simp), add_zero,
      mergedShards_getD r shards newDatashards (by omega),
      if_neg (fun hcc => by rw [hni] at hcc; simp at hcc)]
  | false =>
    rw [if_pos rfl]
    cases hnv : newDatashards.getD c none with
    | none => rw [hnv] at hni; simp [isNil] at hni
    | some nsl =>
      rw [updDelta_some (by rw [hgetnew]; exact hnv), getD_take shards none hcd]
      have hviewnew : nsl.buf.take nsl.len = sview (newDatashards.getD c none) := by
        rw [hnv]
        rfl
      rw [hviewnew]
      have hlnew : (sview (newDatashards.getD c none)).length = size := by
        rw [sview_length _ (hnew c hcd hni).2, (hnew c hcd hni).1]
      have hlold : (sview (shards.getD c none)).length = size := by
        rw [sview_length _ (hwf _ (hmemD c (by omega))), huni _ (hmemD c (by omega))]
      rw [sliceXor_full _ _ (by rw [hlnew, hlold]),
        getD_zipWith _ (sview (newDatashards.getD c none)) (sview (shards.getD c none))
          0 0 0 (by rw [hlnew]; exact hts) (by rw [hlold]; exact hts),
        mergedShards_getD r shards newDatashards (by omega),
        if_pos ⟨hcd, hni⟩]
      linear_combination entry r.m (r.DataShards + j) c *
        GF_add_self ((sview (shards.getD c none)).getD t 0)

/-- C5 counterexample: `Update` only adds the parity delta of the changed
columns, so when the old parity was not consistent with the old data
(here: data shard `[0]`, parity shard `[1]` under the matrix
`[[1],[1]]`, whose true parity for `[0]` is `[0]`), a successful `Update`
to new data `[1]` leaves parity byte `0`, while `Encode` on the merged
shard vector writes parity byte `1`: the shards after `Update` are not
"as if `Encode` was called on the new shards". -/
theorem Update_not_reencode :
    (Update ⟨1, 1, [[1], [1]], .defaultMatrix⟩
        [some ⟨1, [0]⟩, some ⟨1, [1]⟩] [some ⟨1, [1]⟩]).1 = none ∧
    (Encode ⟨1, 1, [[1], [1]], .defaultMatrix⟩
        (mergedShards ⟨1, 1, [[1], [1]], .defaultMatrix⟩
          [some ⟨1, [0]⟩, some ⟨1, [1]⟩] [some ⟨1, [1]⟩])).1 = none ∧
    sview ((Update ⟨1, 1, [[1], [1]], .defaultMatrix⟩
        [some ⟨1, [0]⟩, some ⟨1, [1]⟩] [some ⟨1, [1]⟩]).2.getD 1 none) ≠
      sview ((Encode ⟨1, 1, [[1], [1]], .defaultMatrix⟩
        (mergedShards ⟨1, 1, [[1], [1]], .defaultMatrix⟩
          [some ⟨1, [0]⟩, some ⟨1, [1]⟩] [some ⟨1, [1]⟩])).2.getD 1 none) := by
  refine ⟨rfl, rfl, ?_⟩
  intro h
  have h0 := congrArg (fun l => (l.getD 0 0).val) h
  simp only at h0
  cases h0

theorem Update_eq_reencode_witness :
    ∃ out outE,
      Update ⟨1, 1, [[1], [1]], .defaultMatrix⟩
          [some ⟨1, [1]⟩, some ⟨1, [1]⟩] [some ⟨1, [0]⟩] = (none, out) ∧
      Encode ⟨1, 1, [[1], [1]], .defaultMatrix⟩
          (mergedShards ⟨1, 1, [[1], [1]], .defaultMatrix⟩
            [some ⟨1, [1]⟩, some ⟨1, [1]⟩] [some ⟨1, [0]⟩]) = (none, outE) ∧
      ∀ j < (1 : Nat),
        sview (out.getD (1 + j) none) = sview (outE.getD (1 + j) none) :=
  Update_eq_reencode ⟨1, 1, [[1], [1]], .defaultMatrix⟩
    [some ⟨1, [1]⟩, some ⟨1, [1]⟩] [some ⟨1, [0]⟩] 1
    (by decide) (by decide) (by decide) (by decide)
    (by decide)
    (by intro s hs; unfold wfShard; fin_cases hs <;> decide)
    ⟨0, by decide, rfl⟩
    (by
      intro c hc hni
      have hc0 : c = 0 := Nat.lt_one_iff.mp hc
      subst hc0
      exact ⟨rfl, by unfold wfShard; decide⟩)
    (by
      intro j hj
      have hj0 : j = 0 := Nat.lt_one_iff.mp hj
      subst hj0
      decide)

theorem contains_iff_mem (l : List Nat) (a : Nat) : l.contains a = true ↔ a ∈ l :=
  List.elem_iff

theorem incr_cons_cons {a b : Nat} {t : List Nat} :
    isIncremental (a :: b :: t) = (decide (a < b) && isIncremental (b :: t)) := rfl

theorem incr_tail {a : Nat} {t : List Nat} (h : isIncremental (a :: t) = true) :
    isIncremental t = true := by
  cases t with
  | nil => rfl
  | cons b t2 =>
    rw [incr_cons_cons, Bool.and_eq_true] at h
    exact h.2

theorem incr_head_lt {a : Nat} {t : List Nat} (h : isIncremental (a :: t) = true) :
    ∀ x ∈ t, a < x := by
  induction t generalizing a with
  | nil => intro x hx; cases hx
  | cons b t2 ih =>
    intro x hx
    have hab : a < b := by
      rw [incr_cons_cons, Bool.and_eq_true] at h
      exact of_decide_eq_true h.1
    rcases List.mem_cons.mp hx with h0 | h0
    · omega
    · exact lt_trans hab (ih (incr_tail h) x h0)

theorem incr_append_left {l : List Nat} {a : Nat}
    (h : isIncremental (l ++ [a]) = true) : isIncremental l = true := by
  induction l with
  | nil => rfl
  | cons b t ih =>
    cases t with
    | nil => rfl
    | cons c t2 =>
      rw [List.cons_append, List.cons_append] at h
      rw [incr_cons_cons, Bool.and_eq_true] at h
      rw [incr_cons_cons, Bool.and_eq_true]
      exact ⟨h.1, ih (by rw [List.cons_append]; exact h.2)⟩

theorem incr_lt_of_append {l : List Nat} {a : Nat}
    (h : isIncremental (l ++ [a]) = true) : ∀ x ∈ l, x < a := by
  induction l with
  | nil => intro x hx; cases hx
  | cons b t ih =>
    intro x hx
    have htail : isIncremental (t ++ [a]) = true := by
      have := @incr_tail b (t ++ [a]) (by rw [← List.cons_append]; exact h)
      exact this
    rcases List.mem_cons.mp hx with h0 | h0
    · subst h0
      cases t with
      | nil =>
        rw [List.cons_append, List.nil_append, incr_cons_cons, Bool.and_eq_true] at h
        exact of_decide_eq_true h.1
      | cons c t2 =>
        have hbc : x < c := by
          rw [List.cons_append, List.cons_append, incr_cons_cons,
            Bool.and_eq_true] at h
          exact of_decide_eq_true h.1
        exact lt_trans hbc (ih htail c (List.mem_cons_self c t2))
    · exact ih htail x h0

theorem filter_contains_range (l : List Nat) (n : Nat)
    (hinc : isIncremental l = true) (hlt : ∀ x ∈ l, x < n) :
    (List.range n).filter (fun i => l.contains i) = l := by
  induction n generalizing l with
  | zero =>
    cases l with
    | nil => rfl
    | cons a t => exact absurd (hlt a (List.mem_cons_self a t)) (by omega)
  | succ k ih =>
    by_cases hm : k ∈ l
    · have hne : l ≠ [] := by intro h0; rw [h0] at hm; cases hm
      have hdec := List.dropLast_append_getLast hne
      have hlast : l.getLast hne = k := by
        have hmem : l.getLast hne ∈ l := List.getLast_mem hne
        have h1 : l.getLast hne ≤ k := by
          have := hlt _ hmem
          omega
        have hinc1 : isIncremental (l.dropLast ++ [l.getLast hne]) = true := by
          rw [hdec]; exact hinc
        rcases List.mem_append.mp (by rw [hdec]; exact hm :
            k ∈ l.dropLast ++ [l.getLast hne]) with h0 | h0
        · have h2 : k < l.getLast hne := incr_lt_of_append hinc1 k h0
          omega
        · have h0b := List.mem_singleton.mp h0
          omega
      have hdec2 : l.dropLast ++ [k] = l := by rw [← hlast]; exact hdec
      have hinc2 : isIncremental (l.dropLast ++ [k]) = true := by
        rw [hdec2]; exact hinc
      have hltd : ∀ x ∈ l.dropLast, x < k := incr_lt_of_append hinc2
      rw [List.range_succ, List.filter_append]
      have hfk : List.filter (fun i => l.contains i) [k] = [k] := by
        simp only [List.filter_cons, List.filter_nil]
        rw [if_pos (by rw [contains_iff_mem]; exact hm)]
      have hswitch : List.filter (fun i => l.contains i) (List.range k) =
          List.filter (fun i => l.dropLast.contains i) (List.range k) := by
        apply List.filter_congr
        intro x hx
        have hxk : x < k := List.mem_range.mp hx
        cases hc : l.dropLast.contains x with
        | true =>
          have hxm : x ∈ l := by
            rw [← hdec2]
            exact List.mem_append_left _ ((contains_iff_mem _ x).mp hc)
          rw [(contains_iff_mem l x).mpr hxm]
        | false =>
          cases hc2 : l.contains x with
          | false => rfl
          | true =>
            exfalso
            have hxm : x ∈ l := (contains_iff_mem l x).mp hc2
            rcases List.mem_append.mp (by rw [hdec2]; exact hxm :
                x ∈ l.dropLast ++ [k]) with h0 | h0
            · rw [(contains_iff_mem _ x).mpr h0] at hc; cases hc
            · have h0b := List.mem_singleton.mp h0
              omega
      rw [hfk, hswitch, ih l.dropLast (incr_append_left hinc2) hltd, hdec2]
    · have hlt2 : ∀ x ∈ l, x < k := by
        intro x hx
        have h1 := hlt x hx
        have h2 : x ≠ k := fun h0 => hm (h0 ▸ hx)
        omega
      rw [List.range_succ, List.filter_append]
      have hfk : List.filter (fun i => l.contains i) [k] = [] := by
        simp only [List.filter_cons, List.filter_nil]
        rw [if_neg (by rw [contains_iff_mem]; exact hm)]
      rw [hfk, List.append_nil, ih l hinc hlt2]

theorem set_getD_self {α : Type} (l : List α) (i : Nat) (d : α) :
    l.set i (l.getD i d) = l := by
  by_cases hi : i < l.length
  · apply List.ext_getElem (by simp)
    intro n h1 h2
    by_cases hn : n = i
    · subst hn
      rw [List.getElem_set_self, getD_eq_getElem _ _ hi]
    · rw [List.getElem_set_ne (fun h0 => hn (h0.symm))]
  · rw [List.set_eq_of_length_le (by omega)]

theorem foldl_length_set {α : Type} (step : List α → Nat → List α)
    (hstep : ∀ sh i, (step sh i).length = sh.length) (idxs : List Nat)
    (sh : List α) : (idxs.foldl step sh).length = sh.length := by
  induction idxs generalizing sh with
  | nil => rfl
  | cons a t ih => rw [List.foldl_cons, ih, hstep]

theorem zfill_getD (size : Nat) (idxs : List Nat) (shards : List Shard)
    (i : Nat) (hinc : isIncremental idxs = true)
    (hbound : ∀ x ∈ idxs, x < shards.length) :
    (idxs.foldl (fun sh idx =>
        if slen (sh.getD idx none) = 0 then sh.set idx (mkShard size) else sh)
      shards).getD i none =
    if idxs.contains i ∧ slen (shards.getD i none) = 0 then mkShard size
    else shards.getD i none := by
  induction idxs using List.reverseRecOn generalizing i with
  | nil =>
    rw [if_neg (by intro hc; cases hc.1)]
    rfl
  | append_singleton l a ih =>
    rw [List.foldl_append, List.foldl_cons, List.foldl_nil]
    have hanl : ¬ a ∈ l := fun h0 => absurd (incr_lt_of_append hinc a h0) (by omega)
    have hca : (l.foldl (fun sh idx =>
        if slen (sh.getD idx none) = 0 then sh.set idx (mkShard size) else sh)
      shards).getD a none = shards.getD a none := by
      rw [ih a (incr_append_left hinc)
        (fun x hx => hbound x (List.mem_append_left _ hx)),
        if_neg (by intro hc; exact hanl ((contains_iff_mem l a).mp hc.1))]
    by_cases hia : i = a
    · subst hia
      by_cases hz : slen (shards.getD i none) = 0
    
      · rw [if_pos (by rw [hca]; exact hz)]
        have hlen2 : i < (l.foldl (fun sh idx =>
            if slen (sh.getD idx none) = 0 then sh.set idx (mkShard size) else sh)
          shards).length := by
          rw [foldl_length_set _ (by
            intro sh j
            by_cases hc : slen (sh.getD j none) = 0
            · rw [if_pos hc, List.length_set]
            · rw [if_neg hc])]
          exact hbound i (List.mem_append_right _ (List.mem_singleton.mpr rfl))
        rw [getD_set_self _ _ _ hlen2,
          if_pos ⟨(contains_iff_mem _ i).mpr
            (List.mem_append_right _ (List.mem_singleton.mpr rfl)), hz⟩]
      · rw [if_neg (by rw [hca]; exact hz), hca,
          if_neg (by intro hc; exact hz hc.2)]
    · have hstep : ∀ (sh : List Shard),
          ((if slen (sh.getD a none) = 0 then sh.set a (mkShard size) else sh)).getD
            i none = sh.getD i none := by
        intro sh
        by_cases hc : slen (sh.getD a none) = 0
        · rw [if_pos hc, getD_set_ne _ _ _ (fun h0 => hia (h0.symm))]
        · rw [if_neg hc]
      rw [hstep, ih i (incr_append_left hinc)
        (fun x hx => hbound x (List.mem_append_left _ hx))]
      have hcc : (l ++ [a]).contains i = l.contains i := by
        cases hc : l.contains i with
        | true =>
          rw [(contains_iff_mem _ i).mpr
            (List.mem_append_left _ ((contains_iff_mem l i).mp hc))]
        | false =>
          cases hc2 : (l ++ [a]).contains i with
          | false => rfl
          | true =>
            exfalso
            rcases List.mem_append.mp ((contains_iff_mem _ i).mp hc2) with h0 | h0
            · rw [(contains_iff_mem l i).mpr h0] at hc; cases hc
            · exact hia (List.mem_singleton.mp h0)
      rw [hcc]

theorem allocFold_getD (size : Nat) (idxs : List Nat) (shards : List Shard)
    (i : Nat) (hinc : isIncremental idxs = true)
    (hbound : ∀ x ∈ idxs, x < shards.length) :
    (idxs.foldl (fun sh j => sh.set j (allocShard (sh.getD j none) size))
      shards).getD i none =
    if idxs.contains i = true then allocShard (shards.getD i none) size
    else shards.getD i none := by
  induction idxs using List.reverseRecOn generalizing i with
  | nil =>
    rw [if_neg (by intro hc; cases hc)]
    rfl
  | append_singleton l a ih =>
    rw [List.foldl_append, List.foldl_cons, List.foldl_nil]
    have hanl : ¬ a ∈ l := fun h0 => absurd (incr_lt_of_append hinc a h0) (by omega)
    have hca : (l.foldl (fun sh j => sh.set j (allocShard (sh.getD j none) size))
        shards).getD a none = shards.getD a none := by
      rw [ih a (incr_append_left hinc)
        (fun x hx => hbound x (List.mem_append_left _ hx)),
        if_neg (by intro hc; exact hanl ((contains_iff_mem l a).mp hc))]
    by_cases hia : i = a
    · subst hia
      have hlen2 : i < (l.foldl (fun sh j =>
          sh.set j (allocShard (sh.getD j none) size)) shards).length := by
        rw [foldl_length_set _ (by intro sh j; rw [List.length_set])]
        exact hbound i (List.mem_append_right _ (List.mem_singleton.mpr rfl))
      rw [getD_set_self _ _ _ hlen2, hca,
        if_pos ((contains_iff_mem _ i).mpr
          (List.mem_append_right _ (List.mem_singleton.mpr rfl)))]
    · rw [getD_set_ne _ _ _ (fun h0 => hia (h0.symm)),
        ih i (incr_append_left hinc)
          (fun x hx => hbound x (List.mem_append_left _ hx))]
      have hcc : (l ++ [a]).contains i = l.contains i := by
        cases hc : l.contains i with
        | true =>
          rw [(contains_iff_mem _ i).mpr
            (List.mem_append_left _ ((contains_iff_mem l i).mp hc))]
        | false =>
          cases hc2 : (l ++ [a]).contains i with
          | false => rfl
          | true =>
            exfalso
            rcases List.mem_append.mp ((contains_iff_mem _ i).mp hc2) with h0 | h0
            · rw [(contains_iff_mem l i).mpr h0] at hc; cases hc
            · exact hia (List.mem_singleton.mp h0)
      rw [hcc]

theorem slen_allocShard (s : Shard) (size : Nat) :
    slen (allocShard s size) = size := by
  unfold allocShard
  by_cases hc : size ≤ scap s
  · rw [if_pos hc]
    cases s <;> rfl
  · rw [if_neg hc]
    rfl

theorem wfShard_allocShard (s : Shard) (size : Nat) :
    wfShard (allocShard s size) := by
  unfold allocShard wfShard
  by_cases hc : size ≤ scap s
  · rw [if_pos hc]
    cases s with
    | none => exact hc
    | some sl => exact hc
  · rw [if_neg hc]
    show size ≤ (List.replicate size (0 : GF)).length
    rw [List.length_replicate]

theorem wbFold_not_mem (pairs : List (Nat × List GF)) (shards : List Shard) (i : Nat)
    (h : ∀ p ∈ pairs, p.1 ≠ i) :
    (pairs.foldl (fun sh p => sh.set p.1 (writeBack (sh.getD p.1 none) p.2))
      shards).getD i none = shards.getD i none := by
  induction pairs generalizing shards with
  | nil => rfl
  | cons q t ih =>
    rw [List.foldl_cons, ih _ (fun p hp => h p (List.mem_cons_of_mem q hp)),
      getD_set_ne _ _ _ (h q (List.mem_cons_self q t))]

theorem writeBackAt_getD (shards : List Shard) (idxs : List Nat)
    (outs : List (List GF)) (t : Nat) (hinc : isIncremental idxs = true)
    (hbound : ∀ x ∈ idxs, x < shards.length)
    (ht : t < idxs.length) (ht2 : t < outs.length) :
    (writeBackAt shards idxs outs).getD (idxs.getD t 0) none =
      writeBack (shards.getD (idxs.getD t 0) none) (outs.getD t []) := by
  induction idxs generalizing outs shards t with
  | nil => exact absurd ht (by simp)
  | cons a rest ih =>
    cases outs with
    | nil => exact absurd ht2 (by simp)
    | cons o outs2 =>
      show ((((a, o) :: rest.zip outs2)).foldl
        (fun sh p => sh.set p.1 (writeBack (sh.getD p.1 none) p.2)) shards).getD
          ((a :: rest).getD t 0) none = _
      rw [List.foldl_cons]
      cases t with
      | zero =>
        show ((rest.zip outs2).foldl _
          (shards.set a (writeBack (shards.getD a none) o))).getD a none = _
        rw [wbFold_not_mem _ _ _ (by
            intro p hp
            have hp1 : p.1 ∈ rest := (List.of_mem_zip hp).1
            have := incr_head_lt hinc p.1 hp1
            omega),
          getD_set_self _ _ _ (hbound a (List.mem_cons_self a rest))]
        rfl
      | succ t2 =>
        show (writeBackAt (shards.set a (writeBack (shards.getD a none) o))
          rest outs2).getD (rest.getD t2 0) none = _
        have hna : a ≠ rest.getD t2 0 := by
          have hm : rest.getD t2 0 ∈ rest := getD_mem rest 0 (by
            have := ht
            simp at this
            omega)
          have := incr_head_lt hinc _ hm
          omega
        have hih := ih (shards.set a (writeBack (shards.getD a none) o)) outs2 t2
          (incr_tail hinc)
          (by
            intro x hx
            rw [List.length_set]
            exact hbound x (List.mem_cons_of_mem a hx))
          (by have := ht; simp at this; omega)
          (by have := ht2; simp at this; omega)
        rw [hih, getD_set_ne _ _ _ hna]
        rfl

theorem numberPresent_lt (shards : List Shard) (i : Nat) (hi : i < shards.length)
    (h : slen (shards.getD i none) = 0) : numberPresent shards < shards.length := by
  unfold numberPresent
  rw [List.length_filter_lt_length_iff_exists]
  rw [List.getD_eq_getElem?_getD] at h
  exact ⟨shards.getD i none, getD_mem _ _ hi, by simp [h]⟩

theorem sview_mkShard (size : Nat) : sview (mkShard size) = List.replicate size 0 := by
  show (List.replicate size (0 : GF)).take size = _
  rw [List.take_of_length_le (by rw [List.length_replicate])]

theorem PartialReconstruct_happy (r : reedSolomon) (shards : List Shard)
    (survivalIdx badIdx : List Nat) (size : Nat) (dd fdm : Mat)
    (hsz : 0 < size) (hd : 0 < r.DataShards)
    (hlen : shards.length = r.Shards)
    (hdlen : survivalIdx.length = r.DataShards)
    (hincS : isIncremental survivalIdx = true)
    (hincB : isIncremental badIdx = true)
    (hboundS : ∀ x ∈ survivalIdx, x < r.Shards)
    (hboundB : ∀ x ∈ badIdx, x < r.Shards)
    (hdisj : ∀ x ∈ badIdx, ¬ x ∈ survivalIdx)
    (hnp : numberPresent shards ≠ r.Shards)
    (hpres : ∀ i, i < r.Shards → slen (shards.getD i none) ≠ 0 →
      survivalIdx.contains i = true)
    (hsview : ∀ i ∈ survivalIdx, slen (shards.getD i none) = 0 ∨
      slen (shards.getD i none) = size)
    (hwf : ∀ s ∈ shards, wfShard s)
    (hsize : shardSize shards = size)
    (hinv : matInvert (partialSubMatrix r survivalIdx) = .ok dd)
    (hmul : matMultiply (invalidEncodeMat r badIdx) dd = .ok fdm) :
    ∃ out, PartialReconstruct r shards survivalIdx badIdx = (none, out) ∧
      ∀ t, t < badIdx.length →
        sview (out.getD (badIdx.getD t 0) none) =
          codedView fdm (survivalIdx.map fun idx =>
            if slen (shards.getD idx none) = 0 then List.replicate size 0
            else sview (shards.getD idx none)) r.DataShards size t := by
  have hfS : ((List.range r.Shards).filter fun i => survivalIdx.contains i)
      = survivalIdx := filter_contains_range survivalIdx r.Shards hincS hboundS
  have hfB : ((List.range r.Shards).filter fun i => badIdx.contains i)
      = badIdx := filter_contains_range badIdx r.Shards hincB hboundB
  have hmemD : ∀ (i : Nat), i < shards.length → shards.getD i none ∈ shards :=
    fun i hi => getD_mem shards none hi
  unfold PartialReconstruct
  rw [if_neg (by omega), if_neg (by rw [hincS]; simp), if_neg (by rw [hincB]; simp),
    if_neg hnp,
    if_neg (by
      simp only [List.any_eq_true, not_exists]
      intro i hi
      obtain ⟨him, hcon⟩ := hi
      rw [List.mem_range] at him
      rw [Bool.and_eq_true] at hcon
      rw [hpres i him (of_decide_eq_true hcon.1)] at hcon
      simp at hcon),
    hinv]
  simp only
  rw [hmul]
  simp only
  rw [hsize, hfS, hfB]
  refine ⟨_, rfl, ?_⟩
  intro t ht
  have hSH1 : ∀ i, (survivalIdx.foldl (fun sh idx =>
      if slen (sh.getD idx none) = 0 then sh.set idx (mkShard size) else sh)
      shards).getD i none =
      if survivalIdx.contains i ∧ slen (shards.getD i none) = 0 then mkShard size
      else shards.getD i none :=
    fun i => zfill_getD size survivalIdx shards i hincS
      (fun x hx => by rw [hlen]; exact hboundS x hx)
  have hSH1len : (survivalIdx.foldl (fun sh idx =>
      if slen (sh.getD idx none) = 0 then sh.set idx (mkShard size) else sh)
      shards).length = shards.length :=
    foldl_length_set _ (by
      intro sh j
      by_cases hc : slen (sh.getD j none) = 0
      · rw [if_pos hc, List.length_set]
      · rw [if_neg hc]) _ _
  have hSH2 : ∀ i, ((badIdx.foldl (fun sh i => sh.set i (allocShard (sh.getD i none)
      size)) (survivalIdx.foldl (fun sh idx =>
      if slen (sh.getD idx none) = 0 then sh.set idx (mkShard size) else sh)
      shards))).getD i none =
      if badIdx.contains i = true then
        allocShard ((survivalIdx.foldl (fun sh idx =>
          if slen (sh.getD idx none) = 0 then sh.set idx (mkShard size) else sh)
          shards).getD i none) size
      else (survivalIdx.foldl (fun sh idx =>
        if slen (sh.getD idx none) = 0 then sh.set idx (mkShard size) else sh)
        shards).getD i none :=
    fun i => allocFold_getD size badIdx _ i hincB
      (fun x hx => by rw [hSH1len, hlen]; exact hboundB x hx)
  have hSH1bad : ∀ i ∈ badIdx, (survivalIdx.foldl (fun sh idx =>
      if slen (sh.getD idx none) = 0 then sh.set idx (mkShard size) else sh)
      shards).getD i none = shards.getD i none := by
    intro i hi
    rw [hSH1 i, if_neg (by
      intro hc
      exact hdisj i hi ((contains_iff_mem _ i).mp hc.1))]
  have hmaplen : (survivalIdx.map fun i => sview ((survivalIdx.foldl (fun sh idx =>
      if slen (sh.getD idx none) = 0 then sh.set idx (mkShard size) else sh)
      shards).getD i none)).length = r.DataShards := by
    rw [List.length_map, hdlen]
  have hviews : ∀ i ∈ survivalIdx, sview ((survivalIdx.foldl (fun sh idx =>
      if slen (sh.getD idx none) = 0 then sh.set idx (mkShard size) else sh)
      shards).getD i none) =
      if slen (shards.getD i none) = 0 then List.replicate size 0
      else sview (shards.getD i none) := by
    intro i hi
    rw [hSH1 i]
    by_cases hz : slen (shards.getD i none) = 0
    · rw [if_pos ⟨(contains_iff_mem _ i).mpr hi, hz⟩, if_pos hz, sview_mkShard]
    · rw [if_neg (fun hc => hz hc.2), if_neg hz]
  have hSUBS : (survivalIdx.map fun i => sview ((survivalIdx.foldl (fun sh idx =>
        if slen (sh.getD idx none) = 0 then sh.set idx (mkShard size) else sh)
        shards).getD i none)).take r.DataShards ++
      List.replicate (r.DataShards - (survivalIdx.map fun i =>
        sview ((survivalIdx.foldl (fun sh idx =>
          if slen (sh.getD idx none) = 0 then sh.set idx (mkShard size) else sh)
          shards).getD i none)).length) [] =
      survivalIdx.map fun idx =>
        if slen (shards.getD idx none) = 0 then List.replicate size 0
        else sview (shards.getD idx none) := by
    rw [hmaplen, Nat.sub_self, List.replicate_zero, List.append_nil,
      List.take_of_length_le (by rw [hmaplen])]
    exact List.map_congr_left hviews
  rw [hSUBS]
  have hin : ∀ c < r.DataShards,
      ((survivalIdx.map fun idx =>
        if slen (shards.getD idx none) = 0 then List.replicate size 0
        else sview (shards.getD idx none)).getD c []).length = size := by
    intro c hc
    rw [getD_map _ survivalIdx 0 _ (by omega)]
    have hm : survivalIdx.getD c 0 ∈ survivalIdx := getD_mem _ _ (by omega)
    by_cases hz : slen (shards.getD (survivalIdx.getD c 0) none) = 0
    · rw [if_pos hz, List.length_replicate]
    · rw [if_neg hz, sview_length _ (hwf _ (hmemD _ (by
        rw [hlen]; exact hboundS _ hm)))]
      rcases hsview _ hm with h0 | h0
      · exact absurd h0 hz
      · exact h0
  have hout : ∀ o ∈ (badIdx.map fun i => sview ((badIdx.foldl
      (fun sh i => sh.set i (allocShard (sh.getD i none) size))
      (survivalIdx.foldl (fun sh idx =>
        if slen (sh.getD idx none) = 0 then sh.set idx (mkShard size) else sh)
        shards)).getD i none)), o.length = size := by
    intro o ho
    obtain ⟨i, hi, rfl⟩ := List.mem_map.mp ho
    rw [hSH2 i, if_pos ((contains_iff_mem _ i).mpr hi),
      sview_length _ (wfShard_allocShard _ _), slen_allocShard]
  have hcs := codeSomeShards_eq r.DataShards fdm
    (survivalIdx.map fun idx =>
      if slen (shards.getD idx none) = 0 then List.replicate size 0
      else sview (shards.getD idx none))
    ((badIdx.map fun i => sview ((badIdx.foldl
      (fun sh i => sh.set i (allocShard (sh.getD i none) size))
      (survivalIdx.foldl (fun sh idx =>
        if slen (sh.getD idx none) = 0 then sh.set idx (mkShard size) else sh)
        shards)).getD i none)))
    size hd hin hout
  rw [hcs]
  have hbt : badIdx.getD t 0 ∈ badIdx := getD_mem _ _ ht
  rw [writeBackAt_getD _ _ _ t hincB
    (by
      intro x hx
      rw [foldl_length_set _ (by intro sh j; rw [List.length_set]), hSH1len, hlen]
      exact hboundB x hx)
    ht
    (by rw [length_map_range, List.length_map]; exact ht)]
  rw [getD_map_range _ _ (by rw [List.length_map]; exact ht)]
  rw [hSH2 (badIdx.getD t 0), if_pos ((contains_iff_mem _ _).mpr hbt)]
  rw [sview_writeBack _ _ (by rw [codedView_length, slen_allocShard])]

theorem if_slen_none (size : Nat) (els : List GF) :
    (if slen (none : Shard) = 0 then List.replicate size (0 : GF) else els) =
      List.replicate size 0 := if_pos rfl

/-- C2 (amended): the two partial calls are additive, not sequential.
For a survivor set of `DataShards` rows with invertible submatrix and a
partition of the survivors into `A` (`inA` true) and its complement, the
bytes a full `PartialReconstruct` writes into each bad shard are the XOR
of the bytes written by the call with only the `A` survivors present and
the bytes written by the call with only the other survivors present (each
into its own output buffer). -/
theorem PartialReconstruct_additive (r : reedSolomon) (shardsF : List Shard)
    (survivalIdx badIdx : List Nat) (size : Nat) (dd : Mat) (inA : Nat → Bool)
    (hsz : 0 < size) (hd : 0 < r.DataShards)
    (hlen : shardsF.length = r.Shards)
    (hdlen : survivalIdx.length = r.DataShards)
    (hincS : isIncremental survivalIdx = true)
    (hincB : isIncremental badIdx = true)
    (hboundS : ∀ x ∈ survivalIdx, x < r.Shards)
    (hboundB : ∀ x ∈ badIdx, x < r.Shards)
    (hdisj : ∀ x ∈ badIdx, ¬ x ∈ survivalIdx)
    (hbadne : badIdx ≠ [])
    (hsurv : ∀ i ∈ survivalIdx, slen (shardsF.getD i none) = size)
    (habs : ∀ i < r.Shards, ¬ i ∈ survivalIdx → slen (shardsF.getD i none) = 0)
    (hwf : ∀ s ∈ shardsF, wfShard s)
    (hexA : ∃ i ∈ survivalIdx, inA i = true)
    (hexB : ∃ i ∈ survivalIdx, inA i = false)
    (hinv : matInvert (partialSubMatrix r survivalIdx) = .ok dd) :
    ∃ outF outA outB,
      PartialReconstruct r shardsF survivalIdx badIdx = (none, outF) ∧
      PartialReconstruct r (maskShards survivalIdx inA shardsF) survivalIdx badIdx
        = (none, outA) ∧
      PartialReconstruct r (maskShards survivalIdx (fun i => !(inA i)) shardsF)
        survivalIdx badIdx = (none, outB) ∧
      ∀ t, t < badIdx.length →
        sview (outF.getD (badIdx.getD t 0) none) =
          List.zipWith (fun x y => x + y)
            (sview (outA.getD (badIdx.getD t 0) none))
            (sview (outB.getD (badIdx.getD t 0) none)) := by
  have hmget : ∀ (keep : Nat → Bool) (i : Nat), i < shardsF.length →
      (maskShards survivalIdx keep shardsF).getD i none =
      if survivalIdx.contains i && !(keep i) then none
      else shardsF.getD i none := by
    intro keep i hi
    unfold maskShards
    rw [getD_map_range _ _ hi]
  have hmlen : ∀ (keep : Nat → Bool),
      (maskShards survivalIdx keep shardsF).length = r.Shards := by
    intro keep
    unfold maskShards
    rw [length_map_range, hlen]
  have hmemD : ∀ (i : Nat), i < shardsF.length → shardsF.getD i none ∈ shardsF :=
    fun i hi => getD_mem shardsF none hi
  have hwfnone : wfShard (none : Shard) := Nat.le.refl
  have hb0 : badIdx.getD 0 0 ∈ badIdx := getD_mem _ _ (by
    cases badIdx with
    | nil => exact absurd rfl hbadne
    | cons b t => simp)
  have hb0s : slen (shardsF.getD (badIdx.getD 0 0) none) = 0 :=
    habs _ (hboundB _ hb0) (hdisj _ hb0)
  have hmwf : ∀ (keep : Nat → Bool) (s : Shard),
      s ∈ maskShards survivalIdx keep shardsF → wfShard s := by
    intro keep s hs
    obtain ⟨i, hil, hieq⟩ := List.mem_iff_getElem.mp hs
    rw [← hieq, ← getD_eq_getElem (maskShards survivalIdx keep shardsF) none hil]
    have hi2 : i < shardsF.length := by
      have := hil
      rw [hmlen keep, ← hlen] at this
      exact this
    rw [hmget keep i hi2]
    by_cases hc : (survivalIdx.contains i && !(keep i)) = true
    · rw [if_pos hc]; exact hwfnone
    · rw [if_neg hc]; exact hwf _ (hmemD i hi2)
  have hmixed : ∀ (keep : Nat → Bool) (s : Shard),
      s ∈ maskShards survivalIdx keep shardsF → slen s = size ∨ slen s = 0 := by
    intro keep s hs
    obtain ⟨i, hil, hieq⟩ := List.mem_iff_getElem.mp hs
    rw [← hieq, ← getD_eq_getElem (maskShards survivalIdx keep shardsF) none hil]
    have hi2 : i < shardsF.length := by
      have := hil
      rw [hmlen keep, ← hlen] at this
      exact this
    rw [hmget keep i hi2]
    by_cases hc : (survivalIdx.contains i && !(keep i)) = true
    · rw [if_pos hc]; right; rfl
    · rw [if_neg hc]
      by_cases hmem : i ∈ survivalIdx
      · left; exact hsurv i hmem
      · right; exact habs i (by omega) hmem
  have hFmixed : ∀ s ∈ shardsF, slen s = size ∨ slen s = 0 := by
    intro s hs
    obtain ⟨i, hil, hieq⟩ := List.mem_iff_getElem.mp hs
    rw [← hieq, ← getD_eq_getElem shardsF none hil]
    by_cases hmem : i ∈ survivalIdx
    · left; exact hsurv i hmem
    · right; exact habs i (by omega) hmem
  have hs0 : survivalIdx.getD 0 0 ∈ survivalIdx := getD_mem _ _ (by
    rw [hdlen]; omega)
  have hsizeF : shardSize shardsF = size :=
    shardSize_mixed _ _ hFmixed ⟨shardsF.getD (survivalIdx.getD 0 0) none,
      hmemD _ (by rw [hlen]; exact hboundS _ hs0),
      by rw [hsurv _ hs0]; omega⟩
  have hmsize : ∀ (keep : Nat → Bool) (j : Nat), j ∈ survivalIdx → keep j = true →
      shardSize (maskShards survivalIdx keep shardsF) = size := by
    intro keep j hj hkj
    apply shardSize_mixed _ _ (hmixed keep)
    refine ⟨(maskShards survivalIdx keep shardsF).getD j none,
      getD_mem _ _ (by rw [hmlen keep]; exact hboundS _ hj), ?_⟩
    rw [hmget keep j (by rw [hlen]; exact hboundS _ hj),
      if_neg (by rw [hkj]; simp), hsurv _ hj]
    omega
  have hmpres : ∀ (keep : Nat → Bool) (i : Nat), i < r.Shards →
      slen ((maskShards survivalIdx keep shardsF).getD i none) ≠ 0 →
      survivalIdx.contains i = true := by
    intro keep i hi hnz
    by_cases hmem : i ∈ survivalIdx
    · exact (contains_iff_mem _ i).mpr hmem
    · exfalso
      apply hnz
      rw [hmget keep i (by omega)]
      by_cases hc : (survivalIdx.contains i && !(keep i)) = true
      · rw [if_pos hc]; rfl
      · rw [if_neg hc]; exact habs i hi hmem
  have hFpres : ∀ (i : Nat), i < r.Shards → slen (shardsF.getD i none) ≠ 0 →
      survivalIdx.contains i = true := by
    intro i hi hnz
    by_cases hmem : i ∈ survivalIdx
    · exact (contains_iff_mem _ i).mpr hmem
    · exact absurd (habs i hi hmem) hnz
  have hmnp : ∀ (keep : Nat → Bool),
      numberPresent (maskShards survivalIdx keep shardsF) ≠ r.Shards := by
    intro keep
    have := numberPresent_lt (maskShards survivalIdx keep shardsF) (badIdx.getD 0 0)
      (by rw [hmlen keep]; exact hboundB _ hb0)
      (by
        rw [hmget keep _ (by rw [hlen]; exact hboundB _ hb0)]
        by_cases hc : (survivalIdx.contains (badIdx.getD 0 0) && !(keep (badIdx.getD 0 0))) = true
        · rw [if_pos hc]; rfl
        · rw [if_neg hc]; exact hb0s)
    rw [hmlen keep] at this
    omega
  have hFnp : numberPresent shardsF ≠ r.Shards := by
    have := numberPresent_lt shardsF (badIdx.getD 0 0)
      (by rw [hlen]; exact hboundB _ hb0) hb0s
    omega
  have hdd : dd.length = r.DataShards := by
    rw [matInvert_ok_length hinv, partialSubMatrix_length]
  obtain ⟨fdm, hmul⟩ := matMultiply_ok_of_dims (invalidEncodeMat r badIdx) dd (by
    cases badIdx with
    | nil => exact absurd rfl hbadne
    | cons b t => rw [invalidEncodeMat_cols, hdd])
  obtain ⟨iA, hiA, hiAk⟩ := hexA
  obtain ⟨iB, hiB, hiBk⟩ := hexB
  obtain ⟨outF, hF, hFt⟩ := PartialReconstruct_happy r shardsF survivalIdx badIdx
    size dd fdm hsz hd hlen hdlen hincS hincB hboundS hboundB hdisj hFnp hFpres
    (fun i hi => Or.inr (hsurv i hi)) hwf hsizeF hinv hmul
  obtain ⟨outA, hA, hAt⟩ := PartialReconstruct_happy r
    (maskShards survivalIdx inA shardsF) survivalIdx badIdx
    size dd fdm hsz hd (hmlen inA) hdlen hincS hincB hboundS hboundB hdisj
    (hmnp inA) (hmpres inA)
    (fun i hi => by
      rcases hmixed inA _ (getD_mem _ _ (by rw [hmlen inA]; exact hboundS _ hi))
        with h0 | h0
      · exact Or.inr h0
      · exact Or.inl h0)
    (hmwf inA) (hmsize inA iA hiA hiAk) hinv hmul
  obtain ⟨outB, hB, hBt⟩ := PartialReconstruct_happy r
    (maskShards survivalIdx (fun i => !(inA i)) shardsF) survivalIdx badIdx
    size dd fdm hsz hd (hmlen _) hdlen hincS hincB hboundS hboundB hdisj
    (hmnp _) (hmpres _)
    (fun i hi => by
      rcases hmixed (fun i => !(inA i)) _
        (getD_mem _ _ (by rw [hmlen (fun i => !(inA i))]; exact hboundS _ hi))
        with h0 | h0
      · exact Or.inr h0
      · exact Or.inl h0)
    (hmwf _) (hmsize (fun i => !(inA i)) iB hiB (by show (!(inA iB)) = true; rw [hiBk]; rfl)) hinv hmul
  refine ⟨outF, outA, outB, hF, hA, hB, ?_⟩
  intro t ht
  rw [hFt t ht, hAt t ht, hBt t ht]
  rw [zipWith_eq_map_range (fun x y => x + y) (0 : GF) (0 : GF),
    codedView_length, codedView_length, Nat.min_self]
  apply List.ext_getElem (by rw [codedView_length, length_map_range])
  intro u h1 h2
  rw [← getD_eq_getElem _ 0 h1, ← getD_eq_getElem _ 0 h2]
  rw [codedView_length] at h1
  rw [getD_map_range _ _ h1, codedView_getD _ _ _ _ _ _ h1,
    codedView_getD _ _ _ _ _ _ h1, codedView_getD _ _ _ _ _ _ h1,
    ← gfSum_map_add]
  apply congrArg gfSum
  apply List.map_congr_left
  intro c hcm
  have hcd : c < r.DataShards := List.mem_range.mp hcm
  rw [getD_map _ survivalIdx 0 _ (by rw [hdlen]; omega),
    getD_map _ survivalIdx 0 _ (by rw [hdlen]; omega),
    getD_map _ survivalIdx 0 _ (by rw [hdlen]; omega)]
  have hidxm : survivalIdx.getD c 0 ∈ survivalIdx :=
    getD_mem _ _ (by rw [hdlen]; omega)
  have hidxlt : survivalIdx.getD c 0 < shardsF.length := by
    rw [hlen]; exact hboundS _ hidxm
  have hFsz : slen (shardsF.getD (survivalIdx.getD c 0) none) = size :=
    hsurv _ hidxm
  have hFnz : slen (shardsF.getD (survivalIdx.getD c 0) none) ≠ 0 := by omega
  rw [if_neg hFnz]
  cases hk : inA (survivalIdx.getD c 0) with
  | true =>
    have hmA : (maskShards survivalIdx inA shardsF).getD (survivalIdx.getD c 0) none
        = shardsF.getD (survivalIdx.getD c 0) none := by
      rw [hmget inA _ hidxlt]
      rw [if_neg (by
        intro hcc
        rw [Bool.and_eq_true] at hcc
        have hcc3 : (!(inA (survivalIdx.getD c 0))) = true := hcc.2
        rw [hk] at hcc3
        exact absurd hcc3 (by decide))]
    have hmB : (maskShards survivalIdx (fun i => !(inA i)) shardsF).getD
        (survivalIdx.getD c 0) none = none := by
      rw [hmget (fun i => !(inA i)) _ hidxlt]
      rw [if_pos (by
        rw [Bool.and_eq_true]
        refine ⟨(contains_iff_mem _ _).mpr hidxm, ?_⟩
        show (!(!(inA (survivalIdx.getD c 0)))) = true
        rw [hk]
        rfl)]
    rw [hmA, hmB, if_neg hFnz, if_slen_none, getD_replicate _ _ h1, mul_zero,
      add_zero]
  | false =>
    have hmA : (maskShards survivalIdx inA shardsF).getD (survivalIdx.getD c 0) none
        = none := by
      rw [hmget inA _ hidxlt]
      rw [if_pos (by
        rw [Bool.and_eq_true]
        refine ⟨(contains_iff_mem _ _).mpr hidxm, ?_⟩
        show (!(inA (survivalIdx.getD c 0))) = true
        rw [hk]
        rfl)]
    have hmB : (maskShards survivalIdx (fun i => !(inA i)) shardsF).getD
        (survivalIdx.getD c 0) none = shardsF.getD (survivalIdx.getD c 0) none := by
      rw [hmget (fun i => !(inA i)) _ hidxlt]
      rw [if_neg (by
        intro hcc
        rw [Bool.and_eq_true] at hcc
        have hcc3 : (!(!(inA (survivalIdx.getD c 0)))) = true := hcc.2
        rw [hk] at hcc3
        exact absurd hcc3 (by decide))]
    rw [hmA, hmB, if_slen_none, if_neg hFnz, getD_replicate _ _ h1, mul_zero,
      zero_add]

/-- C2 counterexample: `codeSomeShards` overwrites the output buffer at
input column 0 instead of XOR-ing into it, so two sequential
`PartialReconstruct` calls into the same zero-truncated output buffer do
not accumulate: for the 2+1 default encoder, survivors `[1,2]` split into
`A = {1}` and `B = {2}` and bad shard `0`, the buffer after the second
call holds byte 248 (the `B` contribution alone) while the single full
call writes byte 244. -/
theorem PartialReconstruct_not_sequential :
    ∃ r, New 2 1 .defaultMatrix = Except.ok r ∧
      (PartialReconstruct r
        [some ⟨0, [0]⟩, some ⟨1, [gfByte 10]⟩, some ⟨1, [gfByte 21]⟩]
        [1, 2] [0]).1 = none ∧
      (PartialReconstruct r [some ⟨0, [0]⟩, some ⟨1, [gfByte 10]⟩, none]
        [1, 2] [0]).1 = none ∧
      (PartialReconstruct r
        [truncShard ((PartialReconstruct r
            [some ⟨0, [0]⟩, some ⟨1, [gfByte 10]⟩, none] [1, 2] [0]).2.getD 0 none),
          none, some ⟨1, [gfByte 21]⟩] [1, 2] [0]).1 = none ∧
      sview ((PartialReconstruct r
        [truncShard ((PartialReconstruct r
            [some ⟨0, [0]⟩, some ⟨1, [gfByte 10]⟩, none] [1, 2] [0]).2.getD 0 none),
          none, some ⟨1, [gfByte 21]⟩] [1, 2] [0]).2.getD 0 none) ≠
      sview ((PartialReconstruct r
        [some ⟨0, [0]⟩, some ⟨1, [gfByte 10]⟩, some ⟨1, [gfByte 21]⟩]
        [1, 2] [0]).2.getD 0 none) := by
  refine ⟨⟨2, 1, [[1, 0], [0, 1], [gfByte 3, gfByte 2]], .defaultMatrix⟩,
    rfl, rfl, rfl, rfl, ?_⟩
  intro h
  have h0 := congrArg (fun l => (l.getD 0 0).val) h
  simp only at h0
  cases h0

theorem PartialReconstruct_additive_witness :
    ∃ outF outA outB,
      PartialReconstruct ⟨2, 1, [[1, 0], [0, 1], [gfByte 3, gfByte 2]], .defaultMatrix⟩
        [some ⟨0, [0]⟩, some ⟨1, [gfByte 10]⟩, some ⟨1, [gfByte 21]⟩] [1, 2] [0]
        = (none, outF) ∧
      PartialReconstruct ⟨2, 1, [[1, 0], [0, 1], [gfByte 3, gfByte 2]], .defaultMatrix⟩
        (maskShards [1, 2] (fun i => i == 1)
          [some ⟨0, [0]⟩, some ⟨1, [gfByte 10]⟩, some ⟨1, [gfByte 21]⟩]) [1, 2] [0]
        = (none, outA) ∧
      PartialReconstruct ⟨2, 1, [[1, 0], [0, 1], [gfByte 3, gfByte 2]], .defaultMatrix⟩
        (maskShards [1, 2] (fun i => !(i == 1))
          [some ⟨0, [0]⟩, some ⟨1, [gfByte 10]⟩, some ⟨1, [gfByte 21]⟩]) [1, 2] [0]
        = (none, outB) ∧
      ∀ t, t < List.length [0] →
        sview (outF.getD (List.getD [0] t 0) none) =
          List.zipWith (fun x y => x + y)
            (sview (outA.getD (List.getD [0] t 0) none))
            (sview (outB.getD (List.getD [0] t 0) none)) :=
  PartialReconstruct_additive
    ⟨2, 1, [[1, 0], [0, 1], [gfByte 3, gfByte 2]], .defaultMatrix⟩
    [some ⟨0, [0]⟩, some ⟨1, [gfByte 10]⟩, some ⟨1, [gfByte 21]⟩]
    [1, 2] [0] 1 [[gfByte 245, gfByte 244], [1, 0]] (fun i => i == 1)
    (by decide) (by decide) (by decide) (by decide) (by decide) (by decide)
    (by decide) (by decide) (by decide) (by decide) (by decide) (by decide)
    (by intro s hs; unfold wfShard; fin_cases hs <;> decide)
    ⟨1, by decide, rfl⟩ ⟨2, by decide, rfl⟩ (by rfl)

theorem survLoop_succ (k : Nat) (mm : Mat) (need : List Nat) (req : Bool)
    (surv : List Nat) (n f : Nat) (comb : List Nat) (lastErr : Option RSError) :
    survLoop k mm need req surv n (f + 1) comb lastErr =
      match matInvert ((selShards surv comb).map fun si =>
          (List.range k).map fun c => entry mm si c) with
      | .ok _ =>
        if !req || isContainedIn need (selShards surv comb) then
          (none, some (selShards surv comb))
        else survLoop k mm need req surv n f (combStep n k comb) none
      | .error e => survLoop k mm need req surv n f (combStep n k comb) (some e) :=
  rfl

theorem combOrbit_succ (n k f : Nat) (comb : List Nat) :
    combOrbit n k (f + 1) comb = comb :: combOrbit n k f (combStep n k comb) := rfl

theorem survLoop_finds_first (k : Nat) (mm : Mat) (need : List Nat) (req : Bool)
    (surv : List Nat) (n fuel : Nat) (comb : List Nat) (lastErr : Option RSError) :
    (survLoop k mm need req surv n fuel comb lastErr).2 =
      ((combOrbit n k fuel comb).find? (comboOk k mm need req surv)).map
        (selShards surv) := by
  induction fuel generalizing comb lastErr with
  | zero => rfl
  | succ f ih =>
    rw [survLoop_succ, combOrbit_succ]
    cases hinv : matInvert ((selShards surv comb).map fun si =>
        (List.range k).map fun c => entry mm si c) with
    | ok R =>
      cases hcond : (!req || isContainedIn need (selShards surv comb)) with
      | true =>
        show (none, some (selShards surv comb)).2 = _
        rw [List.find?_cons_of_pos _ (by
          unfold comboOk
          rw [hinv]
          exact hcond)]
        rfl
      | false =>
        show (survLoop k mm need req surv n f (combStep n k comb) none).2 = _
        rw [List.find?_cons_of_neg _ (by
          intro hx
          unfold comboOk at hx
          rw [hinv] at hx
          have hx2 : (!req || isContainedIn need (selShards surv comb)) = true := hx
          rw [hcond] at hx2
          exact Bool.false_ne_true hx2)]
        exact ih _ _
    | error e =>
      show (survLoop k mm need req surv n f (combStep n k comb) (some e)).2 = _
      rw [List.find?_cons_of_neg _ (by
        intro hx
        unfold comboOk at hx
        rw [hinv] at hx
        have hx2 : (false : Bool) = true := hx
        exact Bool.false_ne_true hx2)]
      exact ih _ _
/-- C4 (amended): for a non-LRC encoder with a nonempty failure set and
enough survivors, when the enumeration loop finds a first acceptable
combination (in the order visited by `combStep`, i.e. lexicographic),
`GetSurvivalShards` returns its shard indices as `select_shards`, and as
`read_shards` only in the multi-failure case — with a single failure the
returned `read_shards` is EMPTY, because the read set is only filled on
the AzureLRC+1 branch. -/
theorem GetSurvivalShards_first_invertible (r : reedSolomon) (badIndex : List Nat)
    (azLayout : List (List Nat)) (comb : List Nat)
    (hkind : r.kind ≠ MatrixKind.azureLrcP1)
    (hne : badIndex.length ≠ 0)
    (henough : ¬(r.Shards - badIndex.length < r.DataShards))
    (hfound : ((combOrbit ((List.range r.Shards).filter fun i =>
          !(badIndex.contains i)).length r.DataShards
        (Nat.choose ((List.range r.Shards).filter fun i =>
          !(badIndex.contains i)).length r.DataShards)
        (List.range r.DataShards)).find?
        (comboOk r.DataShards r.m [] false
          ((List.range r.Shards).filter fun i => !(badIndex.contains i))))
        = some comb) :
    GetSurvivalShards r badIndex azLayout =
      (none, selShards ((List.range r.Shards).filter fun i =>
          !(badIndex.contains i)) comb,
        if badIndex.length = 1 then []
        else selShards ((List.range r.Shards).filter fun i =>
          !(badIndex.contains i)) comb) := by
  unfold GetSurvivalShards
  rw [if_neg hne, if_neg henough,
    if_neg (fun hc => hkind hc.2 : ¬(badIndex.length = 1 ∧ r.kind = .azureLrcP1)),
    decide_eq_false hkind, Bool.and_false]
  have hmain := survLoop_finds_first r.DataShards r.m [] false
    ((List.range r.Shards).filter fun i => !(badIndex.contains i))
    ((List.range r.Shards).filter fun i => !(badIndex.contains i)).length
    (Nat.choose ((List.range r.Shards).filter fun i =>
      !(badIndex.contains i)).length r.DataShards)
    (List.range r.DataShards) none
  rw [hfound] at hmain
  rcases hsl : survLoop r.DataShards r.m [] false
      ((List.range r.Shards).filter fun i => !(badIndex.contains i))
      ((List.range r.Shards).filter fun i => !(badIndex.contains i)).length
      (Nat.choose ((List.range r.Shards).filter fun i =>
        !(badIndex.contains i)).length r.DataShards)
      (List.range r.DataShards) none with ⟨err, osel⟩
  rw [hsl] at hmain
  have hosel : osel = some (selShards ((List.range r.Shards).filter fun i =>
      !(badIndex.contains i)) comb) := hmain
  simp only
  rw [hsl, hosel]
  show (if badIndex.length = 1
      then ((none : Option RSError), selShards ((List.range r.Shards).filter fun i =>
        !(badIndex.contains i)) comb, ([] : List Nat))
      else (none, selShards ((List.range r.Shards).filter fun i =>
        !(badIndex.contains i)) comb, selShards ((List.range r.Shards).filter fun i =>
        !(badIndex.contains i)) comb)) = _
  by_cases h1 : badIndex.length = 1
  · rw [if_pos h1, if_pos h1]
  · rw [if_neg h1, if_neg h1]

/-- C4 counterexample: a non-LRC encoder with a SINGLE failure. A
decodable combination exists and is selected (`select_shards = [1, 2]`),
but `read_shards` comes back empty rather than equal to `select_shards`:
`forComputationShards` is only filled on the AzureLRC+1 branch. -/
theorem GetSurvivalShards_single_read_empty :
    GetSurvivalShards ⟨2, 1, [[1, 0], [0, 1], [gfByte 3, gfByte 2]], .defaultMatrix⟩
      [0] [] = (none, [1, 2], []) ∧ ([1, 2] : List Nat) ≠ [] :=
  ⟨rfl, by decide⟩

theorem GetSurvivalShards_first_invertible_witness :
    GetSurvivalShards ⟨2, 1, [[1, 0], [0, 1], [gfByte 3, gfByte 2]], .defaultMatrix⟩
      [0] [] =
      (none,
        selShards ((List.range
          (reedSolomon.Shards ⟨2, 1, [[1, 0], [0, 1], [gfByte 3, gfByte 2]],
            .defaultMatrix⟩)).filter fun i => !(List.contains [0] i)) [0, 1],
        if List.length [0] = 1 then []
        else selShards ((List.range
          (reedSolomon.Shards ⟨2, 1, [[1, 0], [0, 1], [gfByte 3, gfByte 2]],
            .defaultMatrix⟩)).filter fun i => !(List.contains [0] i)) [0, 1]) :=
  GetSurvivalShards_first_invertible
    ⟨2, 1, [[1, 0], [0, 1], [gfByte 3, gfByte 2]], .defaultMatrix⟩ [0] [] [0, 1]
    (by decide) (by decide) (by decide) (by rfl)

theorem gfSum_mul_left (c : GF) (l : List GF) :
    c * gfSum l = gfSum (l.map fun a => c * a) := by
  induction l with
  | nil => show c * 0 = 0; rw [mul_zero]
  | cons a t ih =>
    show c * (a + gfSum t) = c * a + gfSum (t.map fun a => c * a)
    rw [mul_add, ih]

theorem rowD_mem {A : Mat} {i : Nat} (hi : i < A.length) :
    A.getD i [] ∈ A := getD_mem A [] hi

theorem entry_set_self {A : Mat} {k : Nat} (row : List GF) (j : Nat)
    (hk : k < A.length) : entry (A.set k row) k j = row.getD j 0 := by
  unfold entry
  rw [getD_set_self _ _ _ hk]

theorem entry_set_ne {A : Mat} {k i : Nat} (row : List GF) (j : Nat)
    (h : k ≠ i) : entry (A.set k row) i j = entry A i j := by
  unfold entry
  rw [getD_set_ne _ _ _ h]

theorem swapRows_row {A : Mat} {k r : Nat} (hk : k < A.length) (hr : r < A.length)
    (i : Nat) : (swapRows A k r).getD i [] =
      A.getD (if i = r then k else if i = k then r else i) [] := by
  unfold swapRows
  by_cases hir : i = r
  · subst hir
    rw [if_pos rfl, getD_set_self _ _ _ (by rw [List.length_set]; omega)]
  · rw [if_neg hir, getD_set_ne _ _ _ (fun h0 => hir h0.symm)]
    by_cases hik : i = k
    · subst hik
      rw [if_pos rfl, getD_set_self _ _ _ hk]
    · rw [if_neg hik, getD_set_ne _ _ _ (fun h0 => hik h0.symm)]

theorem entry_swapRows {A : Mat} {k r : Nat} (hk : k < A.length) (hr : r < A.length)
    (i j : Nat) : entry (swapRows A k r) i j =
      entry A (if i = r then k else if i = k then r else i) j := by
  unfold entry
  rw [swapRows_row hk hr]

theorem scaleRow_length (c : GF) (row : List GF) :
    (scaleRow c row).length = row.length := by
  unfold scaleRow
  rw [List.length_map]

theorem scaleRow_getD (c : GF) (row : List GF) {j : Nat} (hj : j < row.length) :
    (scaleRow c row).getD j 0 = c * row.getD j 0 := by
  unfold scaleRow
  rw [getD_map _ _ 0 _ hj]

theorem elimOthers_row (k : Nat) (P : Mat) (f : Nat → GF) (pivot : List GF)
    {i : Nat} (hi : i < P.length) :
    (elimOthers k P f pivot).getD i [] =
      if i = k then P.getD i []
      else List.zipWith (fun a b => a + f i * b) (P.getD i []) pivot := by
  unfold elimOthers
  rw [getD_map_range _ _ hi]

theorem entry_elimOthers (k : Nat) (P : Mat) (f : Nat → GF) (pivot : List GF)
    {i j : Nat} (hi : i < P.length) (hj1 : j < (P.getD i []).length)
    (hj2 : j < pivot.length) :
    entry (elimOthers k P f pivot) i j =
      if i = k then entry P i j
      else entry P i j + f i * pivot.getD j 0 := by
  unfold entry
  rw [elimOthers_row k P f pivot hi]
  by_cases hik : i = k
  · rw [if_pos hik, if_pos hik]
  · rw [if_neg hik, if_neg hik,
      getD_zipWith _ _ _ 0 0 0 hj1 hj2]

theorem matVec_row_eq {A B : Mat} {i i2 n : Nat} (x : Nat → GF)
    (h : ∀ j, j < n → entry A i j = entry B i2 j) :
    matVec A x n i = matVec B x n i2 := by
  unfold matVec
  apply congrArg gfSum
  apply List.map_congr_left
  intro j hj
  rw [h j (List.mem_range.mp hj)]

theorem matVec_row_smul {A B : Mat} {i i2 n : Nat} (c : GF) (x : Nat → GF)
    (h : ∀ j, j < n → entry A i j = c * entry B i2 j) :
    matVec A x n i = c * matVec B x n i2 := by
  unfold matVec
  rw [gfSum_mul_left, List.map_map]
  apply congrArg gfSum
  apply List.map_congr_left
  intro j hj
  show entry A i j * x j = c * (entry B i2 j * x j)
  rw [h j (List.mem_range.mp hj)]
  ring

theorem matVec_row_add {A B : Mat} {i i1 i2 n : Nat} (c : GF) (x : Nat → GF)
    (h : ∀ j, j < n → entry A i j = entry B i1 j + c * entry B i2 j) :
    matVec A x n i = matVec B x n i1 + c * matVec B x n i2 := by
  unfold matVec
  rw [gfSum_mul_left, List.map_map, ← gfSum_map_add]
  apply congrArg gfSum
  apply List.map_congr_left
  intro j hj
  show entry A i j * x j = entry B i1 j * x j + c * (entry B i2 j * x j)
  rw [h j (List.mem_range.mp hj)]
  ring

theorem matDims_swap {A : Mat} {n k r : Nat} (hd : matDims A n) (hk : k < n)
    (hr : r < n) : matDims (swapRows A k r) n := by
  refine ⟨by rw [swapRows_length]; exact hd.1, ?_⟩
  intro i hi
  rw [swapRows_row (hd.1 ▸ hk) (hd.1 ▸ hr)]
  by_cases h1 : i = r
  · rw [if_pos h1]; exact hd.2 k hk
  · rw [if_neg h1]
    by_cases h2 : i = k
    · rw [if_pos h2]; exact hd.2 r hr
    · rw [if_neg h2]; exact hd.2 i hi

theorem matDims_set_scale {A : Mat} {n k : Nat} (c : GF) (hd : matDims A n)
    (hk : k < n) : matDims (A.set k (scaleRow c (A.getD k []))) n := by
  refine ⟨by rw [List.length_set]; exact hd.1, ?_⟩
  intro i hi
  by_cases hik : i = k
  · subst hik
    rw [getD_set_self _ _ _ (hd.1 ▸ hk), scaleRow_length]
    exact hd.2 i hi
  · rw [getD_set_ne _ _ _ (Ne.symm hik)]
    exact hd.2 i hi

theorem matDims_elim {P : Mat} {n k : Nat} (f : Nat → GF) (hd : matDims P n)
    (hpl : (P.getD k []).length = n) :
    matDims (elimOthers k P f (P.getD k [])) n := by
  refine ⟨by rw [elimOthers_length]; exact hd.1, ?_⟩
  intro i hi
  rw [elimOthers_row _ _ _ _ (hd.1 ▸ hi)]
  by_cases hik : i = k
  · rw [if_pos hik]; exact hd.2 i hi
  · rw [if_neg hik, List.length_zipWith, hd.2 i hi, hpl, Nat.min_self]

theorem gjStep_ops_preserve (n k r : Nat) (A L R : Mat)
    (hk : k < n) (hrk : k ≤ r) (hrn : r < n) (hpiv : entry L r k ≠ 0)
    (hinv : GJInv n A L R k)
    (L1 R1 L2' R2' L2 R2 : Mat) (p : GF)
    (hL1 : L1 = swapRows L k r) (hR1 : R1 = swapRows R k r)
    (hp : p = (entry L1 k k)⁻¹)
    (hL2' : L2' = L1.set k (scaleRow p (L1.getD k [])))
    (hR2' : R2' = R1.set k (scaleRow p (R1.getD k [])))
    (hL2 : L2 = elimOthers k L2' (fun i => entry L2' i k) (L2'.getD k []))
    (hR2 : R2 = elimOthers k R2' (fun i => entry L2' i k) (R2'.getD k [])) :
    GJInv n A L2 R2 (k + 1) := by
  obtain ⟨hdL, hdR, hrel, hid⟩ := hinv
  have hdL1 : matDims L1 n := hL1 ▸ matDims_swap hdL hk hrn
  have hdR1 : matDims R1 n := hR1 ▸ matDims_swap hdR hk hrn
  have hL1row : ∀ i j, entry L1 i j =
      entry L (if i = r then k else if i = k then r else i) j := fun i j => by
    rw [hL1]; exact entry_swapRows (hdL.1 ▸ hk) (hdL.1 ▸ hrn) i j
  have hR1row : ∀ i j, entry R1 i j =
      entry R (if i = r then k else if i = k then r else i) j := fun i j => by
    rw [hR1]; exact entry_swapRows (hdR.1 ▸ hk) (hdR.1 ▸ hrn) i j
  have hL1pivot : entry L1 k k = entry L r k := by
    rw [hL1row k k]
    by_cases hkr2 : k = r
    · rw [if_pos hkr2, hkr2]
    · rw [if_neg hkr2, if_pos rfl]
  have hp0 : entry L1 k k ≠ 0 := by rw [hL1pivot]; exact hpiv
  have hdL2' : matDims L2' n := hL2' ▸ matDims_set_scale p hdL1 hk
  have hdR2' : matDims R2' n := hR2' ▸ matDims_set_scale p hdR1 hk
  have hL2'k : ∀ j, j < n → entry L2' k j = p * entry L1 k j := by
    intro j hj
    rw [hL2', entry_set_self _ _ (hdL1.1 ▸ hk),
      scaleRow_getD _ _ (by rw [hdL1.2 k hk]; exact hj)]
    rfl
  have hR2'k : ∀ j, j < n → entry R2' k j = p * entry R1 k j := by
    intro j hj
    rw [hR2', entry_set_self _ _ (hdR1.1 ▸ hk),
      scaleRow_getD _ _ (by rw [hdR1.2 k hk]; exact hj)]
    rfl
  have hL2'ne : ∀ i j, i ≠ k → entry L2' i j = entry L1 i j := by
    intro i j hik
    rw [hL2', entry_set_ne _ _ (Ne.symm hik)]
  have hR2'ne : ∀ i j, i ≠ k → entry R2' i j = entry R1 i j := by
    intro i j hik
    rw [hR2', entry_set_ne _ _ (Ne.symm hik)]
  have hL2'kk : entry L2' k k = 1 := by
    rw [hL2'k k hk, hp]
    exact inv_mul_cancel₀ hp0
  have hplen : (L2'.getD k []).length = n := hdL2'.2 k hk
  have hplenR : (R2'.getD k []).length = n := hdR2'.2 k hk
  have hdL2f : matDims L2 n := hL2 ▸ matDims_elim _ hdL2' hplen
  have hdR2f : matDims R2 n := hR2 ▸ matDims_elim _ hdR2' hplenR
  have hL2row : ∀ i j, i < n → j < n → entry L2 i j =
      if i = k then entry L2' i j
      else entry L2' i j + entry L2' i k * entry L2' k j := by
    intro i j hi hj
    rw [hL2, entry_elimOthers _ _ _ _ (hdL2'.1 ▸ hi)
      (by rw [hdL2'.2 i hi]; exact hj) (by rw [hplen]; exact hj)]
    rfl
  have hR2row : ∀ i j, i < n → j < n → entry R2 i j =
      if i = k then entry R2' i j
      else entry R2' i j + entry L2' i k * entry R2' k j := by
    intro i j hi hj
    rw [hR2, entry_elimOthers _ _ _ _ (hdR2'.1 ▸ hi)
      (by rw [hdR2'.2 i hi]; exact hj) (by rw [hplenR]; exact hj)]
    rfl
  have hσlt : ∀ i, i < n → (if i = r then k else if i = k then r else i) < n := by
    intro i hi
    by_cases h1 : i = r
    · rw [if_pos h1]; omega
    · rw [if_neg h1]
      by_cases h2 : i = k
      · rw [if_pos h2]; omega
      · rw [if_neg h2]; omega
  have hrel1 : ∀ i j, i < n → j < n →
      entry L1 i j = matVec R1 (fun t => entry A t j) n i := by
    intro i j hi hj
    rw [hL1row i j]
    have h2 := hrel _ j (hσlt i hi) hj
    rw [h2]
    show matVec R (fun t => entry A t j) n _ = _
    exact (matVec_row_eq _ (fun t _ => hR1row i t)).symm
  have hrel2 : ∀ i j, i < n → j < n →
      entry L2' i j = matVec R2' (fun t => entry A t j) n i := by
    intro i j hi hj
    by_cases hik : i = k
    · subst hik
      rw [hL2'k j hj, hrel1 i j hi hj,
        matVec_row_smul p (fun t => entry A t j) (fun t ht => hR2'k t ht)]
    · rw [hL2'ne i j hik, hrel1 i j hi hj,
        matVec_row_eq (fun t => entry A t j) (fun t _ => hR2'ne i t hik)]
  have hrel3 : ∀ i j, i < n → j < n →
      entry L2 i j = matVec R2 (fun t => entry A t j) n i := by
    intro i j hi hj
    rw [hL2row i j hi hj]
    by_cases hik : i = k
    · rw [if_pos hik]
      subst hik
      rw [hrel2 i j hi hj]
      exact (matVec_row_eq _ (fun t ht => by
        rw [hR2row i t hi ht, if_pos rfl])).symm
    · rw [if_neg hik, hrel2 i j hi hj, hrel2 k j hk hj]
      have := @matVec_row_add R2 R2' i i k n (entry L2' i k)
        (fun t => entry A t j)
        (fun t ht => by rw [hR2row i t hi ht, if_neg hik])
      rw [this]
  refine ⟨hdL2f, hdR2f, fun i j hi hj => hrel3 i j hi hj, ?_⟩
  intro j hj i hi
  by_cases hjk : j = k
  · subst hjk
    rw [hL2row i j hi hk]
    by_cases hik : i = j
    · rw [if_pos hik, if_pos hik]
      subst hik
      exact hL2'kk
    · rw [if_neg hik, if_neg hik, hL2'kk, mul_one, GF_add_self]
  · have hjk2 : j < k := by omega
    have hkj : ¬ (k = j) := by omega
    have hidL1 : ∀ i2, i2 < n → entry L1 i2 j = if i2 = j then 1 else 0 := by
      intro i2 hi2
      rw [hL1row i2 j, hid j hjk2 _ (hσlt i2 hi2)]
      by_cases h1 : i2 = r
      · rw [if_pos h1]
        rw [if_neg hkj, if_neg (by omega)]
      · rw [if_neg h1]
        by_cases h2 : i2 = k
        · rw [if_pos h2]
          rw [if_neg (by omega), if_neg (by omega)]
        · rw [if_neg h2]
    have hidL2' : ∀ i2, i2 < n → entry L2' i2 j = if i2 = j then 1 else 0 := by
      intro i2 hi2
      by_cases hik : i2 = k
      · subst hik
        rw [hL2'k j (by omega), hidL1 i2 hi2]
        rw [if_neg (by omega), mul_zero]
      · rw [hL2'ne i2 j hik]
        exact hidL1 i2 hi2
    rw [hL2row i j hi (by omega)]
    by_cases hik : i = k
    · rw [if_pos hik]
      exact hidL2' i hi
    · rw [if_neg hik, hidL2' i hi, hidL2' k hk,
        if_neg hkj, mul_zero, add_zero]

theorem gjStep_some_spec {k : Nat} {L R L2 R2 : Mat}
    (hstep : gjStep k L R = some (L2, R2)) :
    ∃ r, k ≤ r ∧ r < L.length ∧ entry L r k ≠ 0 ∧
      L2 = elimOthers k
        ((swapRows L k r).set k (scaleRow (entry (swapRows L k r) k k)⁻¹
          ((swapRows L k r).getD k [])))
        (fun i => entry ((swapRows L k r).set k
          (scaleRow (entry (swapRows L k r) k k)⁻¹
            ((swapRows L k r).getD k []))) i k)
        (((swapRows L k r).set k (scaleRow (entry (swapRows L k r) k k)⁻¹
          ((swapRows L k r).getD k []))).getD k []) ∧
      R2 = elimOthers k
        ((swapRows R k r).set k (scaleRow (entry (swapRows L k r) k k)⁻¹
          ((swapRows R k r).getD k [])))
        (fun i => entry ((swapRows L k r).set k
          (scaleRow (entry (swapRows L k r) k k)⁻¹
            ((swapRows L k r).getD k []))) i k)
        (((swapRows R k r).set k (scaleRow (entry (swapRows L k r) k k)⁻¹
          ((swapRows R k r).getD k []))).getD k []) := by
  unfold gjStep at hstep
  cases hfind : (List.range' k (L.length - k)).find?
      (fun r => decide (entry L r k ≠ 0)) with
  | none => rw [hfind] at hstep; cases hstep
  | some r =>
    rw [hfind] at hstep
    have hm := List.mem_range'_1.mp (List.mem_of_find?_eq_some hfind)
    have hfs := List.find?_some hfind
    have hpv : entry L r k ≠ 0 := of_decide_eq_true (by exact hfs)
    have hp2 := Prod.mk.injEq .. ▸ Option.some.inj hstep
    exact ⟨r, hm.1, by omega, hpv, hp2.1.symm, hp2.2.symm⟩

theorem gjStep_preserves {n k : Nat} {A L R L2 R2 : Mat} (hk : k < n)
    (hinv : GJInv n A L R k) (hstep : gjStep k L R = some (L2, R2)) :
    GJInv n A L2 R2 (k + 1) := by
  obtain ⟨r, hkr, hrL, hpiv, hL2, hR2⟩ := gjStep_some_spec hstep
  exact gjStep_ops_preserve n k r A L R hk hkr (by rw [← hinv.1.1]; exact hrL)
    hpiv hinv _ _ _ _ _ _ _ rfl rfl rfl rfl rfl hL2 hR2

theorem gfSum_map_zero {α : Type} (l : List α) :
    gfSum (l.map fun _ => (0 : GF)) = 0 := by
  induction l with
  | nil => rfl
  | cons a t ih =>
    show (0 : GF) + gfSum (t.map fun _ => (0 : GF)) = 0
    rw [ih, add_zero]

theorem gfSum_congr_zero {α : Type} (l : List α) (f : α → GF)
    (h : ∀ x ∈ l, f x = 0) : gfSum (l.map f) = 0 := by
  rw [List.map_congr_left h, gfSum_map_zero]

theorem gfSum_range_delta (n i : Nat) (hi : i < n) (g : Nat → GF) :
    gfSum ((List.range n).map fun t => (if i = t then 1 else 0) * g t) = g i := by
  induction n with
  | zero => omega
  | succ m ih =>
    rw [List.range_succ, List.map_append, gfSum_append]
    by_cases him : i = m
    · subst him
      rw [gfSum_congr_zero _ _ (by
          intro t ht
          rw [if_neg (by have := List.mem_range.mp ht; omega), zero_mul]),
        zero_add]
      show (if i = i then 1 else 0) * g i + 0 = g i
      rw [if_pos rfl, one_mul, add_zero]
    · rw [ih (by omega)]
      show g i + ((if i = m then 1 else 0) * g m + 0) = g i
      rw [if_neg him, zero_mul, zero_add, add_zero]

theorem entry_identityM {n i j : Nat} (hi : i < n) (hj : j < n) :
    entry (identityM n) i j = if i = j then 1 else 0 := by
  unfold entry identityM
  rw [getD_map_range _ _ hi, getD_map_range _ _ hj]

theorem matDims_identityM (n : Nat) : matDims (identityM n) n := by
  refine ⟨by rw [identityM_length], ?_⟩
  intro i hi
  unfold identityM
  rw [getD_map_range _ _ hi, List.length_map, List.length_range]

theorem GJInv_init {A : Mat} {n : Nat} (hd : matDims A n) :
    GJInv n A A (identityM n) 0 := by
  refine ⟨hd, matDims_identityM n, ?_, fun j hj => by omega⟩
  intro i j hi hj
  rw [← gfSum_range_delta n i hi (fun t => entry A t j)]
  apply congrArg gfSum
  apply List.map_congr_left
  intro t ht
  rw [entry_identityM hi (List.mem_range.mp ht)]

theorem gjRun_inverse (n : Nat) (A : Mat) :
    ∀ (fuel k : Nat) (L R Rf : Mat), k + fuel = n → GJInv n A L R k →
    gjRun fuel k L R = some Rf →
    matDims Rf n ∧ ∀ i j, i < n → j < n →
      gfSum ((List.range n).map fun t => entry Rf i t * entry A t j) =
        if i = j then 1 else 0 := by
  intro fuel
  induction fuel with
  | zero =>
    intro k L R Rf hkn hinv hrun
    have hR : R = Rf := Option.some.inj hrun
    subst hR
    obtain ⟨hdL, hdR, hrel, hid⟩ := hinv
    refine ⟨hdR, ?_⟩
    intro i j hi hj
    rw [← hrel i j hi hj, hid j (by omega) i hi]
  | succ f ih =>
    intro k L R Rf hkn hinv hrun
    unfold gjRun at hrun
    cases hs : gjStep k L R with
    | none => rw [hs] at hrun; cases hrun
    | some P =>
      rw [hs] at hrun
      exact ih (k + 1) P.1 P.2 Rf (by omega)
        (gjStep_preserves (by omega) hinv (by rw [hs])) hrun

theorem matInvert_ok_inverse {A R : Mat} {n : Nat} (hd : matDims A n)
    (hok : matInvert A = .ok R) :
    matDims R n ∧ ∀ i j, i < n → j < n →
      gfSum ((List.range n).map fun t => entry R i t * entry A t j) =
        if i = j then 1 else 0 := by
  unfold matInvert at hok
  cases hg : gjRun A.length 0 A (identityM A.length) with
  | none => rw [hg] at hok; cases hok
  | some R2 =>
    rw [hg] at hok
    cases hok
    rw [hd.1] at hg
    exact gjRun_inverse n A n 0 A (identityM n) R (by omega) (GJInv_init hd) hg

theorem gjStep_ops_kernel (n k r : Nat) (L : Mat) (x : Nat → GF)
    (hk : k < n) (hrn : r < n) (hpiv : entry L r k ≠ 0)
    (hdL : matDims L n)
    (L1 L2' L2 : Mat) (p : GF)
    (hL1 : L1 = swapRows L k r)
    (hp : p = (entry L1 k k)⁻¹)
    (hL2' : L2' = L1.set k (scaleRow p (L1.getD k [])))
    (hL2 : L2 = elimOthers k L2' (fun i => entry L2' i k) (L2'.getD k []))
    (hker : ∀ i, i < n → matVec L2 x n i = 0) :
    ∀ i, i < n → matVec L x n i = 0 := by
  have hdL1 : matDims L1 n := hL1 ▸ matDims_swap hdL hk hrn
  have hL1row : ∀ i j, entry L1 i j =
      entry L (if i = r then k else if i = k then r else i) j := fun i j => by
    rw [hL1]; exact entry_swapRows (hdL.1 ▸ hk) (hdL.1 ▸ hrn) i j
  have hL1pivot : entry L1 k k = entry L r k := by
    rw [hL1row k k]
    by_cases hkr2 : k = r
    · rw [if_pos hkr2, hkr2]
    · rw [if_neg hkr2, if_pos rfl]
  have hp0 : entry L1 k k ≠ 0 := by rw [hL1pivot]; exact hpiv
  have hpne : p ≠ 0 := by rw [hp]; exact inv_ne_zero hp0
  have hdL2' : matDims L2' n := hL2' ▸ matDims_set_scale p hdL1 hk
  have hL2'k : ∀ j, j < n → entry L2' k j = p * entry L1 k j := by
    intro j hj
    rw [hL2', entry_set_self _ _ (hdL1.1 ▸ hk),
      scaleRow_getD _ _ (by rw [hdL1.2 k hk]; exact hj)]
    rfl
  have hL2'ne : ∀ i j, i ≠ k → entry L2' i j = entry L1 i j := by
    intro i j hik
    rw [hL2', entry_set_ne _ _ (Ne.symm hik)]
  have hplen : (L2'.getD k []).length = n := hdL2'.2 k hk
  have hL2row : ∀ i j, i < n → j < n → entry L2 i j =
      if i = k then entry L2' i j
      else entry L2' i j + entry L2' i k * entry L2' k j := by
    intro i j hi hj
    rw [hL2, entry_elimOthers _ _ _ _ (hdL2'.1 ▸ hi)
      (by rw [hdL2'.2 i hi]; exact hj) (by rw [hplen]; exact hj)]
    rfl
  have hker2' : ∀ i, i < n → matVec L2' x n i = 0 := by
    intro i hi
    by_cases hik : i = k
    · subst hik
      rw [matVec_row_eq x (fun j hj => by
        rw [hL2row i j hi hj, if_pos rfl] : ∀ j, j < n →
          entry L2' i j = entry L2 i j)]
      exact hker i hi
    · rw [matVec_row_add (entry L2' i k) x (fun j hj => by
        rw [hL2row i j hi hj, if_neg hik, hL2row k j hk hj, if_pos rfl,
          add_assoc, GF_add_self, add_zero] : ∀ j, j < n →
          entry L2' i j = entry L2 i j + entry L2' i k * entry L2 k j)]
      rw [hker i hi, zero_add]
      have hkk : matVec L2 x n k = 0 := hker k hk
      rw [hkk, mul_zero]
  have hker1 : ∀ i, i < n → matVec L1 x n i = 0 := by
    intro i hi
    by_cases hik : i = k
    · subst hik
      rw [matVec_row_smul p⁻¹ x (fun j hj => by
        rw [hL2'k j hj, inv_mul_cancel_left₀ hpne] : ∀ j, j < n →
          entry L1 i j = p⁻¹ * entry L2' i j)]
      rw [hker2' i hi, mul_zero]
    · rw [matVec_row_eq x (fun j _ => (hL2'ne i j hik).symm : ∀ j, j < n →
        entry L1 i j = entry L2' i j)]
      exact hker2' i hi
  intro i hi
  have hτlt : (if i = r then k else if i = k then r else i) < n := by
    by_cases h1 : i = r
    · rw [if_pos h1]; omega
    · rw [if_neg h1]
      by_cases h2 : i = k
      · rw [if_pos h2]; omega
      · rw [if_neg h2]; omega
  rw [matVec_row_eq x (fun j _ => by
    rw [hL1row]
    congr 1
    split_ifs <;> omega : ∀ j, j < n →
      entry L i j = entry L1 (if i = r then k else if i = k then r else i) j)]
  exact hker1 _ hτlt

theorem gjStep_kernel {n k : Nat} {L R L2 R2 : Mat} (x : Nat → GF) (hk : k < n)
    (hdL : matDims L n) (hstep : gjStep k L R = some (L2, R2))
    (hker : ∀ i, i < n → matVec L2 x n i = 0) :
    ∀ i, i < n → matVec L x n i = 0 := by
  obtain ⟨r, hkr, hrL, hpiv, hL2, hR2⟩ := gjStep_some_spec hstep
  exact gjStep_ops_kernel n k r L x hk (by rw [← hdL.1]; exact hrL) hpiv hdL
    _ _ _ _ rfl rfl rfl hL2 hker

theorem gfSum_range_split (n m : Nat) (h : m ≤ n) (f : Nat → GF) :
    gfSum ((List.range n).map f) =
      gfSum ((List.range m).map f) + gfSum (((List.range n).drop m).map f) := by
  conv_lhs => rw [← List.take_append_drop m (List.range n)]
  rw [List.map_append, gfSum_append, List.take_range, Nat.min_eq_left h]

theorem gjStep_none_kernel {n k : Nat} {A L R : Mat} (hk : k < n)
    (hinv : GJInv n A L R k) (hfail : gjStep k L R = none) :
    ∀ i, i < n → matVec L
      (fun j => if j = k then 1 else if j < k then entry L j k else 0) n i = 0 := by
  obtain ⟨hdL, hdR, hrel, hid⟩ := hinv
  have hLn : L.length = n := hdL.1
  have hnopiv : ∀ i, k ≤ i → i < n → entry L i k = 0 := by
    intro i hki hin
    unfold gjStep at hfail
    cases hfind : (List.range' k (L.length - k)).find?
        (fun r => decide (entry L r k ≠ 0)) with
    | some r => rw [hfind] at hfail; cases hfail
    | none =>
      have hall := List.find?_eq_none.mp hfind i
        (List.mem_range'_1.mpr ⟨hki, by omega⟩)
      by_contra hne
      exact hall (decide_eq_true hne)
  intro i hi
  unfold matVec
  show gfSum ((List.range n).map fun j => entry L i j *
    (if j = k then 1 else if j < k then entry L j k else 0)) = 0
  rw [gfSum_range_split n (k + 1) (by omega)]
  rw [gfSum_congr_zero (((List.range n).drop (k + 1))) _ (by
    intro j hjm
    have hjge : k + 1 ≤ j := by
      obtain ⟨idx, hidx, hjeq⟩ := List.mem_iff_getElem.mp hjm
      rw [List.getElem_drop, List.getElem_range] at hjeq
      omega
    rw [if_neg (by omega), if_neg (by omega), mul_zero]), add_zero]
  rw [List.range_succ, List.map_append, gfSum_append]
  have hkterm : gfSum ([k].map fun j => entry L i j *
      (if j = k then 1 else if j < k then entry L j k else 0)) = entry L i k := by
    show entry L i k * (if k = k then 1 else _) + 0 = entry L i k
    rw [if_pos rfl, mul_one, add_zero]
  rw [hkterm]
  by_cases hik : i < k
  · have hfront : gfSum ((List.range k).map fun j => entry L i j *
        (if j = k then 1 else if j < k then entry L j k else 0)) = entry L i k := by
      rw [List.map_congr_left (by
        intro j hjm
        have hjk := List.mem_range.mp hjm
        rw [if_neg (by omega), if_pos hjk, hid j hjk i hi] :
        ∀ j ∈ List.range k, entry L i j *
          (if j = k then 1 else if j < k then entry L j k else 0) =
          (if i = j then 1 else 0) * entry L j k)]
      exact gfSum_range_delta k i hik _
    rw [hfront, GF_add_self]
  · have hfront : gfSum ((List.range k).map fun j => entry L i j *
        (if j = k then 1 else if j < k then entry L j k else 0)) = 0 := by
      apply gfSum_congr_zero
      intro j hjm
      have hjk := List.mem_range.mp hjm
      rw [hid j hjk i hi, if_neg (by omega), zero_mul]
    rw [hfront, zero_add, hnopiv i (by omega) hi]

theorem gjRun_none_kernel (n : Nat) (A : Mat) :
    ∀ (fuel k : Nat) (L R : Mat), k + fuel = n → GJInv n A L R k →
    gjRun fuel k L R = none →
    ∃ x : Nat → GF, (∃ j, j < n ∧ x j = 1) ∧ ∀ i, i < n → matVec L x n i = 0 := by
  intro fuel
  induction fuel with
  | zero => intro k L R _ _ hrun; cases hrun
  | succ f ih =>
    intro k L R hkn hinv hrun
    unfold gjRun at hrun
    cases hs : gjStep k L R with
    | none =>
      refine ⟨fun j => if j = k then 1 else if j < k then entry L j k else 0,
        ⟨k, by omega, if_pos rfl⟩, ?_⟩
      exact gjStep_none_kernel (by omega) hinv hs
    | some P =>
      obtain ⟨L2, R2⟩ := P
      rw [hs] at hrun
      obtain ⟨x, hx1, hker⟩ := ih (k + 1) L2 R2 (by omega)
        (gjStep_preserves (by omega) hinv hs) hrun
      exact ⟨x, hx1, gjStep_kernel x (by omega) hinv.1 hs hker⟩

theorem matInvert_ok_of_injective {A : Mat} {n : Nat} (hd : matDims A n)
    (hinj : ∀ x : Nat → GF, (∀ i, i < n → matVec A x n i = 0) →
      ∀ j, j < n → x j = 0) :
    ∃ R2, matInvert A = .ok R2 := by
  unfold matInvert
  cases hg : gjRun A.length 0 A (identityM A.length) with
  | some R2 => exact ⟨R2, rfl⟩
  | none =>
    exfalso
    rw [hd.1] at hg
    obtain ⟨x, ⟨j, hj, hx1⟩, hker⟩ := gjRun_none_kernel n A n 0 A (identityM n)
      (by omega) (GJInv_init hd) hg
    rw [hinj x hker j hj] at hx1
    exact zero_ne_one hx1

theorem gfSum_range_finsum (n : Nat) (f : Nat → GF) :
    gfSum ((List.range n).map f) = ∑ j ∈ Finset.range n, f j := by
  induction n with
  | zero => rfl
  | succ m ih =>
    rw [List.range_succ, List.map_append, gfSum_append, ih,
      Finset.sum_range_succ]
    show _ + (f m + gfSum []) = _
    rw [gfSum_nil, add_zero]

theorem gfSum_range_finsum_fin (n : Nat) (f : Nat → GF) :
    gfSum ((List.range n).map f) = ∑ j : Fin n, f j.val := by
  rw [gfSum_range_finsum, ← Fin.sum_univ_eq_sum_range]

theorem toSq_mulVec (A : Mat) (n : Nat) (x : Nat → GF) (i : Fin n) :
    Matrix.mulVec (toSq A n) (fun j => x j.val) i = matVec A x n i.val := by
  show ∑ j : Fin n, entry A i.val j.val * x j.val = _
  unfold matVec
  rw [gfSum_range_finsum_fin]

theorem toSq_kernel_inj (A : Mat) (n : Nat)
    (hinj : ∀ x : Fin n → GF, Matrix.mulVec (toSq A n) x = 0 → x = 0) :
    ∀ x : Nat → GF, (∀ i, i < n → matVec A x n i = 0) → ∀ j, j < n → x j = 0 := by
  intro x hker j hj
  have h0 : (fun c : Fin n => x c.val) = 0 := by
    apply hinj
    funext i
    rw [toSq_mulVec]
    exact hker i.val i.isLt
  exact congrFun h0 ⟨j, hj⟩

theorem mulVec_inj_of_left_one {n : Nat} (A B : Matrix (Fin n) (Fin n) GF)
    (h : B * A = 1) : ∀ x, A.mulVec x = 0 → x = 0 := by
  intro x hx
  calc x = (1 : Matrix (Fin n) (Fin n) GF).mulVec x := (Matrix.one_mulVec x).symm
    _ = (B * A).mulVec x := by rw [h]
    _ = B.mulVec (A.mulVec x) := by rw [← Matrix.mulVec_mulVec]
    _ = B.mulVec 0 := by rw [hx]
    _ = 0 := Matrix.mulVec_zero B

theorem matInvert_toSq_one {A R : Mat} {n : Nat} (hd : matDims A n)
    (hok : matInvert A = .ok R) : toSq R n * toSq A n = 1 := by
  obtain ⟨hdR, hRA⟩ := matInvert_ok_inverse hd hok
  apply Matrix.ext
  intro i j
  rw [Matrix.mul_apply, Matrix.one_apply]
  have h2 := hRA i.val j.val i.isLt j.isLt
  rw [gfSum_range_finsum_fin] at h2
  show ∑ k : Fin n, entry R i.val k.val * entry A k.val j.val = _
  rw [h2]
  exact if_congr (Fin.val_eq_val i j) rfl rfl

theorem vandermonde_list_inj (d : Nat) (pts : Fin d → GF)
    (hinj : Function.Injective pts) (A : Mat)
    (hA : ∀ i j, (hi : i < d) → j < d → entry A i j = pts ⟨i, hi⟩ ^ j) :
    ∀ x : Nat → GF, (∀ i, i < d → matVec A x d i = 0) → ∀ j, j < d → x j = 0 := by
  apply toSq_kernel_inj
  have hEq : toSq A d = Matrix.vandermonde pts := by
    apply Matrix.ext
    intro i j
    show entry A i.val j.val = pts i ^ (j : ℕ)
    rw [hA i.val j.val i.isLt j.isLt]
  rw [hEq]
  intro x hx
  have hdet : (Matrix.vandermonde pts).det ≠ 0 :=
    Matrix.det_vandermonde_ne_zero_iff.mpr hinj
  exact mulVec_inj_of_left_one _ _
    (Matrix.nonsing_inv_mul _ (isUnit_iff_ne_zero.mpr hdet)) x hx

theorem vandermonde_length (rows cols : Nat) :
    (vandermonde rows cols).length = rows := by
  unfold vandermonde
  rw [length_map_range]

theorem vandermonde_row (rows cols : Nat) {i : Nat} (hi : i < rows) :
    (vandermonde rows cols).getD i [] = (List.range cols).map fun c => gfByte i ^ c := by
  unfold vandermonde
  rw [getD_map_range _ _ hi]

theorem entry_vandermonde (rows cols : Nat) {i j : Nat} (hi : i < rows)
    (hj : j < cols) : entry (vandermonde rows cols) i j = gfByte i ^ j := by
  unfold entry
  rw [vandermonde_row rows cols hi, getD_map_range _ _ hj]

theorem entry_SubMatrix00 (A : Mat) (d : Nat) {i j : Nat} (hi : i < d)
    (hi2 : i < A.length) (hj : j < d) :
    entry (SubMatrix A 0 0 d d) i j = entry A i j := by
  unfold SubMatrix entry
  simp only [Nat.sub_zero]
  rw [List.drop_zero,
    getD_map _ (A.take d) [] _ (by rw [List.length_take]; omega),
    getD_take _ _ hi, List.drop_zero, getD_take _ _ hj]

theorem SubMatrix00_length (A : Mat) (d : Nat) :
    (SubMatrix A 0 0 d d).length = min d A.length := by
  unfold SubMatrix
  simp only [Nat.sub_zero]
  rw [List.length_map, List.length_take, List.length_drop]
  omega

theorem matDims_top (d total : Nat) (hd0 : 0 < d) (hdt : d ≤ total) :
    matDims (SubMatrix (vandermonde total d) 0 0 d d) d := by
  constructor
  · rw [SubMatrix00_length, vandermonde_length]
    omega
  · intro i hi
    unfold SubMatrix
    simp only [Nat.sub_zero]
    rw [List.drop_zero,
      getD_map _ ((vandermonde total d).take d) [] _
        (by rw [List.length_take, vandermonde_length]; omega),
      getD_take _ _ hi, List.drop_zero, List.length_take,
      vandermonde_row total d (by omega), List.length_map, List.length_range]
    omega

theorem gfByte_inj {a b : Nat} (ha : a < 256) (hb : b < 256)
    (h : gfByte a = gfByte b) : a = b := by
  have hv := congrArg GF.val h
  show a = b
  have h1 : a % 256 = b % 256 := hv
  rw [Nat.mod_eq_of_lt ha, Nat.mod_eq_of_lt hb] at h1
  exact h1

theorem top_invert_ok (d total : Nat) (hd0 : 0 < d) (hdt : d ≤ total)
    (h256 : total ≤ 256) :
    ∃ T, matInvert (SubMatrix (vandermonde total d) 0 0 d d) = .ok T := by
  apply matInvert_ok_of_injective (matDims_top d total hd0 hdt)
  apply vandermonde_list_inj d (fun i : Fin d => gfByte i.val)
  · intro a b hab
    have := gfByte_inj (by omega) (by omega) hab
    exact Fin.val_inj.mp this
  · intro i j hi hj
    rw [entry_SubMatrix00 _ _ hi (by rw [vandermonde_length]; omega) hj,
      entry_vandermonde total d (by omega) hj]

theorem buildMatrix_ok (d total : Nat) (hd0 : 0 < d) (hdt : d ≤ total)
    (h256 : total ≤ 256) :
    ∃ m T, buildMatrix d total = .ok m ∧
      matInvert (SubMatrix (vandermonde total d) 0 0 d d) = .ok T ∧
      matDims T d ∧
      m.length = total ∧ (∀ i, i < total → (m.getD i []).length = d) ∧
      (∀ i c, i < total → c < d → entry m i c =
        gfSum ((List.range d).map fun t => gfByte i ^ t * entry T t c)) := by
  obtain ⟨T, hT⟩ := top_invert_ok d total hd0 hdt h256
  have hdT : matDims T d := (matInvert_ok_inverse (matDims_top d total hd0 hdt) hT).1
  have hvm0 : matCols (vandermonde total d) = d := by
    unfold matCols
    rw [vandermonde_row total d (by omega), List.length_map, List.length_range]
  have hTlen : T.length = d := hdT.1
  have hcols : matCols (vandermonde total d) = T.length := by omega
  obtain ⟨F, hF⟩ := matMultiply_ok_of_dims (vandermonde total d) T hcols
  refine ⟨F, T, ?_, hT, hdT, ?_, ?_, ?_⟩
  · unfold buildMatrix
    simp only
    rw [hT]
    show matMultiply (vandermonde total d) T = .ok F
    exact hF
  · unfold matMultiply at hF
    rw [if_neg (by omega)] at hF
    cases hF
    rw [List.length_map, vandermonde_length]
  · intro i hi
    unfold matMultiply at hF
    rw [if_neg (by omega)] at hF
    cases hF
    rw [getD_map _ _ [] _ (by rw [vandermonde_length]; omega),
      List.length_map, List.length_range]
    unfold matCols
    rw [hdT.2 0 (by omega)]
  · intro i c hi hc
    unfold matMultiply at hF
    rw [if_neg (by omega)] at hF
    cases hF
    unfold entry
    rw [getD_map _ _ [] _ (by rw [vandermonde_length]; omega),
      getD_map_range _ _ (by unfold matCols; rw [hdT.2 0 (by omega)]; exact hc),
      hTlen]
    apply congrArg gfSum
    apply List.map_congr_left
    intro t ht
    have htd : t < d := List.mem_range.mp ht
    show entry (vandermonde total d) i t * entry T t c =
      gfByte i ^ t * entry T t c
    rw [entry_vandermonde total d hi htd]

theorem incr_take (l : List Nat) (n : Nat) (h : isIncremental l = true) :
    isIncremental (l.take n) = true := by
  induction l generalizing n with
  | nil => rw [List.take_nil]; rfl
  | cons a t ih =>
    cases n with
    | zero => rfl
    | succ m =>
      rw [List.take_succ_cons]
      cases hm : t.take m with
      | nil => rfl
      | cons b t2 =>
        have hbm : b ∈ t := by
          have : b ∈ t.take m := by rw [hm]; exact List.mem_cons_self b t2
          exact List.mem_of_mem_take this
        rw [incr_cons_cons, Bool.and_eq_true]
        constructor
        · exact decide_eq_true (incr_head_lt h b hbm)
        · rw [← hm]; exact ih m (incr_tail h)

theorem incr_append_last (l : List Nat) (a : Nat) (h : isIncremental l = true)
    (hlt : ∀ x ∈ l, x < a) : isIncremental (l ++ [a]) = true := by
  induction l with
  | nil => rfl
  | cons b t ih =>
    cases t with
    | nil =>
      show isIncremental (b :: [a]) = true
      rw [incr_cons_cons]
      have : b < a := hlt b (List.mem_cons_self b [])
      rw [decide_eq_true this]
      rfl
    | cons c t2 =>
      rw [List.cons_append, List.cons_append, incr_cons_cons, Bool.and_eq_true]
      refine ⟨?_, ?_⟩
      · rw [incr_cons_cons, Bool.and_eq_true] at h
        exact h.1
      · rw [← List.cons_append]
        exact ih (incr_tail h) (fun x hx => hlt x (List.mem_cons_of_mem b hx))

theorem incr_filter_range (n : Nat) (p : Nat → Bool) :
    isIncremental ((List.range n).filter p) = true := by
  induction n with
  | zero => rfl
  | succ m ih =>
    rw [List.range_succ, List.filter_append]
    cases hp : p m with
    | false =>
      rw [show List.filter p [m] = [] from by
        simp only [List.filter_cons, List.filter_nil]; rw [hp]; rfl,
        List.append_nil]
      exact ih
    | true =>
      rw [show List.filter p [m] = [m] from by
        simp only [List.filter_cons, List.filter_nil]; rw [hp]; rfl]
      exact incr_append_last _ m ih (by
        intro x hx
        exact List.mem_range.mp (List.mem_of_mem_filter hx))

theorem incr_getD_lt (l : List Nat) (a b : Nat) (h : isIncremental l = true)
    (hab : a < b) (hb : b < l.length) : l.getD a 0 < l.getD b 0 := by
  induction l generalizing a b with
  | nil => simp at hb
  | cons x t ih =>
    cases b with
    | zero => omega
    | succ b2 =>
      cases a with
      | zero =>
        show x < t.getD b2 0
        exact incr_head_lt h _ (getD_mem t 0 (by simp at hb; omega))
      | succ a2 =>
        show t.getD a2 0 < t.getD b2 0
        exact ih a2 b2 (incr_tail h) (by omega) (by simp at hb; omega)

theorem subMatrix_invert_ok (d total : Nat) (T m : Mat) (valid : List Nat)
    (hd0 : 0 < d) (h256 : total ≤ 256)
    (hTinv : matInvert (SubMatrix (vandermonde total d) 0 0 d d) = .ok T)
    (hment : ∀ i c, i < total → c < d → entry m i c =
      gfSum ((List.range d).map fun t => gfByte i ^ t * entry T t c))
    (hvlen : valid.length = d) (hvinc : isIncremental valid = true)
    (hvbound : ∀ x ∈ valid, x < total) (hdt : d ≤ total) :
    ∃ DD, matInvert (valid.map fun vi =>
      (List.range d).map fun c => entry m vi c) = .ok DD := by
  have hdsub : matDims (valid.map fun vi =>
      (List.range d).map fun c => entry m vi c) d := by
    refine ⟨by rw [List.length_map, hvlen], ?_⟩
    intro i hi
    rw [getD_map _ valid 0 _ (by omega), List.length_map, List.length_range]
  apply matInvert_ok_of_injective hdsub
  apply toSq_kernel_inj
  have hvmem : ∀ j : Fin d, valid.getD j.val 0 ∈ valid :=
    fun j => getD_mem valid 0 (by omega)
  have hEq : toSq (valid.map fun vi =>
      (List.range d).map fun c => entry m vi c) d =
      Matrix.vandermonde (fun j : Fin d => gfByte (valid.getD j.val 0)) *
        toSq T d := by
    apply Matrix.ext
    intro i c
    show entry (valid.map fun vi =>
      (List.range d).map fun c => entry m vi c) i.val c.val = _
    rw [Matrix.mul_apply]
    rw [show entry (valid.map fun vi =>
        (List.range d).map fun c => entry m vi c) i.val c.val =
        entry m (valid.getD i.val 0) c.val from by
      unfold entry
      rw [getD_map _ valid 0 _ (by omega), getD_map_range _ _ c.isLt]]
    rw [hment _ c.val (hvbound _ (hvmem i)) c.isLt, gfSum_range_finsum_fin]
    rfl
  rw [hEq]
  intro x hx
  have hVinj := mulVec_inj_of_left_one
    (Matrix.vandermonde (fun j : Fin d => gfByte (valid.getD j.val 0)))
    (Matrix.vandermonde (fun j : Fin d => gfByte (valid.getD j.val 0)))⁻¹
    (Matrix.nonsing_inv_mul _ (isUnit_iff_ne_zero.mpr
      (Matrix.det_vandermonde_ne_zero_iff.mpr (by
        intro a b hab
        by_contra hne
        have hvne : valid.getD a.val 0 ≠ valid.getD b.val 0 := by
          rcases Nat.lt_or_ge a.val b.val with h1 | h1
          · exact Nat.ne_of_lt (incr_getD_lt valid a.val b.val hvinc h1 (by omega))
          · have h2 : b.val < a.val := by
              rcases Nat.eq_or_lt_of_le h1 with h3 | h3
              · exact absurd (Fin.val_inj.mp h3.symm) hne
              · exact h3
            exact (Nat.ne_of_lt (incr_getD_lt valid b.val a.val hvinc h2
              (by omega))).symm
        exact hvne (gfByte_inj
          (by have := hvbound _ (hvmem a); omega)
          (by have := hvbound _ (hvmem b); omega) hab)))))
  have hTtop := matInvert_toSq_one (matDims_top d total hd0 hdt) hTinv
  have hTinj := mulVec_inj_of_left_one (toSq T d)
    (toSq (SubMatrix (vandermonde total d) 0 0 d d) d)
    (Matrix.mul_eq_one_comm.mp hTtop)
  apply hTinj
  apply hVinj
  rw [Matrix.mulVec_mulVec]
  exact hx

theorem cauchy_system_zero (b : Nat) (xs ys : Fin b → GF)
    (hxinj : Function.Injective xs) (hyinj : Function.Injective ys)
    (hne : ∀ i j, xs i - ys j ≠ 0) (w : Fin b → GF)
    (hz : ∀ i, ∑ j, (xs i - ys j)⁻¹ * w j = 0) : ∀ j, w j = 0 := by
  intro j0
  have hb : 0 < b := j0.pos
  set Q := ∑ j, Polynomial.C (w j) *
    ∏ j2 ∈ Finset.univ.erase j, (Polynomial.X - Polynomial.C (ys j2)) with hQdef
  have hproddeg : ∀ j : Fin b, (∏ j2 ∈ Finset.univ.erase j,
      (Polynomial.X - Polynomial.C (ys j2))).natDegree ≤ b - 1 := by
    intro j
    calc (∏ j2 ∈ Finset.univ.erase j,
        (Polynomial.X - Polynomial.C (ys j2))).natDegree
        ≤ ∑ j2 ∈ Finset.univ.erase j,
          (Polynomial.X - Polynomial.C (ys j2)).natDegree :=
          Polynomial.natDegree_prod_le _ _
      _ ≤ ∑ j2 ∈ Finset.univ.erase j, 1 := by
          apply Finset.sum_le_sum
          intro j2 _
          rw [Polynomial.natDegree_X_sub_C]
      _ = (Finset.univ.erase j).card := by
          rw [Finset.sum_const, smul_eq_mul, mul_one]
      _ ≤ b - 1 := by
          rw [Finset.card_erase_of_mem (Finset.mem_univ j)]
          simp
  have hQdeg : Q.natDegree ≤ b - 1 := by
    apply Polynomial.natDegree_sum_le_of_forall_le
    intro j _
    calc (Polynomial.C (w j) * ∏ j2 ∈ Finset.univ.erase j,
        (Polynomial.X - Polynomial.C (ys j2))).natDegree
        ≤ (Polynomial.C (w j)).natDegree + (∏ j2 ∈ Finset.univ.erase j,
          (Polynomial.X - Polynomial.C (ys j2))).natDegree :=
          Polynomial.natDegree_mul_le
      _ ≤ 0 + (b - 1) := by
          apply Nat.add_le_add
          · rw [Polynomial.natDegree_C]
          · exact hproddeg j
      _ = b - 1 := by omega
  have hevalQ : ∀ z : GF, Q.eval z =
      ∑ j, w j * ∏ j2 ∈ Finset.univ.erase j, (z - ys j2) := by
    intro z
    rw [hQdef, Polynomial.eval_finset_sum]
    apply Finset.sum_congr rfl
    intro j _
    rw [Polynomial.eval_mul, Polynomial.eval_C, Polynomial.eval_prod]
    apply congrArg (fun t => w j * t)
    apply Finset.prod_congr rfl
    intro j2 _
    rw [Polynomial.eval_sub, Polynomial.eval_X, Polynomial.eval_C]
  have heval : ∀ i, Q.eval (xs i) = 0 := by
    intro i
    rw [hevalQ (xs i)]
    calc ∑ j, w j * ∏ j2 ∈ Finset.univ.erase j, (xs i - ys j2)
        = ∑ j, (∏ j2, (xs i - ys j2)) * ((xs i - ys j)⁻¹ * w j) := by
          apply Finset.sum_congr rfl
          intro j _
          have hc : (xs i - ys j) * (xs i - ys j)⁻¹ = 1 := mul_inv_cancel₀ (hne i j)
          calc w j * ∏ j2 ∈ Finset.univ.erase j, (xs i - ys j2)
              = ((xs i - ys j) * (xs i - ys j)⁻¹) *
                (w j * ∏ j2 ∈ Finset.univ.erase j, (xs i - ys j2)) := by
                rw [hc, one_mul]
            _ = ((xs i - ys j) * ∏ j2 ∈ Finset.univ.erase j, (xs i - ys j2)) *
                ((xs i - ys j)⁻¹ * w j) := by ring
            _ = (∏ j2, (xs i - ys j2)) * ((xs i - ys j)⁻¹ * w j) := by
                rw [Finset.mul_prod_erase Finset.univ (fun j2 => xs i - ys j2)
                  (Finset.mem_univ j)]
      _ = (∏ j2, (xs i - ys j2)) * ∑ j, (xs i - ys j)⁻¹ * w j := by
          rw [← Finset.mul_sum]
      _ = 0 := by rw [hz i, mul_zero]
  have hQ0 : Q = 0 := by
    apply Polynomial.eq_zero_of_natDegree_lt_card_of_eval_eq_zero Q hxinj heval
    rw [Fintype.card_fin]
    omega
  have hy0 : Q.eval (ys j0) = 0 := by rw [hQ0, Polynomial.eval_zero]
  rw [hevalQ (ys j0)] at hy0
  rw [Finset.sum_eq_single j0 (by
      intro j _ hjne
      apply mul_eq_zero_of_right
      apply Finset.prod_eq_zero
        (Finset.mem_erase.mpr ⟨Ne.symm hjne, Finset.mem_univ j0⟩)
      rw [sub_self])
    (fun h => absurd (Finset.mem_univ j0) h)] at hy0
  rcases mul_eq_zero.mp hy0 with h0 | h0
  · exact h0
  · exfalso
    rw [Finset.prod_eq_zero_iff] at h0
    obtain ⟨j2, hj2m, hj2z⟩ := h0
    rw [sub_eq_zero] at hj2z
    exact (Finset.mem_erase.mp hj2m).1 (hyinj hj2z.symm)

theorem incr_cons {a : Nat} {t : List Nat} (ht : isIncremental t = true)
    (hlt : ∀ x ∈ t, a < x) : isIncremental (a :: t) = true := by
  cases t with
  | nil => rfl
  | cons b t2 =>
    rw [incr_cons_cons, Bool.and_eq_true]
    exact ⟨decide_eq_true (hlt b (List.mem_cons_self b t2)), ht⟩

theorem incr_filter (l : List Nat) (p : Nat → Bool) (h : isIncremental l = true) :
    isIncremental (l.filter p) = true := by
  induction l with
  | nil => rfl
  | cons a t ih =>
    rw [List.filter_cons]
    cases hp : p a with
    | false =>
      rw [if_neg (by decide)]
      exact ih (incr_tail h)
    | true =>
      rw [if_pos rfl]
      apply incr_cons (ih (incr_tail h))
      intro x hx
      exact incr_head_lt h x (List.mem_of_mem_filter hx)

theorem length_filter_partition {α : Type} (l : List α) (p q : α → Bool)
    (hpq : ∀ a ∈ l, q a = !(p a)) :
    (l.filter p).length + (l.filter q).length = l.length := by
  induction l with
  | nil => rfl
  | cons a t ih =>
    have hqa := hpq a (List.mem_cons_self a t)
    have iht := ih (fun b hb => hpq b (List.mem_cons_of_mem a hb))
    rw [List.filter_cons, List.filter_cons]
    cases hp : p a with
    | true =>
      rw [if_pos rfl, if_neg (by rw [hqa, hp]; decide)]
      simp only [List.length_cons]
      omega
    | false =>
      rw [if_neg (by decide), if_pos (by rw [hqa, hp]; rfl)]
      simp only [List.length_cons]
      omega

theorem gfSum_filter_zero {α : Type} (l : List α) (p : α → Bool) (f : α → GF)
    (h : ∀ x ∈ l, p x = false → f x = 0) :
    gfSum (l.map f) = gfSum ((l.filter p).map f) := by
  induction l with
  | nil => rfl
  | cons a t ih =>
    rw [List.filter_cons, List.map_cons]
    have ht := ih (fun x hx hpx => h x (List.mem_cons_of_mem a hx) hpx)
    cases hp : p a with
    | false =>
      rw [if_neg (by decide)]
      show f a + gfSum (t.map f) = _
      rw [h a (List.mem_cons_self a t) hp, zero_add, ht]
    | true =>
      rw [if_pos rfl, List.map_cons]
      show f a + gfSum (t.map f) = f a + gfSum ((t.filter p).map f)
      rw [ht]

theorem map_eq_map_range {α β : Type} (f : α → β) (l : List α) (d : α) :
    l.map f = (List.range l.length).map fun j => f (l.getD j d) := by
  apply List.ext_getElem
  · rw [List.length_map, List.length_map, List.length_range]
  · intro i h1 h2
    rw [List.getElem_map, List.getElem_map, List.getElem_range,
      getD_eq_getElem l d (by simpa using h1)]

theorem gfByte_sub_xor (a b : Nat) (ha : a < 256) (hb : b < 256) :
    gfByte a - gfByte b = gfByte (a ^^^ b) := by
  rw [sub_eq_add_neg, show -gfByte b = gfByte b from rfl]
  apply GF.val_inj
  show (a % 256) ^^^ (b % 256) = (a ^^^ b) % 256
  rw [Nat.mod_eq_of_lt ha, Nat.mod_eq_of_lt hb,
    Nat.mod_eq_of_lt (xor_byte_lt ha hb)]

theorem entry_buildMatrixCauchy (d total : Nat) {r c : Nat} (hr : r < total)
    (hc : c < d) : entry (buildMatrixCauchy d total) r c =
      if r < d then (if r = c then 1 else 0) else invTable (r ^^^ c) := by
  unfold entry buildMatrixCauchy
  rw [getD_map_range _ _ hr]
  show ((List.range d).map fun c2 =>
    if r < d then (if r = c2 then (1 : GF) else 0) else invTable (r ^^^ c2)).getD c 0 = _
  rw [getD_map_range _ _ hc]

theorem gfByte_getD_inj (l : List Nat) (hinc : isIncremental l = true)
    (hbound : ∀ y ∈ l, y < 256) :
    ∀ a b : Nat, a < l.length → b < l.length →
      gfByte (l.getD a 0) = gfByte (l.getD b 0) → a = b := by
  intro a b ha hb hab
  by_contra hne
  have hgb : l.getD a 0 = l.getD b 0 :=
    gfByte_inj (hbound _ (getD_mem l 0 ha)) (hbound _ (getD_mem l 0 hb)) hab
  rcases Nat.lt_or_ge a b with h1 | h1
  · exact absurd hgb (Nat.ne_of_lt (incr_getD_lt l a b hinc h1 hb))
  · have h2 : b < a := by omega
    exact absurd hgb.symm (Nat.ne_of_lt (incr_getD_lt l b a hinc h2 ha))

theorem cauchy_rows_kernel (d total : Nat) (vP M : List Nat) (x : Nat → GF)
    (h256 : total ≤ 256) (hdt : d ≤ total)
    (hlen : M.length = vP.length)
    (hvPinc : isIncremental vP = true) (hMinc : isIncremental M = true)
    (hvPmem : ∀ y ∈ vP, d ≤ y ∧ y < total) (hMmem : ∀ y ∈ M, y < d)
    (heq : ∀ v ∈ vP, gfSum (M.map fun c => (gfByte v - gfByte c)⁻¹ * x c) = 0) :
    ∀ c ∈ M, x c = 0 := by
  have hxinj : Function.Injective
      (fun i : Fin M.length => gfByte (vP.getD i.val 0)) := by
    intro a b hab
    apply Fin.val_inj.mp
    exact gfByte_getD_inj vP hvPinc
      (fun y hy => by have := (hvPmem y hy).2; omega)
      a.val b.val (by rw [← hlen]; exact a.isLt) (by rw [← hlen]; exact b.isLt) hab
  have hyinj : Function.Injective
      (fun j : Fin M.length => gfByte (M.getD j.val 0)) := by
    intro a b hab
    apply Fin.val_inj.mp
    exact gfByte_getD_inj M hMinc
      (fun y hy => by have := hMmem y hy; omega)
      a.val b.val a.isLt b.isLt hab
  have hne : ∀ i j : Fin M.length,
      gfByte (vP.getD i.val 0) - gfByte (M.getD j.val 0) ≠ 0 := by
    intro i j h0
    rw [sub_eq_zero] at h0
    have hi2 : i.val < vP.length := by rw [← hlen]; exact i.isLt
    have h1 := hvPmem _ (getD_mem vP 0 hi2)
    have h2 := hMmem _ (getD_mem M 0 j.isLt)
    have h3 := gfByte_inj (by omega) (by omega) h0
    omega
  have hz : ∀ i : Fin M.length,
      ∑ j : Fin M.length, (gfByte (vP.getD i.val 0) - gfByte (M.getD j.val 0))⁻¹ *
        x (M.getD j.val 0) = 0 := by
    intro i
    have hi2 : i.val < vP.length := by rw [← hlen]; exact i.isLt
    have hp := heq (vP.getD i.val 0) (getD_mem vP 0 hi2)
    rw [map_eq_map_range _ M 0, gfSum_range_finsum_fin] at hp
    exact hp
  have hcs := cauchy_system_zero M.length
    (fun i => gfByte (vP.getD i.val 0))
    (fun j => gfByte (M.getD j.val 0))
    hxinj hyinj hne
    (fun j => x (M.getD j.val 0)) hz
  intro c hc
  obtain ⟨t, ht, hgt⟩ := List.mem_iff_getElem.mp hc
  have h0 : x (M.getD t 0) = 0 := hcs ⟨t, ht⟩
  rw [getD_eq_getElem M 0 ht, hgt] at h0
  exact h0

theorem cauchy_submatrix_invert_ok (d total : Nat) (valid : List Nat)
    (hd0 : 0 < d) (hdt : d ≤ total) (h256 : total ≤ 256)
    (hvlen : valid.length = d) (hvinc : isIncremental valid = true)
    (hvbound : ∀ x ∈ valid, x < total) :
    ∃ DD, matInvert (valid.map fun vi =>
      (List.range d).map fun c => entry (buildMatrixCauchy d total) vi c) = .ok DD := by
  have hdsub : matDims (valid.map fun vi =>
      (List.range d).map fun c => entry (buildMatrixCauchy d total) vi c) d := by
    refine ⟨by rw [List.length_map, hvlen], ?_⟩
    intro i hi
    rw [getD_map _ valid 0 _ (by omega), List.length_map, List.length_range]
  apply matInvert_ok_of_injective hdsub
  intro x hker
  have hsubentry : ∀ i c, i < d → c < d →
      entry (valid.map fun vi =>
        (List.range d).map fun c2 => entry (buildMatrixCauchy d total) vi c2) i c =
      entry (buildMatrixCauchy d total) (valid.getD i 0) c := by
    intro i c hi hc
    unfold entry
    rw [getD_map _ valid 0 _ (by omega), getD_map_range _ _ hc]
  have hxdata : ∀ v ∈ valid, v < d → x v = 0 := by
    intro v hv hvd
    obtain ⟨i, hi, hgi⟩ := List.mem_iff_getElem.mp hv
    have hid : i < d := by rw [hvlen] at hi; exact hi
    have hgd : valid.getD i 0 = v := by rw [getD_eq_getElem valid 0 hi, hgi]
    have hk := hker i hid
    unfold matVec at hk
    have hlist : ((List.range d).map fun j =>
        entry (valid.map fun vi =>
          (List.range d).map fun c2 => entry (buildMatrixCauchy d total) vi c2) i j *
          x j) =
        (List.range d).map fun j => (if v = j then (1 : GF) else 0) * x j := by
      apply List.map_congr_left
      intro c hc
      have hcd := List.mem_range.mp hc
      rw [hsubentry i c hid hcd, hgd,
        entry_buildMatrixCauchy d total (hvbound v hv) hcd, if_pos hvd]
    rw [hlist, gfSum_range_delta d v hvd] at hk
    exact hk
  have hxpar : ∀ v ∈ valid, d ≤ v →
      gfSum (((List.range d).filter fun c => !(valid.contains c)).map
        fun c => (gfByte v - gfByte c)⁻¹ * x c) = 0 := by
    intro v hv hdv
    obtain ⟨i, hi, hgi⟩ := List.mem_iff_getElem.mp hv
    have hid : i < d := by rw [hvlen] at hi; exact hi
    have hgd : valid.getD i 0 = v := by rw [getD_eq_getElem valid 0 hi, hgi]
    have hk := hker i hid
    unfold matVec at hk
    have hlist : ((List.range d).map fun j =>
        entry (valid.map fun vi =>
          (List.range d).map fun c2 => entry (buildMatrixCauchy d total) vi c2) i j *
          x j) =
        (List.range d).map fun j => (gfByte v - gfByte j)⁻¹ * x j := by
      apply List.map_congr_left
      intro c hc
      have hcd := List.mem_range.mp hc
      rw [hsubentry i c hid hcd, hgd,
        entry_buildMatrixCauchy d total (hvbound v hv) hcd, if_neg (by omega)]
      show invTable (v ^^^ c) * x c = (gfByte v - gfByte c)⁻¹ * x c
      rw [gfByte_sub_xor v c (by have := hvbound v hv; omega) (by omega)]
      rfl
    have hz0 : ∀ c ∈ List.range d, (!(valid.contains c)) = false →
        (gfByte v - gfByte c)⁻¹ * x c = 0 := by
      intro c hc hpc
      have hcd := List.mem_range.mp hc
      have hcv : valid.contains c = true := by
        cases hcc : valid.contains c with
        | true => rfl
        | false =>
          rw [hcc] at hpc
          exact absurd hpc (by decide)
      rw [hxdata c ((contains_iff_mem valid c).mp hcv) hcd, mul_zero]
    rw [hlist, gfSum_filter_zero (List.range d) (fun c => !(valid.contains c))
      (fun c => (gfByte v - gfByte c)⁻¹ * x c) hz0] at hk
    exact hk
  have hvDinc : isIncremental (valid.filter fun v => decide (v < d)) = true :=
    incr_filter valid _ hvinc
  have hvDbound : ∀ y ∈ valid.filter fun v => decide (v < d), y < d := by
    intro y hy
    exact of_decide_eq_true (List.mem_filter.mp hy).2
  have hcc : ∀ c ∈ List.range d, valid.contains c =
      (valid.filter fun v => decide (v < d)).contains c := by
    intro c hc
    have hcd := List.mem_range.mp hc
    cases hvc : valid.contains c with
    | true =>
      have h1 : c ∈ valid := (contains_iff_mem valid c).mp hvc
      have h2 : c ∈ valid.filter fun v => decide (v < d) :=
        List.mem_filter.mpr ⟨h1, decide_eq_true hcd⟩
      exact ((contains_iff_mem _ c).mpr h2).symm
    | false =>
      cases hvc2 : (valid.filter fun v => decide (v < d)).contains c with
      | false => rfl
      | true =>
        have h1 : c ∈ valid :=
          List.mem_of_mem_filter ((contains_iff_mem _ c).mp hvc2)
        rw [← contains_iff_mem, hvc] at h1
        exact absurd h1 (by decide)
  have hfeq : ((List.range d).filter fun c => valid.contains c) =
      valid.filter fun v => decide (v < d) := by
    rw [List.filter_congr hcc]
    exact filter_contains_range _ d hvDinc hvDbound
  have hpart1 := length_filter_partition (List.range d)
    (fun c => valid.contains c) (fun c => !(valid.contains c)) (fun a _ => rfl)
  have hpart2 := length_filter_partition valid
    (fun v => decide (v < d)) (fun v => !(decide (v < d))) (fun a _ => rfl)
  have hlenM : ((List.range d).filter fun c => !(valid.contains c)).length =
      (valid.filter fun v => !(decide (v < d))).length := by
    rw [List.length_range, hfeq] at hpart1
    rw [hvlen] at hpart2
    omega
  have hvPmem : ∀ y ∈ valid.filter fun v => !(decide (v < d)), d ≤ y ∧ y < total := by
    intro y hy
    have h1 := List.mem_filter.mp hy
    refine ⟨?_, hvbound y h1.1⟩
    by_contra h2
    have h3 : y < d := by omega
    have h4 := h1.2
    rw [decide_eq_true h3] at h4
    exact absurd h4 (by decide)
  have hMmem : ∀ y ∈ (List.range d).filter fun c => !(valid.contains c), y < d :=
    fun y hy => List.mem_range.mp (List.mem_of_mem_filter hy)
  have hMx := cauchy_rows_kernel d total
    (valid.filter fun v => !(decide (v < d)))
    ((List.range d).filter fun c => !(valid.contains c)) x h256 hdt hlenM
    (incr_filter valid _ hvinc) (incr_filter_range d _) hvPmem hMmem
    (fun v hv => hxpar v (List.mem_of_mem_filter hv) (hvPmem v hv).1)
  intro j hj
  cases hvc : valid.contains j with
  | true => exact hxdata j ((contains_iff_mem valid j).mp hvc) hj
  | false =>
    apply hMx
    apply List.mem_filter.mpr
    exact ⟨List.mem_range.mpr hj, by rw [hvc]; rfl⟩

theorem gfSum_swap (n m : Nat) (f : Nat → Nat → GF) :
    gfSum ((List.range n).map fun i => gfSum ((List.range m).map fun j => f i j)) =
    gfSum ((List.range m).map fun j => gfSum ((List.range n).map fun i => f i j)) := by
  rw [gfSum_range_finsum n (fun i => gfSum ((List.range m).map fun j => f i j)),
    gfSum_range_finsum m (fun j => gfSum ((List.range n).map fun i => f i j)),
    Finset.sum_congr rfl (fun i _ => gfSum_range_finsum m (f i)),
    Finset.sum_congr rfl (fun j _ => gfSum_range_finsum n (fun i => f i j))]
  exact Finset.sum_comm

theorem decode_bytes (d : Nat) (DD S : Mat) (dv : Nat → GF) (i : Nat) (hi : i < d)
    (hinv : ∀ a b, a < d → b < d →
      gfSum ((List.range d).map fun t => entry DD a t * entry S t b) =
        if a = b then 1 else 0) :
    gfSum ((List.range d).map fun j =>
      entry DD i j * gfSum ((List.range d).map fun c => entry S j c * dv c)) =
    dv i := by
  have h1 : ∀ j ∈ List.range d,
      entry DD i j * gfSum ((List.range d).map fun c => entry S j c * dv c) =
      gfSum ((List.range d).map fun c => entry DD i j * (entry S j c * dv c)) := by
    intro j _
    rw [gfSum_mul_left]
    apply congrArg gfSum
    rw [List.map_map]
    apply List.map_congr_left
    intro c _
    rfl
  rw [List.map_congr_left h1, gfSum_swap]
  have h2 : ∀ c ∈ List.range d,
      gfSum ((List.range d).map fun j => entry DD i j * (entry S j c * dv c)) =
      (gfSum ((List.range d).map fun j => entry DD i j * entry S j c)) * dv c := by
    intro c _
    rw [mul_comm (gfSum ((List.range d).map fun j => entry DD i j * entry S j c))
      (dv c), gfSum_mul_left]
    apply congrArg gfSum
    rw [List.map_map]
    apply List.map_congr_left
    intro j _
    show entry DD i j * (entry S j c * dv c) = dv c * (entry DD i j * entry S j c)
    ring
  rw [List.map_congr_left h2]
  have h3 : ∀ c ∈ List.range d,
      (gfSum ((List.range d).map fun j => entry DD i j * entry S j c)) * dv c =
      (if i = c then 1 else 0) * dv c := by
    intro c hc
    rw [hinv i c hi (List.mem_range.mp hc)]
  rw [List.map_congr_left h3, gfSum_range_delta d i hi]

theorem scanValid_fold_fst (shards : List Shard) (d : Nat) (l : List Nat) :
    ∀ acc : List Nat × List Nat,
      (l.foldl (fun st i =>
        if st.1.length < d then
          (if slen (shards.getD i none) ≠ 0 then (st.1 ++ [i], st.2)
           else (st.1, st.2 ++ [i]))
        else st) acc).1 =
      l.foldl (fun s1 i =>
        if s1.length < d then
          (if slen (shards.getD i none) ≠ 0 then s1 ++ [i] else s1)
        else s1) acc.1 := by
  induction l with
  | nil => intro acc; rfl
  | cons a t ih =>
    intro acc
    rw [List.foldl_cons, List.foldl_cons, ih]
    have hstep : ((if acc.1.length < d then
        (if slen (shards.getD a none) ≠ 0 then (acc.1 ++ [a], acc.2)
         else (acc.1, acc.2 ++ [a]))
      else acc)).1 =
      (if acc.1.length < d then
        (if slen (shards.getD a none) ≠ 0 then acc.1 ++ [a] else acc.1)
      else acc.1) := by
      by_cases h1 : acc.1.length < d
      · rw [if_pos h1, if_pos h1]
        by_cases h2 : slen (shards.getD a none) ≠ 0
        · rw [if_pos h2, if_pos h2]
        · rw [if_neg h2, if_neg h2]
      · rw [if_neg h1, if_neg h1]
    exact congrArg (fun z => t.foldl (fun s1 i =>
      if s1.length < d then
        (if slen (shards.getD i none) ≠ 0 then s1 ++ [i] else s1)
      else s1) z) hstep

theorem presFold_take (shards : List Shard) (d : Nat) (l : List Nat) :
    l.foldl (fun s1 i =>
      if s1.length < d then
        (if slen (shards.getD i none) ≠ 0 then s1 ++ [i] else s1)
      else s1) [] =
    (l.filter fun i => decide (slen (shards.getD i none) ≠ 0)).take d := by
  induction l using List.reverseRecOn with
  | nil =>
    show ([] : List Nat) = ([] : List Nat).take d
    rw [List.take_nil]
  | append_singleton t a ih =>
    rw [List.foldl_append, List.foldl_cons, List.foldl_nil, ih, List.filter_append]
    generalize t.filter (fun i => decide (slen (shards.getD i none) ≠ 0)) = ft
    show (if (ft.take d).length < d then
        (if slen (shards.getD a none) ≠ 0 then ft.take d ++ [a] else ft.take d)
      else ft.take d) = _
    by_cases h1 : (ft.take d).length < d
    · rw [if_pos h1]
      have hfl : ft.length < d := by
        rw [List.length_take] at h1
        omega
      rw [List.take_of_length_le (by omega)]
      by_cases h2 : slen (shards.getD a none) ≠ 0
      · rw [if_pos h2,
          show List.filter (fun i => decide (slen (shards.getD i none) ≠ 0)) [a] =
            [a] from by
              rw [List.filter_cons, if_pos (decide_eq_true h2)]
              rfl,
          List.take_of_length_le (by
            rw [List.length_append, List.length_singleton]
            omega)]
      · rw [if_neg h2,
          show List.filter (fun i => decide (slen (shards.getD i none) ≠ 0)) [a] =
            [] from by
              rw [List.filter_cons,
                if_neg (by
                  intro hd0
                  exact h2 (of_decide_eq_true hd0))]
              rfl,
          List.append_nil, List.take_of_length_le (by omega)]
    · rw [if_neg h1]
      have hfl : d ≤ ft.length := by
        rw [List.length_take] at h1
        omega
      rw [List.take_append_of_le_length hfl]

theorem scanValid_fst (shards : List Shard) (total d : Nat) :
    (scanValid shards total d).1 =
      ((List.range total).filter fun i =>
        decide (slen (shards.getD i none) ≠ 0)).take d := by
  unfold scanValid
  rw [scanValid_fold_fst]
  exact presFold_take shards d (List.range total)

theorem filter_length_range_getD {α : Type} (l : List α) (p : α → Bool) (d0 : α) :
    (l.filter p).length =
      ((List.range l.length).filter fun i => p (l.getD i d0)).length := by
  induction l using List.reverseRecOn with
  | nil => rfl
  | append_singleton t a ih =>
    have hlen : (t ++ [a]).length = t.length + 1 := by
      rw [List.length_append, List.length_singleton]
    rw [hlen, List.range_succ, List.filter_append, List.filter_append,
      List.length_append, List.length_append, ih]
    have hq : ∀ i ∈ List.range t.length,
        (p ((t ++ [a]).getD i d0)) = (p (t.getD i d0)) := by
      intro i hi
      rw [getD_append_left _ _ _ (List.mem_range.mp hi)]
    rw [List.filter_congr hq]
    have hga : (t ++ [a]).getD t.length d0 = a := by
      rw [getD_append_right _ _ _ (Nat.le_refl _), Nat.sub_self]
      rfl
    have hlast : (List.filter (fun i => p ((t ++ [a]).getD i d0)) [t.length]).length =
        (List.filter p [a]).length := by
      rw [List.filter_cons, List.filter_cons, hga]
      cases p a with
      | true => rfl
      | false => rfl
    omega

theorem numberPresent_range (shards : List Shard) :
    numberPresent shards = ((List.range shards.length).filter fun i =>
      decide (slen (shards.getD i none) ≠ 0)).length := by
  unfold numberPresent
  exact filter_length_range_getD shards (fun s => decide (slen s ≠ 0)) none

theorem wbFold_length (pairs : List (Nat × List GF)) (shards : List Shard) :
    (pairs.foldl (fun sh p => sh.set p.1 (writeBack (sh.getD p.1 none) p.2))
      shards).length = shards.length := by
  induction pairs generalizing shards with
  | nil => rfl
  | cons q t ih => rw [List.foldl_cons, ih, List.length_set]

theorem writeBackAt_length (shards : List Shard) (idxs : List Nat)
    (outs : List (List GF)) :
    (writeBackAt shards idxs outs).length = shards.length :=
  wbFold_length _ _

theorem writeBackAt_not_mem (shards : List Shard) (idxs : List Nat)
    (outs : List (List GF)) (i : Nat) (h : ¬ i ∈ idxs) :
    (writeBackAt shards idxs outs).getD i none = shards.getD i none :=
  wbFold_not_mem _ _ _ (fun p hp hpi => h (hpi ▸ (List.of_mem_zip hp).1))

theorem setFold_not_mem (size : Nat) (idxs : List Nat) (shards : List Shard) (i : Nat)
    (h : ∀ x ∈ idxs, x ≠ i) :
    (idxs.foldl (fun sh x => sh.set x (allocShard (sh.getD x none) size))
      shards).getD i none = shards.getD i none := by
  induction idxs generalizing shards with
  | nil => rfl
  | cons a t ih =>
    rw [List.foldl_cons, ih _ (fun x hx => h x (List.mem_cons_of_mem a hx)),
      getD_set_ne _ _ _ (h a (List.mem_cons_self a t))]

theorem allocShard_none (size : Nat) (hsz : 0 < size) :
    allocShard (none : Shard) size = mkShard size := by
  unfold allocShard
  have h0 : scap (none : Shard) = 0 := rfl
  rw [if_neg (by omega)]

theorem buildMatrixCauchy_top_identity (d total : Nat) (hdt : d ≤ total) :
    ∀ i c, i < d → c < d →
      entry (buildMatrixCauchy d total) i c = if i = c then 1 else 0 := by
  intro i c hi hc
  rw [entry_buildMatrixCauchy d total (by omega) hc, if_pos hi]

theorem buildMatrix_top_identity (d total : Nat) (hd0 : 0 < d) (hdt : d ≤ total)
    {m T : Mat}
    (hT : matInvert (SubMatrix (vandermonde total d) 0 0 d d) = .ok T)
    (hment : ∀ i c, i < total → c < d → entry m i c =
      gfSum ((List.range d).map fun t => gfByte i ^ t * entry T t c)) :
    ∀ i c, i < d → c < d → entry m i c = if i = c then 1 else 0 := by
  intro i c hi hc
  have hone := matInvert_toSq_one (matDims_top d total hd0 hdt) hT
  have hcomm := Matrix.mul_eq_one_comm.mp hone
  rw [hment i c (by omega) hc, gfSum_range_finsum_fin]
  have h3 : ∀ k : Fin d, gfByte i ^ k.val * entry T k.val c =
      (toSq (SubMatrix (vandermonde total d) 0 0 d d) d) ⟨i, hi⟩ k *
        (toSq T d) k ⟨c, hc⟩ := by
    intro k
    show _ = entry (SubMatrix (vandermonde total d) 0 0 d d) i k.val *
      entry T k.val c
    rw [entry_SubMatrix00 _ _ hi (by rw [vandermonde_length]; omega) k.isLt,
      entry_vandermonde total d (by omega) k.isLt]
  rw [Finset.sum_congr rfl (fun k _ => h3 k), ← Matrix.mul_apply, hcomm,
    Matrix.one_apply]
  exact if_congr Fin.mk_eq_mk rfl rfl

theorem reconstruct_decodes (r : reedSolomon) (shards : List Shard) (size : Nat)
    (dv : Nat → Nat → GF)
    (hsz : 0 < size) (hd : 0 < r.DataShards)
    (hlen : shards.length = r.Shards)
    (hpresent : ∀ i, i < r.Shards →
      slen (shards.getD i none) = 0 ∨ slen (shards.getD i none) = size)
    (hnil : ∀ i, i < r.Shards → slen (shards.getD i none) = 0 →
      shards.getD i none = none)
    (hwf : ∀ s ∈ shards, wfShard s)
    (hcount : r.DataShards ≤ numberPresent shards)
    (hnotall : numberPresent shards ≠ r.Shards)
    (htop : ∀ i c, i < r.DataShards → c < r.DataShards →
      entry r.m i c = if i = c then 1 else 0)
    (hview : ∀ i, i < r.Shards → slen (shards.getD i none) ≠ 0 → ∀ t, t < size →
      (sview (shards.getD i none)).getD t 0 =
        gfSum ((List.range r.DataShards).map fun c => entry r.m i c * dv c t))
    (hsub : ∀ valid : List Nat, valid.length = r.DataShards →
      isIncremental valid = true → (∀ x ∈ valid, x < r.Shards) →
      ∃ DD, matInvert (valid.map fun vi =>
        (List.range r.DataShards).map fun c => entry r.m vi c) = .ok DD) :
    ∃ out, reconstruct r shards false = (none, out) ∧
      out.length = r.Shards ∧
      ∀ i, i < r.DataShards → (sview (out.getD i none)).length = size ∧
        ∀ t, t < size → (sview (out.getD i none)).getD t 0 = dv i t := by
  have hS : r.Shards = r.DataShards + r.ParityShards := rfl
  have hmix : ∀ s ∈ shards, slen s = size ∨ slen s = 0 := by
    intro s hs
    obtain ⟨i, hi, hgi⟩ := List.mem_iff_getElem.mp hs
    have h1 := hpresent i (by omega)
    rw [getD_eq_getElem shards none hi, hgi] at h1
    tauto
  have hex : ∃ s ∈ shards, slen s ≠ 0 := by
    have h1 : 0 < numberPresent shards := by omega
    unfold numberPresent at h1
    obtain ⟨s, hs⟩ := List.exists_mem_of_length_pos h1
    have h2 := List.mem_filter.mp hs
    exact ⟨s, h2.1, of_decide_eq_true h2.2⟩
  have hcheck : checkShards shards true = none :=
    checkShards_mixed shards size hsz hmix hex
  have hsizeEq : shardSize shards = size := shardSize_mixed shards size hmix hex
  have hvfst := scanValid_fst shards r.Shards r.DataShards
  have hfl : ((List.range r.Shards).filter fun i =>
      decide (slen (shards.getD i none) ≠ 0)).length = numberPresent shards := by
    rw [numberPresent_range shards, hlen]
  have hVlen : (scanValid shards r.Shards r.DataShards).1.length = r.DataShards := by
    rw [hvfst, List.length_take, hfl]
    omega
  have hVinc : isIncremental (scanValid shards r.Shards r.DataShards).1 = true := by
    rw [hvfst]
    exact incr_take _ _ (incr_filter_range _ _)
  have hVmemf : ∀ x ∈ (scanValid shards r.Shards r.DataShards).1,
      x ∈ (List.range r.Shards).filter fun i =>
        decide (slen (shards.getD i none) ≠ 0) := by
    intro x hx
    rw [hvfst] at hx
    exact List.mem_of_mem_take hx
  have hVbound : ∀ x ∈ (scanValid shards r.Shards r.DataShards).1, x < r.Shards :=
    fun x hx => List.mem_range.mp (List.mem_of_mem_filter (hVmemf x hx))
  have hVpres : ∀ x ∈ (scanValid shards r.Shards r.DataShards).1,
      slen (shards.getD x none) ≠ 0 :=
    fun x hx => of_decide_eq_true (List.mem_filter.mp (hVmemf x hx)).2
  obtain ⟨DD, hDD⟩ := hsub _ hVlen hVinc hVbound
  unfold reconstruct
  rw [if_neg (by omega), hcheck]
  simp only
  rw [hsizeEq, if_neg hnotall, if_neg (by omega), hDD]
  simp only
  rw [if_neg (by decide)]
  set V := (scanValid shards r.Shards r.DataShards).1 with hVdef
  set MD := (List.range r.DataShards).filter fun i =>
    decide (slen (shards.getD i none) = 0) with hMDdef
  set MP := (List.range r.Shards).filter fun i =>
    decide (r.DataShards ≤ i ∧ slen (shards.getD i none) = 0) with hMPdef
  set SH1 := (List.range r.Shards).map fun i =>
    if i < r.DataShards ∧ slen (shards.getD i none) = 0 then
      allocShard (shards.getD i none) size
    else shards.getD i none with hSH1def
  set subShards := V.map fun vi => sview (shards.getD vi none) with hsubdef
  set matrixRows := MD.map fun i => DD.getD i [] with hmrdef
  set outputs := MD.map fun i => sview (SH1.getD i none) with houtdef
  set newOuts := codeSomeShards r.DataShards matrixRows subShards outputs
    with hnodef
  set SH2 := writeBackAt SH1 MD newOuts with hSH2def
  set SH3 := MP.foldl (fun sh i => sh.set i (allocShard (sh.getD i none) size))
    SH2 with hSH3def
  set mrP := MP.map fun i => r.parity.getD (i - r.DataShards) [] with hmrPdef
  set inP := (SH3.take r.DataShards).map sview with hinPdef
  set outsP := MP.map fun i => sview (SH3.getD i none) with houtsPdef
  set newOutsP := codeSomeShards r.DataShards mrP inP outsP with hnoPdef
  have hMDinc2 : isIncremental MD = true := by
    rw [hMDdef]
    exact incr_filter_range _ _
  have hMDboundD : ∀ x ∈ MD, x < r.DataShards := by
    intro x hx
    rw [hMDdef] at hx
    exact List.mem_range.mp (List.mem_of_mem_filter hx)
  have hMDzero : ∀ x ∈ MD, slen (shards.getD x none) = 0 := by
    intro x hx
    rw [hMDdef] at hx
    exact of_decide_eq_true (List.mem_filter.mp hx).2
  have hSH1len2 : SH1.length = r.Shards := by
    rw [hSH1def, List.length_map, List.length_range]
  have hMPge : ∀ x ∈ MP, r.DataShards ≤ x := by
    intro x hx
    rw [hMPdef] at hx
    exact (of_decide_eq_true (List.mem_filter.mp hx).2).1
  have hsubgetD : ∀ c, c < r.DataShards → subShards.getD c [] =
      sview (shards.getD (V.getD c 0) none) := by
    intro c hc
    rw [hsubdef, getD_map _ V 0 _ (by rw [hVlen]; omega)]
  have hin2 : ∀ c, c < r.DataShards → (subShards.getD c []).length = size := by
    intro c hc
    rw [hsubgetD c hc]
    have hm : V.getD c 0 ∈ V := getD_mem _ _ (by rw [hVlen]; omega)
    rw [sview_length _ (hwf _ (getD_mem shards none
      (by rw [hlen]; exact hVbound _ hm)))]
    rcases hpresent _ (hVbound _ hm) with h0 | h0
    · exact absurd h0 (hVpres _ hm)
    · exact h0
  have houtlen : ∀ o ∈ outputs, o.length = size := by
    intro o ho
    rw [houtdef] at ho
    obtain ⟨i2, hi2, rfl⟩ := List.mem_map.mp ho
    have hi2d : i2 < r.DataShards := hMDboundD i2 hi2
    have hi2z : slen (shards.getD i2 none) = 0 := hMDzero i2 hi2
    rw [hSH1def, getD_map_range _ _ (show i2 < r.Shards by omega)]
    show (sview (if i2 < r.DataShards ∧ slen (shards.getD i2 none) = 0 then
      allocShard (shards.getD i2 none) size else shards.getD i2 none)).length = size
    rw [if_pos ⟨hi2d, hi2z⟩, sview_length _ (wfShard_allocShard _ _),
      slen_allocShard]
  have hcs := codeSomeShards_eq r.DataShards matrixRows subShards outputs size hd
    hin2 houtlen
  have hsubentry : ∀ a c, a < r.DataShards → c < r.DataShards →
      entry (V.map fun vi => (List.range r.DataShards).map fun c2 =>
        entry r.m vi c2) a c = entry r.m (V.getD a 0) c := by
    intro a c ha hc
    unfold entry
    rw [getD_map _ V 0 _ (by rw [hVlen]; omega), getD_map_range _ _ hc]
  have hdsubV : matDims (V.map fun vi => (List.range r.DataShards).map fun c =>
      entry r.m vi c) r.DataShards := by
    refine ⟨by rw [List.length_map, hVlen], ?_⟩
    intro a ha
    rw [getD_map _ V 0 _ (by rw [hVlen]; omega), List.length_map,
      List.length_range]
  have hinvDD := (matInvert_ok_inverse hdsubV hDD).2
  refine ⟨_, rfl, ?_, ?_⟩
  · rw [writeBackAt_length, hSH3def,
      foldl_length_set (fun sh i => sh.set i (allocShard (sh.getD i none) size))
        (fun sh i => by rw [List.length_set]) MP SH2,
      hSH2def, writeBackAt_length, hSH1len2]
  · intro i hi
    rw [writeBackAt_not_mem SH3 MP newOutsP i
        (fun hmem => by have := hMPge i hmem; omega),
      hSH3def,
      setFold_not_mem size MP SH2 i
        (fun x hx => by have := hMPge x hx; omega)]
    by_cases hz : slen (shards.getD i none) = 0
    · have hiMD : i ∈ MD := by
        rw [hMDdef]
        exact List.mem_filter.mpr ⟨List.mem_range.mpr hi, decide_eq_true hz⟩
      obtain ⟨k, hk, hgk⟩ := List.mem_iff_getElem.mp hiMD
      have hgdk : MD.getD k 0 = i := by rw [getD_eq_getElem MD 0 hk, hgk]
      rw [← hgdk]
      have hSH1i : SH1.getD (MD.getD k 0) none = mkShard size := by
        rw [hSH1def, getD_map_range _ _
          (show MD.getD k 0 < r.Shards by rw [hgdk]; omega)]
        show (if MD.getD k 0 < r.DataShards ∧
            slen (shards.getD (MD.getD k 0) none) = 0 then
          allocShard (shards.getD (MD.getD k 0) none) size
          else shards.getD (MD.getD k 0) none) = mkShard size
        rw [if_pos (by rw [hgdk]; exact ⟨hi, hz⟩),
          show shards.getD (MD.getD k 0) none = none from by
            rw [hgdk]
            exact hnil i (by omega) hz,
          allocShard_none size hsz]
      have hnewOutsk : newOuts.getD k [] =
          codedView matrixRows subShards r.DataShards size k := by
        rw [hnodef, hcs, getD_map_range _ _ (show k < outputs.length from by
          rw [houtdef, List.length_map]
          exact hk)]
      have hSH2k : SH2.getD (MD.getD k 0) none =
          writeBack (mkShard size)
            (codedView matrixRows subShards r.DataShards size k) := by
        rw [hSH2def, writeBackAt_getD SH1 MD newOuts k hMDinc2
          (by
            intro x hx
            rw [hSH1len2]
            have := hMDboundD x hx
            omega)
          hk
          (by
            rw [hnodef, codeSomeShards_length, houtdef, List.length_map]
            exact hk),
          hSH1i, hnewOutsk]
      rw [hSH2k, sview_writeBack _ _ (by rw [codedView_length]; rfl)]
      refine ⟨codedView_length _ _ _ _ _, ?_⟩
      intro t ht
      rw [codedView_getD _ _ _ _ _ _ ht]
      have hlist2 : ∀ c ∈ List.range r.DataShards,
          entry matrixRows k c * ((subShards.getD c []).getD t 0) =
          entry DD (MD.getD k 0) c *
            gfSum ((List.range r.DataShards).map fun c2 =>
              entry (V.map fun vi => (List.range r.DataShards).map fun c3 =>
                entry r.m vi c3) c c2 * dv c2 t) := by
        intro c hc
        have hcd := List.mem_range.mp hc
        rw [hmrdef, show entry (MD.map fun i2 => DD.getD i2 []) k c =
            entry DD (MD.getD k 0) c from by
          unfold entry
          rw [getD_map _ MD 0 _ hk]]
        rw [hsubgetD c hcd]
        have hm : V.getD c 0 ∈ V := getD_mem _ _ (by rw [hVlen]; omega)
        rw [hview (V.getD c 0) (hVbound _ hm) (hVpres _ hm) t ht]
        apply congrArg (fun z => entry DD (MD.getD k 0) c * z)
        apply congrArg gfSum
        apply List.map_congr_left
        intro c2 hc2
        rw [hsubentry c c2 hcd (List.mem_range.mp hc2)]
      rw [List.map_congr_left hlist2]
      exact decode_bytes r.DataShards DD
        (V.map fun vi => (List.range r.DataShards).map fun c3 =>
          entry r.m vi c3)
        (fun c => dv c t) (MD.getD k 0) (by rw [hgdk]; exact hi) hinvDD
    · have hSH2i : SH2.getD i none = shards.getD i none := by
        rw [hSH2def, writeBackAt_not_mem SH1 MD newOuts i (fun hmem => by
          rw [hMDdef] at hmem
          exact hz (of_decide_eq_true (List.mem_filter.mp hmem).2))]
        rw [hSH1def, getD_map_range _ _ (show i < r.Shards by omega)]
        show (if i < r.DataShards ∧ slen (shards.getD i none) = 0 then
          allocShard (shards.getD i none) size else shards.getD i none) =
          shards.getD i none
        rw [if_neg (fun hc => hz hc.2)]
      rw [hSH2i]
      refine ⟨?_, ?_⟩
      · rw [sview_length _ (hwf _ (getD_mem shards none (by omega)))]
        rcases hpresent i (by omega) with h0 | h0
        · exact absurd h0 hz
        · exact h0
      · intro t ht
        have hlist : ((List.range r.DataShards).map fun c =>
            entry r.m i c * dv c t) =
            (List.range r.DataShards).map fun c =>
              (if i = c then 1 else 0) * dv c t :=
          List.map_congr_left (fun c hc => by
            rw [htop i c hi (List.mem_range.mp hc)])
        rw [hview i (by omega) hz t ht, hlist,
          gfSum_range_delta r.DataShards i hi]

theorem slen_writeBack (s : Shard) (v : List GF) (h : slen s ≠ 0) :
    slen (writeBack s v) = slen s := by
  cases s with
  | none => exact absurd rfl h
  | some sl => rfl

theorem wfShard_writeBack (s : Shard) (v : List GF) (h : v.length = slen s) :
    wfShard (writeBack s v) := by
  cases s with
  | none =>
    show (v.length : Nat) ≤ v.length
    exact Nat.le_refl _
  | some sl =>
    show sl.len ≤ (v ++ sl.buf.drop v.length).length
    rw [List.length_append, List.length_drop]
    have h2 : v.length = sl.len := h
    omega

theorem wfShard_none : wfShard (none : Shard) := Nat.le_refl 0

theorem New_good (d p : Nat) (kind : MatrixKind) (r : reedSolomon)
    (hkind : kind = MatrixKind.defaultMatrix ∨ kind = MatrixKind.cauchy)
    (hnew : New d p kind = .ok r) :
    r.DataShards = d ∧ r.ParityShards = p ∧ 0 < d ∧ 0 < p ∧ d + p ≤ 256 ∧
    (∀ i c, i < r.DataShards → c < r.DataShards →
      entry r.m i c = if i = c then 1 else 0) ∧
    (∀ valid : List Nat, valid.length = r.DataShards →
      isIncremental valid = true → (∀ x ∈ valid, x < r.Shards) →
      ∃ DD, matInvert (valid.map fun vi =>
        (List.range r.DataShards).map fun c => entry r.m vi c) = .ok DD) := by
  unfold New at hnew
  by_cases h0 : d = 0 ∨ p = 0
  · rw [if_pos h0] at hnew
    exact Except.noConfusion hnew
  rw [if_neg h0] at hnew
  by_cases h256 : 256 < d + p
  · rw [if_pos h256] at hnew
    exact Except.noConfusion hnew
  rw [if_neg h256] at hnew
  have hd0 : 0 < d := by omega
  have hp0 : 0 < p := by omega
  rcases hkind with rfl | rfl
  · obtain ⟨m, T, hbm, hT, hdT, hmlen, hrows, hment⟩ :=
      buildMatrix_ok d (d + p) hd0 (by omega) (by omega)
    have hnew2 : Except.map (fun mm => (⟨d, p, mm,
        MatrixKind.defaultMatrix⟩ : reedSolomon)) (buildMatrix d (d + p)) =
        .ok r := hnew
    rw [hbm] at hnew2
    have hnew3 : Except.ok (⟨d, p, m, MatrixKind.defaultMatrix⟩ : reedSolomon) =
        .ok r := hnew2
    injection hnew3 with hr
    subst hr
    refine ⟨rfl, rfl, hd0, hp0, by omega, ?_, ?_⟩
    · exact buildMatrix_top_identity d (d + p) hd0 (by omega) hT hment
    · intro valid hvl hvinc hvb
      exact subMatrix_invert_ok d (d + p) T m valid hd0 (by omega) hT hment
        hvl hvinc hvb (by omega)
  · have hnew2 : Except.ok (⟨d, p, buildMatrixCauchy d (d + p),
        MatrixKind.cauchy⟩ : reedSolomon) = .ok r := hnew
    injection hnew2 with hr
    subst hr
    refine ⟨rfl, rfl, hd0, hp0, by omega, ?_, ?_⟩
    · exact buildMatrixCauchy_top_identity d (d + p) (by omega)
    · intro valid hvl hvinc hvb
      exact cauchy_submatrix_invert_ok d (d + p) valid hd0 (by omega) (by omega)
        hvl hvinc hvb

theorem Split_ok (r : reedSolomon) (data : List GF) (hne : ¬ data.length = 0)
    (hd : 0 < r.DataShards) :
    ∃ shards0, Split r data = .ok shards0 ∧
      shards0.length = r.Shards ∧
      ∀ s ∈ shards0, slen s = (data.length + r.DataShards - 1) / r.DataShards ∧
        wfShard s := by
  have hS : r.Shards = r.DataShards + r.ParityShards := rfl
  have h1 := Nat.div_add_mod (data.length + r.DataShards - 1) r.DataShards
  have h2 : (data.length + r.DataShards - 1) % r.DataShards < r.DataShards :=
    Nat.mod_lt _ hd
  have hA : data.length ≤
      r.DataShards * ((data.length + r.DataShards - 1) / r.DataShards) := by
    omega
  have hB : r.DataShards * ((data.length + r.DataShards - 1) / r.DataShards) ≤
      r.Shards * ((data.length + r.DataShards - 1) / r.DataShards) :=
    Nat.mul_le_mul_right _ (by omega)
  unfold Split
  rw [if_neg hne]
  simp only
  refine ⟨_, rfl, ?_, ?_⟩
  · rw [List.length_map, List.length_range]
  · intro s hs
    obtain ⟨i, hi, rfl⟩ := List.mem_map.mp hs
    have hiS : i < r.Shards := List.mem_range.mp hi
    have h4 : (i + 1) * ((data.length + r.DataShards - 1) / r.DataShards) ≤
        r.Shards * ((data.length + r.DataShards - 1) / r.DataShards) :=
      Nat.mul_le_mul_right _ (by omega)
    have h5 : (i + 1) * ((data.length + r.DataShards - 1) / r.DataShards) =
        i * ((data.length + r.DataShards - 1) / r.DataShards) +
        (data.length + r.DataShards - 1) / r.DataShards := Nat.succ_mul _ _
    refine ⟨rfl, ?_⟩
    show (data.length + r.DataShards - 1) / r.DataShards ≤
      (((data ++ List.replicate (r.Shards *
        ((data.length + r.DataShards - 1) / r.DataShards) - data.length) 0).drop
        (i * ((data.length + r.DataShards - 1) / r.DataShards))).take
        ((data.length + r.DataShards - 1) / r.DataShards)).length
    rw [List.length_take, List.length_drop, List.length_append,
      List.length_replicate]
    omega

/-- C1: round-trip reconstruction.  For every encoder built by `New` with
the default (Vandermonde-systematic) or Cauchy matrix, every nonempty byte
string split into shards by `Split` and encoded by `Encode`, and every
survivor predicate `keep` selecting at least `DataShards` of the `Shards`
indices, calling `Reconstruct` on the shard vector in which exactly the
shards outside the survivor set are nil restores every data shard
byte-identical to its value after `Encode`. -/
theorem Reconstruct_roundtrip (d p : Nat) (kind : MatrixKind) (r : reedSolomon)
    (hkind : kind = MatrixKind.defaultMatrix ∨ kind = MatrixKind.cauchy)
    (hnew : New d p kind = .ok r)
    (data : List GF) (hne : ¬ data.length = 0)
    (shards0 : List Shard) (hsplit : Split r data = .ok shards0)
    (keep : Nat → Bool)
    (hS : r.DataShards ≤ ((List.range r.Shards).filter keep).length) :
    ∃ encoded, Encode r shards0 = (none, encoded) ∧
      ∃ out, Reconstruct r ((List.range r.Shards).map fun i =>
          if keep i then encoded.getD i none else none) = (none, out) ∧
        ∀ i, i < r.DataShards →
          sview (out.getD i none) = sview (encoded.getD i none) := by
  obtain ⟨hrd, hrp, hd0, hp0, h256, htop, hsub⟩ := New_good d p kind r hkind hnew
  have hS0 : r.Shards = r.DataShards + r.ParityShards := rfl
  have hd : 0 < r.DataShards := by omega
  have hp : 0 < r.ParityShards := by omega
  obtain ⟨sh0, hsp, hlen0, hprops⟩ := Split_ok r data hne hd
  rw [hsplit] at hsp
  injection hsp with hsh
  subst hsh
  set size := (data.length + r.DataShards - 1) / r.DataShards with hsizedef
  have hszpos : 0 < size := by
    rw [hsizedef]
    exact Nat.div_pos (by omega) hd
  have huni0 : ∀ s ∈ shards0, slen s = size := fun s hs => (hprops s hs).1
  have hwf0 : ∀ s ∈ shards0, wfShard s := fun s hs => (hprops s hs).2
  have henc := Encode_happy r shards0 size hszpos hd hlen0 huni0 hwf0
  refine ⟨_, henc, ?_⟩
  set ENC := shards0.take r.DataShards ++
    (List.range r.ParityShards).map fun j =>
      writeBack (shards0.getD (r.DataShards + j) none)
        (codedView r.m ((shards0.take r.DataShards).map sview) r.DataShards size
          (r.DataShards + j)) with hENCdef
  have hENClen : ENC.length = r.Shards := by
    rw [hENCdef, List.length_append, List.length_take, List.length_map,
      List.length_range, hlen0]
    omega
  have hENCd : ∀ i, i < r.DataShards →
      ENC.getD i none = shards0.getD i none := by
    intro i hi
    rw [hENCdef, getD_append_left _ _ _ (by rw [List.length_take, hlen0]; omega),
      getD_take _ _ hi]
  have hENCp : ∀ j, j < r.ParityShards → ENC.getD (r.DataShards + j) none =
      writeBack (shards0.getD (r.DataShards + j) none)
        (codedView r.m ((shards0.take r.DataShards).map sview) r.DataShards size
          (r.DataShards + j)) := by
    intro j hj
    rw [hENCdef, getD_append_right _ _ _ (by rw [List.length_take, hlen0]; omega),
      show r.DataShards + j - (shards0.take r.DataShards).length = j from by
        rw [List.length_take, hlen0]
        omega,
      getD_map_range _ _ hj]
  have hmem0 : ∀ i, i < r.Shards → shards0.getD i none ∈ shards0 :=
    fun i hi => getD_mem shards0 none (by rw [hlen0]; exact hi)
  have hENCslen : ∀ i, i < r.Shards → slen (ENC.getD i none) = size := by
    intro i hi
    by_cases hid : i < r.DataShards
    · rw [hENCd i hid]
      exact huni0 _ (hmem0 i hi)
    · have hj : i - r.DataShards < r.ParityShards := by omega
      rw [show i = r.DataShards + (i - r.DataShards) from by omega,
        hENCp _ hj, slen_writeBack _ _ (by
          rw [huni0 _ (hmem0 (r.DataShards + (i - r.DataShards)) (by omega))]
          omega)]
      exact huni0 _ (hmem0 _ (by omega))
  have hENCwf : ∀ s ∈ ENC, wfShard s := by
    intro s hs
    rw [hENCdef] at hs
    rcases List.mem_append.mp hs with h1 | h1
    · exact hwf0 _ (List.mem_of_mem_take h1)
    · obtain ⟨j, hj, rfl⟩ := List.mem_map.mp h1
      have hjp : j < r.ParityShards := List.mem_range.mp hj
      apply wfShard_writeBack
      rw [codedView_length, huni0 _ (hmem0 (r.DataShards + j) (by omega))]
  have hENCview : ∀ i, i < r.Shards → ∀ t, t < size →
      (sview (ENC.getD i none)).getD t 0 =
      gfSum ((List.range r.DataShards).map fun c =>
        entry r.m i c * (sview (shards0.getD c none)).getD t 0) := by
    intro i hi t ht
    by_cases hid : i < r.DataShards
    · rw [hENCd i hid]
      have hlist : ((List.range r.DataShards).map fun c =>
          entry r.m i c * (sview (shards0.getD c none)).getD t 0) =
          (List.range r.DataShards).map fun c =>
            (if i = c then 1 else 0) * (sview (shards0.getD c none)).getD t 0 :=
        List.map_congr_left (fun c hc => by
          rw [htop i c hid (List.mem_range.mp hc)])
      rw [hlist, gfSum_range_delta r.DataShards i hid]
    · have hj : i - r.DataShards < r.ParityShards := by omega
      rw [show i = r.DataShards + (i - r.DataShards) from by omega, hENCp _ hj,
        sview_writeBack _ _ (by
          rw [codedView_length, huni0 _ (hmem0 _ (by omega))]),
        codedView_getD _ _ _ _ _ _ ht]
      apply congrArg gfSum
      apply List.map_congr_left
      intro c hc
      have hcd := List.mem_range.mp hc
      rw [getD_map sview (shards0.take r.DataShards) none _
          (by rw [List.length_take, hlen0]; omega),
        getD_take _ _ hcd]
  set MSK := (List.range r.Shards).map fun i =>
    if keep i then ENC.getD i none else none with hMSKdef
  have hMSKlen : MSK.length = r.Shards := by
    rw [hMSKdef, List.length_map, List.length_range]
  have hMSKget : ∀ i, i < r.Shards → MSK.getD i none =
      if keep i then ENC.getD i none else none := by
    intro i hi
    rw [hMSKdef, getD_map_range _ _ hi]
  have hMSKpres : ∀ i, i < r.Shards →
      slen (MSK.getD i none) = 0 ∨ slen (MSK.getD i none) = size := by
    intro i hi
    rw [hMSKget i hi]
    cases hk : keep i with
    | false =>
      left
      rfl
    | true =>
      right
      rw [if_pos rfl]
      exact hENCslen i hi
  have hMSKnil : ∀ i, i < r.Shards → slen (MSK.getD i none) = 0 →
      MSK.getD i none = none := by
    intro i hi h0
    rw [hMSKget i hi] at h0 ⊢
    cases hk : keep i with
    | false => rfl
    | true =>
      rw [hk, if_pos rfl, hENCslen i hi] at h0
      exact absurd h0 (by omega)
  have hMSKwf : ∀ s ∈ MSK, wfShard s := by
    intro s hs
    rw [hMSKdef] at hs
    obtain ⟨i, hi, rfl⟩ := List.mem_map.mp hs
    have hiS : i < r.Shards := List.mem_range.mp hi
    cases hk : keep i with
    | false => exact wfShard_none
    | true => exact hENCwf _ (getD_mem ENC none (by rw [hENClen]; exact hiS))
  have hnp : numberPresent MSK = ((List.range r.Shards).filter keep).length := by
    rw [numberPresent_range MSK, hMSKlen]
    apply congrArg List.length
    apply List.filter_congr
    intro i hi
    have hiS := List.mem_range.mp hi
    rw [hMSKget i hiS]
    cases hk : keep i with
    | false => rfl
    | true =>
      exact decide_eq_true (show slen (ENC.getD i none) ≠ 0 from by
        rw [hENCslen i hiS]
        omega)
  have hcount : r.DataShards ≤ numberPresent MSK := by
    rw [hnp]
    exact hS
  by_cases hall : ∀ i, i < r.Shards → keep i = true
  · have hMSKeq : MSK = ENC := by
      apply List.ext_getElem (by rw [hMSKlen, hENClen])
      intro i h1 h2
      rw [← getD_eq_getElem MSK none h1, ← getD_eq_getElem ENC none h2,
        hMSKget i (by rw [← hMSKlen]; exact h1),
        if_pos (hall i (by rw [← hMSKlen]; exact h1))]
    rw [hMSKeq]
    have hENCne : ∃ s ∈ ENC, slen s ≠ 0 := by
      refine ⟨ENC.getD 0 none, getD_mem ENC none (by rw [hENClen]; omega), ?_⟩
      rw [hENCslen 0 (by omega)]
      omega
    have hENCmix : ∀ s ∈ ENC, slen s = size ∨ slen s = 0 := by
      intro s hs
      obtain ⟨i, hi, hgi⟩ := List.mem_iff_getElem.mp hs
      left
      rw [← hgi, ← getD_eq_getElem ENC none hi]
      exact hENCslen i (by rw [← hENClen]; exact hi)
    have hnpE : numberPresent ENC = r.Shards := by
      unfold numberPresent
      rw [List.filter_eq_self.mpr (by
        intro s hs
        apply decide_eq_true
        obtain ⟨i, hi, hgi⟩ := List.mem_iff_getElem.mp hs
        rw [← hgi, ← getD_eq_getElem ENC none hi,
          hENCslen i (by rw [← hENClen]; exact hi)]
        omega), hENClen]
    exact ⟨ENC, (reconstruct_presence r ENC hENClen
      (checkShards_mixed ENC size hszpos hENCmix hENCne)).1 hnpE,
      fun i hi => rfl⟩
  · push_neg at hall
    obtain ⟨i0, hi0, hk0⟩ := hall
    have hk0f : keep i0 = false := by
      cases hkk : keep i0 with
      | false => rfl
      | true => exact absurd hkk hk0
    have hnotall : numberPresent MSK ≠ r.Shards := by
      have h1 : slen (MSK.getD i0 none) = 0 := by
        rw [hMSKget i0 hi0, hk0f]
        rfl
      have h2 := numberPresent_lt MSK i0 (by rw [hMSKlen]; exact hi0) h1
      rw [hMSKlen] at h2
      omega
    have hMSKview : ∀ i, i < r.Shards → slen (MSK.getD i none) ≠ 0 →
        ∀ t, t < size → (sview (MSK.getD i none)).getD t 0 =
        gfSum ((List.range r.DataShards).map fun c =>
          entry r.m i c * (sview (shards0.getD c none)).getD t 0) := by
      intro i hi hsl t ht
      have hki : keep i = true := by
        cases hkk : keep i with
        | true => rfl
        | false =>
          rw [hMSKget i hi, hkk] at hsl
          exact absurd rfl hsl
      rw [hMSKget i hi, hki, if_pos rfl]
      exact hENCview i hi t ht
    obtain ⟨out, hrec, houtl, hbytes⟩ := reconstruct_decodes r MSK size
      (fun c t => (sview (shards0.getD c none)).getD t 0) hszpos hd hMSKlen
      hMSKpres hMSKnil hMSKwf hcount hnotall htop hMSKview hsub
    refine ⟨out, hrec, ?_⟩
    intro i hi
    obtain ⟨hli, hbi⟩ := hbytes i hi
    apply List.ext_getElem
    · rw [hli, sview_length _ (hENCwf _ (getD_mem ENC none
        (by rw [hENClen]; omega))), hENCslen i (by omega)]
    · intro t h1 h2
      have ht : t < size := by rw [hli] at h1; exact h1
      rw [← getD_eq_getElem _ 0 h1, ← getD_eq_getElem _ 0 h2, hbi t ht,
        hENCd i hi]

/-- Witness for `Reconstruct_roundtrip`: a 1+1 Cauchy encoder, the single
data byte 5, and the survivor set holding only the parity shard. -/
theorem Reconstruct_roundtrip_witness :
    ∃ encoded, Encode ⟨1, 1, buildMatrixCauchy 1 2, MatrixKind.cauchy⟩
        [some ⟨1, [gfByte 5]⟩, some ⟨1, [gfByte 0]⟩] = (none, encoded) ∧
      ∃ out, Reconstruct ⟨1, 1, buildMatrixCauchy 1 2, MatrixKind.cauchy⟩
          ((List.range 2).map fun i =>
            if decide (i = 1) then encoded.getD i none else none) =
          (none, out) ∧
        ∀ i, i < 1 → sview (out.getD i none) = sview (encoded.getD i none) :=
  Reconstruct_roundtrip 1 1 MatrixKind.cauchy
    ⟨1, 1, buildMatrixCauchy 1 2, MatrixKind.cauchy⟩ (Or.inr rfl) rfl
    [gfByte 5] (by decide)
    [some ⟨1, [gfByte 5]⟩, some ⟨1, [gfByte 0]⟩] (by rfl)
    (fun i => decide (i = 1)) (by decide)

theorem gfSum_mul_right (c : GF) (l : List GF) :
    gfSum l * c = gfSum (l.map fun a => a * c) := by
  rw [mul_comm, gfSum_mul_left]
  apply congrArg gfSum
  apply List.map_congr_left
  intro a _
  exact mul_comm c a

theorem incr_eq_of_mem_iff : ∀ (l1 l2 : List Nat), isIncremental l1 = true →
    isIncremental l2 = true → (∀ x, x ∈ l1 ↔ x ∈ l2) → l1 = l2 := by
  intro l1
  induction l1 with
  | nil =>
    intro l2 _ _ hm
    cases l2 with
    | nil => rfl
    | cons b s => exact absurd ((hm b).mpr (List.mem_cons_self b s)) (by simp)
  | cons a t ih =>
    intro l2 h1 h2 hm
    cases l2 with
    | nil => exact absurd ((hm a).mp (List.mem_cons_self a t)) (by simp)
    | cons b s =>
      have hab : a = b := by
        have ha2 : a ∈ b :: s := (hm a).mp (List.mem_cons_self a t)
        have hb1 : b ∈ a :: t := (hm b).mpr (List.mem_cons_self b s)
        rcases List.mem_cons.mp ha2 with h0 | h0
        · exact h0
        · rcases List.mem_cons.mp hb1 with h3 | h3
          · exact h3.symm
          · have h4 := incr_head_lt h2 a h0
            have h5 := incr_head_lt h1 b h3
            omega
      subst hab
      have hts : ∀ x, x ∈ t ↔ x ∈ s := by
        intro x
        constructor
        · intro hx
          have hax : a < x := incr_head_lt h1 x hx
          rcases List.mem_cons.mp ((hm x).mp (List.mem_cons_of_mem a hx)) with
            h0 | h0
          · omega
          · exact h0
        · intro hx
          have hax : a < x := incr_head_lt h2 x hx
          rcases List.mem_cons.mp ((hm x).mpr (List.mem_cons_of_mem a hx)) with
            h0 | h0
          · omega
          · exact h0
      rw [ih s (incr_tail h1) (incr_tail h2) hts]

theorem incr_map_getD (sel l : List Nat) (hinc : isIncremental l = true)
    (hsel : isIncremental sel = true) (hb : ∀ x ∈ l, x < sel.length) :
    isIncremental (l.map fun j => sel.getD j 0) = true := by
  induction l with
  | nil => rfl
  | cons a t ih =>
    rw [List.map_cons]
    apply incr_cons
      (ih (incr_tail hinc) (fun x hx => hb x (List.mem_cons_of_mem a hx)))
    intro x hx
    obtain ⟨j, hj, rfl⟩ := List.mem_map.mp hx
    exact incr_getD_lt sel a j hsel (incr_head_lt hinc j hj)
      (hb j (List.mem_cons_of_mem a hj))

theorem entry_matMultiply {A B F : Mat} (h : matMultiply A B = .ok F) {i c : Nat}
    (hi : i < A.length) (hc : c < matCols B) :
    entry F i c = gfSum ((List.range B.length).map fun t =>
      (A.getD i []).getD t 0 * entry B t c) := by
  unfold matMultiply at h
  by_cases hcd : matCols A ≠ B.length
  · rw [if_pos hcd] at h
    exact Except.noConfusion h
  · rw [if_neg hcd] at h
    have h2 := Except.ok.inj h
    subst h2
    unfold entry
    rw [getD_map _ A [] _ hi, getD_map_range _ _ hc]

theorem left_one_pointwise {A R : Mat} {n : Nat} (hd : matDims A n)
    (hok : matInvert A = .ok R) : ∀ i j, i < n → j < n →
    gfSum ((List.range n).map fun t => entry A i t * entry R t j) =
      if i = j then 1 else 0 := by
  intro i j hi hj
  have h1 := matInvert_toSq_one hd hok
  have h2 := Matrix.mul_eq_one_comm.mp h1
  have h3 : (toSq A n * toSq R n) ⟨i, hi⟩ ⟨j, hj⟩ =
      (1 : Matrix (Fin n) (Fin n) GF) ⟨i, hi⟩ ⟨j, hj⟩ := by rw [h2]
  rw [Matrix.mul_apply, Matrix.one_apply] at h3
  rw [gfSum_range_finsum_fin]
  calc ∑ t : Fin n, entry A i t.val * entry R t.val j
      = ∑ t : Fin n, (toSq A n) ⟨i, hi⟩ t * (toSq R n) t ⟨j, hj⟩ := rfl
    _ = if (⟨i, hi⟩ : Fin n) = ⟨j, hj⟩ then 1 else 0 := h3
    _ = if i = j then 1 else 0 := if_congr Fin.mk_eq_mk rfl rfl

theorem gfSum_mates_sel (k : Nat) (sel mates : List Nat) (F : Nat → GF)
    (hselinc : isIncremental sel = true) (hminc : isIncremental mates = true)
    (hsellen : sel.length = k)
    (hsub : ∀ a ∈ mates, a ∈ sel) :
    gfSum (mates.map F) =
      gfSum ((List.range k).map fun j =>
        (if mates.contains (sel.getD j 0) = true then (1 : GF) else 0) *
          F (sel.getD j 0)) := by
  have hfz : gfSum ((List.range k).map fun j =>
      (if mates.contains (sel.getD j 0) = true then (1 : GF) else 0) *
        F (sel.getD j 0)) =
      gfSum (((List.range k).filter fun j =>
        mates.contains (sel.getD j 0)).map fun j =>
        (if mates.contains (sel.getD j 0) = true then (1 : GF) else 0) *
          F (sel.getD j 0)) :=
    gfSum_filter_zero _ _ _ (by
      intro j _ hpj
      rw [hpj, if_neg (by decide), zero_mul])
  rw [hfz]
  have hsimp : (((List.range k).filter fun j =>
      mates.contains (sel.getD j 0)).map fun j =>
        (if mates.contains (sel.getD j 0) = true then (1 : GF) else 0) *
          F (sel.getD j 0)) =
      ((List.range k).filter fun j =>
        mates.contains (sel.getD j 0)).map fun j => F (sel.getD j 0) := by
    apply List.map_congr_left
    intro j hj
    rw [if_pos (List.mem_filter.mp hj).2, one_mul]
  rw [hsimp]
  have hLinc : isIncremental (((List.range k).filter fun j =>
      mates.contains (sel.getD j 0)).map fun j => sel.getD j 0) = true :=
    incr_map_getD sel _ (incr_filter_range _ _) hselinc (by
      intro x hx
      rw [hsellen]
      exact List.mem_range.mp (List.mem_of_mem_filter hx))
  have hLmem : ∀ x, x ∈ (((List.range k).filter fun j =>
      mates.contains (sel.getD j 0)).map fun j => sel.getD j 0) ↔ x ∈ mates := by
    intro x
    constructor
    · intro hx
      obtain ⟨j, hj, rfl⟩ := List.mem_map.mp hx
      exact (contains_iff_mem _ _).mp (List.mem_filter.mp hj).2
    · intro hx
      have hxsel : x ∈ sel := hsub x hx
      obtain ⟨j, hjl, hje⟩ := List.mem_iff_getElem.mp hxsel
      apply List.mem_map.mpr
      refine ⟨j, ?_, ?_⟩
      · apply List.mem_filter.mpr
        refine ⟨List.mem_range.mpr (by omega), ?_⟩
        rw [getD_eq_getElem sel 0 hjl, hje]
        exact (contains_iff_mem _ _).mpr hx
      · rw [getD_eq_getElem sel 0 hjl, hje]
  have hLeq := incr_eq_of_mem_iff _ _ hLinc hminc hLmem
  nth_rewrite 1 [← hLeq]
  rw [List.map_map]
  apply congrArg gfSum
  apply List.map_congr_left
  intro j _
  rfl

theorem represent_unique (k : Nat) (S dd : Mat) (g : Nat → GF) (row : Nat → GF)
    (c : Nat) (hc : c < k)
    (hrowg : ∀ t, t < k → row t =
      gfSum ((List.range k).map fun j => g j * entry S j t))
    (hSd : ∀ i j, i < k → j < k →
      gfSum ((List.range k).map fun t => entry S i t * entry dd t j) =
        if i = j then 1 else 0) :
    gfSum ((List.range k).map fun t => row t * entry dd t c) = g c := by
  have h1 : ((List.range k).map fun t => row t * entry dd t c) =
      (List.range k).map fun t => gfSum ((List.range k).map fun j =>
        g j * entry S j t * entry dd t c) := by
    apply List.map_congr_left
    intro t htm
    rw [hrowg t (List.mem_range.mp htm), gfSum_mul_right]
    apply congrArg gfSum
    rw [List.map_map]
    apply List.map_congr_left
    intro j _
    rfl
  rw [h1, gfSum_swap]
  have h2 : ∀ j ∈ List.range k,
      gfSum ((List.range k).map fun t => g j * entry S j t * entry dd t c) =
      g j * gfSum ((List.range k).map fun t => entry S j t * entry dd t c) := by
    intro j _
    rw [gfSum_mul_left]
    apply congrArg gfSum
    rw [List.map_map]
    apply List.map_congr_left
    intro t _
    show g j * entry S j t * entry dd t c = g j * (entry S j t * entry dd t c)
    ring
  rw [List.map_congr_left h2]
  have h3 : ∀ j ∈ List.range k,
      g j * gfSum ((List.range k).map fun t => entry S j t * entry dd t c) =
      (if c = j then 1 else 0) * g j := by
    intro j hj
    rw [hSd j c (List.mem_range.mp hj) hc]
    by_cases hjc : j = c
    · subst hjc
      rw [if_pos rfl, mul_one, one_mul]
    · rw [if_neg hjc, if_neg (fun h0 => hjc h0.symm), mul_zero, zero_mul]
  rw [List.map_congr_left h3, gfSum_range_delta k c hc]

/-- C3 (amended): for a single failure `[b]` under the AzureLRC+1 policy,
`GetSurvivalShards` returns as `read_shards` the other members of the failed
shard's AZ — of size `|AZ| - 1`, which equals `n/(l-1)` only for data-AZ
failures of the canonical layout — and the selected survival combination
contains that read set; moreover `PartialReconstruct` run with only the
read shards present recovers the failed shard byte for byte, given the LRC
local-repair identity that the failed shard's encode-matrix row is the
GF-sum of its AZ mates' rows. -/
theorem GetSurvivalShards_LRC_repair (r : reedSolomon) (b azIdx : Nat)
    (azLayout : List (List Nat)) (az sel comb : List Nat)
    (shards : List Shard) (size : Nat) (dv : Nat → Nat → GF)
    (hkind : r.kind = MatrixKind.azureLrcP1)
    (henough : ¬(r.Shards - 1 < r.DataShards))
    (hfind : (azLayout.findIdx? fun layout => layout.contains b) = some azIdx)
    (hazget : azLayout.getD azIdx [] = az)
    (hfound : ((combOrbit ((List.range r.Shards).filter fun i =>
          !(List.contains [b] i)).length r.DataShards
        (Nat.choose ((List.range r.Shards).filter fun i =>
          !(List.contains [b] i)).length r.DataShards)
        (List.range r.DataShards)).find?
        (comboOk r.DataShards r.m (az.filter fun s => decide (s ≠ b)) true
          ((List.range r.Shards).filter fun i => !(List.contains [b] i))))
        = some comb)
    (hsel : selShards ((List.range r.Shards).filter fun i =>
      !(List.contains [b] i)) comb = sel)
    (hsellen : sel.length = r.DataShards)
    (hselinc : isIncremental sel = true)
    (hselbound : ∀ x ∈ sel, x < r.Shards)
    (hbns : ¬ b ∈ sel)
    (hazinc : isIncremental (az.filter fun s => decide (s ≠ b)) = true)
    (hrow : ∀ c, c < r.DataShards → entry r.m b c =
      gfSum ((az.filter fun s => decide (s ≠ b)).map fun a => entry r.m a c))
    (hsz : 0 < size) (hd : 0 < r.DataShards)
    (hlen : shards.length = r.Shards) (hb : b < r.Shards)
    (hnp : numberPresent shards ≠ r.Shards)
    (hpresm : ∀ i, i < r.Shards → slen (shards.getD i none) ≠ 0 →
      (az.filter fun s => decide (s ≠ b)).contains i = true)
    (hmpres : ∀ i ∈ az.filter fun s => decide (s ≠ b),
      slen (shards.getD i none) = size)
    (hwf : ∀ s ∈ shards, wfShard s)
    (hsize : shardSize shards = size)
    (hview : ∀ i ∈ az.filter fun s => decide (s ≠ b), ∀ t, t < size →
      (sview (shards.getD i none)).getD t 0 =
      gfSum ((List.range r.DataShards).map fun c => entry r.m i c * dv c t)) :
    GetSurvivalShards r [b] azLayout =
      (none, sel, az.filter fun s => decide (s ≠ b)) ∧
    isContainedIn (az.filter fun s => decide (s ≠ b)) sel = true ∧
    ∃ out, PartialReconstruct r shards sel [b] = (none, out) ∧
      ∀ t, t < size → (sview (out.getD b none)).getD t 0 =
        gfSum ((List.range r.DataShards).map fun c =>
          entry r.m b c * dv c t) := by
  have hfs := List.find?_some hfound
  have hgss : GetSurvivalShards r [b] azLayout =
      (none, sel, az.filter fun s => decide (s ≠ b)) := by
    unfold GetSurvivalShards
    rw [if_neg (show ¬(([b] : List Nat).length = 0) from fun h =>
        Nat.succ_ne_zero 0 h),
      if_neg (show ¬(r.Shards - ([b] : List Nat).length < r.DataShards) from
        henough)]
    simp only
    rw [if_pos (⟨rfl, hkind⟩ : ([b] : List Nat).length = 1 ∧
      r.kind = MatrixKind.azureLrcP1)]
    rw [show (([b] : List Nat).getD 0 0) = b from rfl, hfind,
      show (some azIdx).getD 0 = azIdx from rfl, hazget,
      show (decide (([b] : List Nat).length = 1) &&
        decide (r.kind = MatrixKind.azureLrcP1)) = true from by
          rw [decide_eq_true hkind]
          rfl]
    have hmain := survLoop_finds_first r.DataShards r.m
      (az.filter fun s => decide (s ≠ b)) true
      ((List.range r.Shards).filter fun i => !(List.contains [b] i))
      ((List.range r.Shards).filter fun i => !(List.contains [b] i)).length
      (Nat.choose ((List.range r.Shards).filter fun i =>
        !(List.contains [b] i)).length r.DataShards)
      (List.range r.DataShards) none
    rw [hfound] at hmain
    rcases hsl : survLoop r.DataShards r.m
        (az.filter fun s => decide (s ≠ b)) true
        ((List.range r.Shards).filter fun i => !(List.contains [b] i))
        ((List.range r.Shards).filter fun i => !(List.contains [b] i)).length
        (Nat.choose ((List.range r.Shards).filter fun i =>
          !(List.contains [b] i)).length r.DataShards)
        (List.range r.DataShards) none with ⟨err, osel⟩
    rw [hsl] at hmain
    have hosel : osel = some (selShards ((List.range r.Shards).filter fun i =>
        !(List.contains [b] i)) comb) := hmain
    rw [hosel]
    show (if ([b] : List Nat).length = 1 then
        ((none : Option RSError), selShards ((List.range r.Shards).filter fun i =>
          !(List.contains [b] i)) comb, az.filter fun s => decide (s ≠ b))
      else (none, selShards ((List.range r.Shards).filter fun i =>
        !(List.contains [b] i)) comb, selShards ((List.range r.Shards).filter fun i =>
        !(List.contains [b] i)) comb)) = _
    rw [if_pos (show ([b] : List Nat).length = 1 from rfl), hsel]
  refine ⟨hgss, ?_⟩
  cases hminv : matInvert ((selShards ((List.range r.Shards).filter fun i =>
      !(List.contains [b] i)) comb).map fun si =>
      (List.range r.DataShards).map fun c => entry r.m si c) with
  | error e =>
    exfalso
    unfold comboOk at hfs
    rw [hminv] at hfs
    exact Bool.false_ne_true hfs
  | ok dd =>
    have hcont : isContainedIn (az.filter fun s => decide (s ≠ b)) sel = true := by
      unfold comboOk at hfs
      rw [hminv] at hfs
      rw [← hsel]
      exact hfs
    refine ⟨hcont, ?_⟩
    rw [hsel] at hminv
    have hdsub : matDims (sel.map fun si => (List.range r.DataShards).map fun c =>
        entry r.m si c) r.DataShards := by
      refine ⟨by rw [List.length_map, hsellen], ?_⟩
      intro i hi
      rw [getD_map _ sel 0 _ (by rw [hsellen]; omega), List.length_map,
        List.length_range]
    have hsubentry : ∀ a c, a < r.DataShards → c < r.DataShards →
        entry (sel.map fun si => (List.range r.DataShards).map fun c2 =>
          entry r.m si c2) a c = entry r.m (sel.getD a 0) c := by
      intro a c ha hc
      unfold entry
      rw [getD_map _ sel 0 _ (by rw [hsellen]; omega), getD_map_range _ _ hc]
    have hddI := matInvert_ok_inverse hdsub hminv
    have hSd := left_one_pointwise hdsub hminv
    have hpsm : partialSubMatrix r sel = sel.map fun si =>
        (List.range r.DataShards).map fun c => entry r.m si c := by
      unfold partialSubMatrix
      rw [map_eq_map_range (fun si => (List.range r.DataShards).map fun c =>
        entry r.m si c) sel 0]
      rw [hsellen]
      apply List.map_congr_left
      intro j hj
      rw [if_pos (List.mem_range.mp hj)]
    have hinvP : matInvert (partialSubMatrix r sel) = .ok dd := by
      rw [hpsm]
      exact hminv
    have hcolsE : matCols (invalidEncodeMat r [b]) = dd.length := by
      rw [invalidEncodeMat_cols, hddI.1.1]
    obtain ⟨fdm, hmul⟩ := matMultiply_ok_of_dims _ _ hcolsE
    have hmates_sel : ∀ a ∈ az.filter fun s => decide (s ≠ b), a ∈ sel := by
      intro a ha
      unfold isContainedIn at hcont
      rw [List.all_eq_true] at hcont
      exact (contains_iff_mem _ _).mp (hcont a ha)
    have hpres2 : ∀ i, i < r.Shards → slen (shards.getD i none) ≠ 0 →
        sel.contains i = true := by
      intro i hi hne2
      exact (contains_iff_mem _ _).mpr (hmates_sel i ((contains_iff_mem _ _).mp
        (hpresm i hi hne2)))
    have hsview2 : ∀ i ∈ sel, slen (shards.getD i none) = 0 ∨
        slen (shards.getD i none) = size := by
      intro i hi2
      by_cases h0 : slen (shards.getD i none) = 0
      · exact Or.inl h0
      · exact Or.inr (hmpres i ((contains_iff_mem _ _).mp
          (hpresm i (hselbound i hi2) h0)))
    obtain ⟨out, hPR, hbytes⟩ := PartialReconstruct_happy r shards sel [b] size
      dd fdm hsz hd hlen hsellen hselinc rfl hselbound
      (by
        intro x hx
        rw [List.mem_singleton] at hx
        subst hx
        exact hb)
      (by
        intro x hx
        rw [List.mem_singleton] at hx
        subst hx
        exact hbns)
      hnp hpres2 hsview2 hwf hsize hinvP hmul
    have hout : sview (out.getD b none) = codedView fdm (sel.map fun idx =>
        if slen (shards.getD idx none) = 0 then List.replicate size 0
        else sview (shards.getD idx none)) r.DataShards size 0 :=
      hbytes 0 Nat.one_pos
    refine ⟨out, hPR, ?_⟩
    intro t ht
    rw [hout, codedView_getD _ _ _ _ _ _ ht]
    have hcolsdd : matCols dd = r.DataShards := by
      unfold matCols
      rw [hddI.1.2 0 (by omega)]
    have hfE : ∀ c, c < r.DataShards → entry fdm 0 c =
        gfSum ((List.range r.DataShards).map fun t2 =>
          entry r.m b t2 * entry dd t2 c) := by
      intro c hc
      rw [entry_matMultiply hmul
        (show 0 < (invalidEncodeMat r [b]).length from by
          unfold invalidEncodeMat
          rw [List.length_map]
          exact Nat.one_pos)
        (by rw [hcolsdd]; exact hc)]
      rw [hddI.1.1]
      apply congrArg gfSum
      apply List.map_congr_left
      intro t2 ht2
      have ht2d := List.mem_range.mp ht2
      rw [show ((invalidEncodeMat r [b]).getD 0 []).getD t2 0 =
          entry r.m b t2 from by
        unfold invalidEncodeMat
        rw [show (([b] : List Nat).map fun bi => (List.range r.DataShards).map
            fun c2 => entry r.m bi c2).getD 0 [] =
            (List.range r.DataShards).map fun c2 => entry r.m b c2 from rfl,
          getD_map_range _ _ ht2d]]
    have hrowg : ∀ t2, t2 < r.DataShards → entry r.m b t2 =
        gfSum ((List.range r.DataShards).map fun j =>
          (if (az.filter fun s => decide (s ≠ b)).contains (sel.getD j 0) = true
            then (1 : GF) else 0) *
          entry (sel.map fun si => (List.range r.DataShards).map fun c2 =>
            entry r.m si c2) j t2) := by
      intro t2 ht2
      rw [hrow t2 ht2, gfSum_mates_sel r.DataShards sel _ _ hselinc hazinc
        hsellen hmates_sel]
      apply congrArg gfSum
      apply List.map_congr_left
      intro j hj
      rw [hsubentry j t2 (List.mem_range.mp hj) ht2]
    have hfg : ∀ c, c < r.DataShards → entry fdm 0 c =
        (if (az.filter fun s => decide (s ≠ b)).contains (sel.getD c 0) = true
          then (1 : GF) else 0) := by
      intro c hc
      rw [hfE c hc]
      exact represent_unique r.DataShards
        (sel.map fun si => (List.range r.DataShards).map fun c2 =>
          entry r.m si c2) dd
        (fun j => if (az.filter fun s => decide (s ≠ b)).contains
          (sel.getD j 0) = true then (1 : GF) else 0)
        (fun t2 => entry r.m b t2) c hc hrowg hSd
    have hL1 : ((List.range r.DataShards).map fun c =>
        entry fdm 0 c * (((sel.map fun idx =>
          if slen (shards.getD idx none) = 0 then List.replicate size 0
          else sview (shards.getD idx none))).getD c []).getD t 0) =
        (List.range r.DataShards).map fun c =>
          (if (az.filter fun s => decide (s ≠ b)).contains (sel.getD c 0) = true
            then (1 : GF) else 0) *
          (sview (shards.getD (sel.getD c 0) none)).getD t 0 := by
      apply List.map_congr_left
      intro c hc
      have hcd := List.mem_range.mp hc
      rw [hfg c hcd,
        show ((sel.map fun idx =>
          if slen (shards.getD idx none) = 0 then List.replicate size 0
          else sview (shards.getD idx none))).getD c [] =
          (if slen (shards.getD (sel.getD c 0) none) = 0 then
            List.replicate size 0 else sview (shards.getD (sel.getD c 0) none))
          from by rw [getD_map _ sel 0 _ (by rw [hsellen]; omega)]]
      cases hcc : (az.filter fun s => decide (s ≠ b)).contains (sel.getD c 0) with
      | false =>
        rw [if_neg (show ¬((false : Bool) = true) from by decide), zero_mul,
          zero_mul]
      | true =>
        rw [if_pos rfl, one_mul, one_mul]
        have hm2 : slen (shards.getD (sel.getD c 0) none) = size :=
          hmpres _ ((contains_iff_mem _ _).mp hcc)
        rw [if_neg (by omega)]
    rw [hL1,
      ← gfSum_mates_sel r.DataShards sel (az.filter fun s => decide (s ≠ b))
      (fun a => (sview (shards.getD a none)).getD t 0) hselinc hazinc hsellen
      hmates_sel]
    have hL2 : ((az.filter fun s => decide (s ≠ b)).map fun a =>
        (sview (shards.getD a none)).getD t 0) =
        (az.filter fun s => decide (s ≠ b)).map fun a =>
          gfSum ((List.range r.DataShards).map fun c => entry r.m a c * dv c t) :=
      List.map_congr_left (fun a ha => hview a ha t ht)
    rw [hL2, map_eq_map_range (fun a =>
      gfSum ((List.range r.DataShards).map fun c => entry r.m a c * dv c t))
      (az.filter fun s => decide (s ≠ b)) 0, gfSum_swap]
    apply congrArg gfSum
    apply List.map_congr_left
    intro c hc
    have hcd := List.mem_range.mp hc
    rw [hrow c hcd, gfSum_mul_right, List.map_map,
      map_eq_map_range _ (az.filter fun s => decide (s ≠ b)) 0]
    apply congrArg gfSum
    apply List.map_congr_left
    intro j _
    rfl

/-- C3 counterexample: an AzureLRC+1 encoder with `n = 2` data shards,
`m = 2` global parities and `l = 3` (shards `0,1` data, `2,3` global,
`4,5,6` local).  For the single failure of global-parity shard `2`, whose
AZ is the parity AZ `[2, 3, 6]`, `GetSurvivalShards` returns
`read_shards = [3, 6]` — the other members of the failed shard's AZ — of
size `2`, not `n/(l-1) = 1` as the claim asserts. -/
theorem GetSurvivalShards_parity_az_size :
    (GetSurvivalShards ⟨2, 5, buildMatrixAzureLrcP1 2 2 3,
        MatrixKind.azureLrcP1⟩ [2] [[0, 4], [1, 5], [2, 3, 6]]).2.2 = [3, 6] ∧
    ([3, 6] : List Nat).length ≠ 2 / (3 - 1) := by
  constructor
  · decide
  · decide

/-- Witness for `GetSurvivalShards_LRC_repair`: a 2+1+3 AzureLRC+1 encoder
(data `0,1`, global parity `2`, locals `3,4,5`), failure of data shard `0`,
canonical AZ layout; only the AZ mate (local parity `3`) is present and
the failed shard's bytes are recovered from it alone. -/
theorem GetSurvivalShards_LRC_repair_witness :
    GetSurvivalShards ⟨2, 4, buildMatrixAzureLrcP1 2 1 3,
        MatrixKind.azureLrcP1⟩ [0] [[0, 3], [1, 4], [2, 5]] =
      (none, [1, 3], ([0, 3] : List Nat).filter fun s => decide (s ≠ 0)) ∧
    isContainedIn (([0, 3] : List Nat).filter fun s => decide (s ≠ 0))
      [1, 3] = true ∧
    ∃ out, PartialReconstruct ⟨2, 4, buildMatrixAzureLrcP1 2 1 3,
        MatrixKind.azureLrcP1⟩
        [none, none, none, some ⟨1, [gfByte 7]⟩, none, none] [1, 3] [0] =
        (none, out) ∧
      ∀ t, t < 1 → (sview (out.getD 0 none)).getD t 0 =
        gfSum ((List.range 2).map fun c =>
          entry (buildMatrixAzureLrcP1 2 1 3) 0 c *
            (if c = 0 then gfByte 7 else gfByte 9)) :=
  GetSurvivalShards_LRC_repair
    ⟨2, 4, buildMatrixAzureLrcP1 2 1 3, MatrixKind.azureLrcP1⟩ 0 0
    [[0, 3], [1, 4], [2, 5]] [0, 3] [1, 3] [0, 2]
    [none, none, none, some ⟨1, [gfByte 7]⟩, none, none] 1
    (fun c t => if c = 0 then gfByte 7 else gfByte 9)
    rfl (by decide) (by decide) rfl (by decide) (by decide) (by decide)
    (by decide) (by decide) (by decide) (by decide) (by decide) (by decide)
    (by decide) (by decide) (by decide) (by decide) (by decide) (by decide)
    (by
      intro s hs
      show slen s ≤ scap s
      fin_cases hs <;> decide)
    (by decide) (by decide)

end RS
